import Mathlib

/-!
Verification of the custom malloc/free engine (`mymalloc.c`).

The allocator keeps an intrusive, address ordered, doubly linked list of
block headers.  We embed a heap state as the program break together with
the list of block headers in `next` order (head first, tail last).  Each
header carries its own address, its `is_free` flag (`FREE = 1` is `true`,
`TAKEN = 0` is `false`) and its `data_size` payload size in bytes.

Machine integers: `data_size` is a `uint32_t` in the source, so every
arithmetic result stored into it is reduced modulo `2^32` (`U32` below).
Addresses are modelled as unbounded naturals.  The header size
`sizeof(Block)` depends on the target (16 bytes with 32-bit pointers as
the source's own comment states, 24 bytes with 64-bit pointers), so all
definitions take it as a parameter `H`.
-/

namespace MyMalloc

/-- One block header of the allocator's intrusive doubly linked list:
`addr` is the address of the header itself, `is_free` models the
`uint32_t is_free` field (`FREE = 1` as `true`, `TAKEN = 0` as `false`),
and `data_size` models the `uint32_t data_size` field (payload bytes,
header excluded). -/
structure Block where
  addr : Nat
  is_free : Bool
  data_size : Nat
deriving DecidableEq

/-- Allocator state: the program break and the block list in address
order.  The C code reaches the list through the globals `head`/`tail`
and the `next`/`last` pointers; here `head` is the first list entry and
`tail` the last. -/
structure Heap where
  brk : Nat
  blocks : List Block
deriving DecidableEq

/-- Modulus of `uint32_t` arithmetic. -/
def U32 : Nat := 4294967296

/-- `MINIMUM_ALLOCATION` from the source. -/
def MINIMUM_ALLOCATION : Nat := 16

/-- `SIZE_MULTIPLE` from the source. -/
def SIZE_MULTIPLE : Nat := 8

/-- Address of a block's payload, `get_data_pointer` in the source:
the header address plus `sizeof(Block)` (the parameter `H`). -/
def get_data_pointer (H : Nat) (b : Block) : Nat := b.addr + H

/-- One past the last payload byte a block's header claims. -/
def endAddr (H : Nat) (b : Block) : Nat := b.addr + H + b.data_size

/-- Bytes a block occupies according to its header: header plus payload. -/
def blockSpan (H : Nat) (b : Block) : Nat := H + b.data_size

/-- Total bytes of a block list according to the headers. -/
def sumSpan (H : Nat) (bs : List Block) : Nat := (bs.map (blockSpan H)).sum

/-- `round_up_size`: `0 ↦ 0`; positive values below `MINIMUM_ALLOCATION`
go to `MINIMUM_ALLOCATION`; otherwise `(data_size + 7) & ~7` computed in
`unsigned int` arithmetic, i.e. the sum wraps modulo `2^32` and the mask
clears the low three bits. -/
def round_up_size (data_size : Nat) : Nat :=
  if data_size = 0 then 0
  else if data_size < MINIMUM_ALLOCATION then MINIMUM_ALLOCATION
  else (data_size + (SIZE_MULTIPLE - 1)) % U32 / 8 * 8

/-- `find_free_block`: first fit scan from the head.  Returns the index
(in list order) and the header of the first block with `is_free == FREE`
and `data_size >= size`, or `none`. -/
def find_free_block : List Block → Nat → Option (Nat × Block)
  | [], _ => none
  | b :: bs, size =>
    if b.is_free = true ∧ size ≤ b.data_size then some (0, b)
    else (find_free_block bs size).map (fun p => (p.1 + 1, p.2))

/-- Insert a block at position `n` of the list. -/
def insertAt (bs : List Block) (n : Nat) (b : Block) : List Block :=
  bs.take n ++ b :: bs.drop n

/-- `add_block_after`: place a new header directly behind block `i`'s
payload, at `get_data_pointer(prev) + prev->data_size`, and link it in
after block `i`. -/
def add_block_after (H : Nat) (bs : List Block) (i : Nat) (size : Nat) (fr : Bool) :
    List Block :=
  match bs[i]? with
  | none => bs
  | some prev => insertAt bs (i + 1) ⟨get_data_pointer H prev + prev.data_size, fr, size⟩

/-- `update_block`: mark block `i` as TAKEN; if the left-over payload
exceeds `sizeof(Block) + MINIMUM_ALLOCATION`, shrink it to `size` and
insert a FREE block of the remaining bytes behind it.
`size_left_over` is the `uint32_t` difference `data_size - size`
(callers guarantee `size ≤ data_size`, in which case the modular
subtraction is the exact one). -/
def update_block (H : Nat) (bs : List Block) (i : Nat) (size : Nat) : List Block :=
  match bs[i]? with
  | none => bs
  | some b =>
    let bs1 := bs.set i { b with is_free := false }
    let size_left_over := (b.data_size + (U32 - size % U32)) % U32
    if size_left_over ≤ H + MINIMUM_ALLOCATION then bs1
    else add_block_after H (bs1.set i ⟨b.addr, false, size⟩) i (size_left_over - H) true

/-- `add_to_list` when `sbrk` succeeds: extend the break by
`sizeof(Block) + size`, write a TAKEN header of payload `size` at the
old break, and make it the new tail. -/
def add_to_list (H : Nat) (h : Heap) (size : Nat) : Heap × Block :=
  (⟨h.brk + (H + size), h.blocks ++ [⟨h.brk, false, size⟩]⟩, ⟨h.brk, false, size⟩)

/-- `my_malloc` in the regime where `sbrk` succeeds whenever called:
reject `size == 0`, normalize the size, reuse the first fit if any
(splitting inside `update_block`), otherwise append a fresh tail block;
return the payload pointer. -/
def my_malloc (H : Nat) (h : Heap) (size : Nat) : Heap × Option Nat :=
  if size = 0 then (h, none)
  else
    let s := round_up_size size
    match find_free_block h.blocks s with
    | some p => (⟨h.brk, update_block H h.blocks p.1 s⟩, some (get_data_pointer H p.2))
    | none =>
      let p := add_to_list H h s
      (p.1, some (get_data_pointer H p.2))

/-- The address `sbrk` returns on failure, `(void * ) -1` on a 64-bit
machine. -/
def sbrk_fail_addr : Nat := 18446744073709551615

/-- The pointer `my_malloc` returns when no free block fits and `sbrk`
fails.  `add_to_list` does not check `sbrk`'s return value: it writes
the new header through the failure sentinel `(void * )-1` and returns
that sentinel, so the `free_block == NULL` test in `my_malloc` does not
fire and `my_malloc` returns `get_data_pointer` of the sentinel, i.e.
`(2^64 - 1 + sizeof(Block)) mod 2^64`. -/
def my_malloc_nogrow (H : Nat) (h : Heap) (size : Nat) : Option Nat :=
  if size = 0 then none
  else
    match find_free_block h.blocks (round_up_size size) with
    | some p => some (get_data_pointer H p.2)
    | none => some ((sbrk_fail_addr + H) % 18446744073709551616)

/-- `cur->is_free == FREE` test of `coalesce` at list position `i`
(`false` when there is no such block, mirroring the `!= NULL` guards). -/
def freeAt (bs : List Block) (i : Nat) : Bool :=
  match bs[i]? with
  | some b => b.is_free
  | none => false

/-- `remove_block`: merge block `i` into its left neighbour.  The left
neighbour's `uint32_t data_size` grows by `sizeof(Block) + data_size` of
the absorbed block (modulo `2^32`), and block `i` is unlinked.  The
source is only ever called with a left neighbour present (`block->last
!= NULL`); for `i = 0` the natural-subtraction index makes this a
no-op-like artifact that no caller exercises. -/
def remove_block (H : Nat) (bs : List Block) (i : Nat) : List Block :=
  match bs[i - 1]?, bs[i]? with
  | some l, some b =>
    (bs.set (i - 1) ⟨l.addr, l.is_free, (l.data_size + H + b.data_size) % U32⟩).eraseIdx i
  | _, _ => bs

/-- `coalesce`: if the left neighbour is FREE, absorb the block into it
(the current block becomes that left neighbour); then, if the right
neighbour of the current block is FREE, absorb that neighbour.  Returns
the resulting list and the position of the resulting block. -/
def coalesce (H : Nat) (bs : List Block) (i : Nat) : List Block × Nat :=
  let p := if 0 < i ∧ freeAt bs (i - 1) = true then (remove_block H bs i, i - 1) else (bs, i)
  if freeAt p.1 (p.2 + 1) = true then (remove_block H p.1 (p.2 + 1), p.2) else p

/-- `remove_from_list`: unlink block `i`, patching neighbour links and
the `head`/`tail` globals (all implicit in the list representation). -/
def remove_from_list (bs : List Block) (i : Nat) : List Block := bs.eraseIdx i

/-- `contract_heap`: `brk(block)`, retract the break to the block's
header address. -/
def contract_heap (h : Heap) (b : Block) : Heap := ⟨b.addr, h.blocks⟩

/-- Position of the block whose header sits at address `a`, if any;
this interprets the C cast `(Block * )(ptr - sizeof(Block))`. -/
def findBlockAt : List Block → Nat → Option Nat
  | [], _ => none
  | b :: bs, a => if b.addr = a then some 0 else (findBlockAt bs a).map (· + 1)

/-- `my_free`: ignore null; recover the header `sizeof(Block)` bytes
before the payload, mark it FREE, coalesce with FREE neighbours, and if
the coalesced block is the tail, unlink it and retract the break to its
header address.  A pointer that is not the payload pointer of a block is
undefined behaviour in C; the model leaves the heap unchanged there and
no theorem exercises that branch. -/
def my_free (H : Nat) (h : Heap) (ptr : Nat) : Heap :=
  if ptr = 0 then h
  else
    match findBlockAt h.blocks (ptr - H) with
    | none => h
    | some i =>
      let bs :=
        match h.blocks[i]? with
        | some b => h.blocks.set i { b with is_free := true }
        | none => h.blocks
      let p := coalesce H bs i
      if p.2 + 1 = p.1.length then
        match p.1[p.2]? with
        | some b => contract_heap ⟨h.brk, remove_from_list p.1 p.2⟩ b
        | none => ⟨h.brk, p.1⟩
      else ⟨h.brk, p.1⟩

/-- Run a list of `my_malloc` calls, collecting the returned
payload pointers in call order. -/
def allocPhase (H : Nat) : Heap → List Nat → Heap × List Nat
  | h, [] => (h, [])
  | h, s :: rest =>
    let p := my_malloc H h s
    let q := allocPhase H p.1 rest
    (q.1, p.2.toList ++ q.2)

/-- Run a list of `my_free` calls. -/
def freePhase (H : Nat) : Heap → List Nat → Heap
  | h, [] => h
  | h, q :: rest => freePhase H (my_free H h q) rest

/-- A valid allocated pointer: the payload pointer of some TAKEN block. -/
def validPtr (H : Nat) (h : Heap) (q : Nat) : Prop :=
  ∃ c ∈ h.blocks, c.is_free = false ∧ q = get_data_pointer H c

/-- States reachable from the empty heap (break at `b0`) by `my_malloc`
calls with any `unsigned int` size and `my_free` calls on valid
allocated pointers. -/
inductive ReachA (H b0 : Nat) : Heap → Prop where
  | init : ReachA H b0 ⟨b0, []⟩
  | alloc {h : Heap} {size : Nat} : ReachA H b0 h → size < U32 →
      ReachA H b0 (my_malloc H h size).1
  | free {h : Heap} {q : Nat} : ReachA H b0 h → validPtr H h q →
      ReachA H b0 (my_free H h q)

/-- States reachable from the empty heap in the overflow free regime:
every allocation size is at most `2^32 - 8` (so `round_up_size` does not
wrap) and the managed heap never reaches `2^32` bytes (so no coalescing
sum wraps). -/
inductive ReachB (H b0 : Nat) : Heap → Prop where
  | init : ReachB H b0 ⟨b0, []⟩
  | alloc {h : Heap} {size : Nat} : ReachB H b0 h → size ≤ U32 - 8 →
      sumSpan H (my_malloc H h size).1.blocks < U32 →
      ReachB H b0 (my_malloc H h size).1
  | free {h : Heap} {q : Nat} : ReachB H b0 h → validPtr H h q →
      ReachB H b0 (my_free H h q)

/-- Wrap tolerant state invariant: headers never overlap (each block's
claimed end is at most the next header and at most the break), the tail
is TAKEN, no two adjacent blocks are FREE, and every `data_size` is a
`uint32_t` value and a multiple of 8. -/
structure WInv (H : Nat) (h : Heap) : Prop where
  gap : h.blocks.Chain' (fun x y => endAddr H x ≤ y.addr)
  ends : ∀ b ∈ h.blocks, endAddr H b ≤ h.brk
  tailTk : ∀ b, h.blocks.getLast? = some b → b.is_free = false
  noAdj : h.blocks.Chain' (fun x y => x.is_free = true → y.is_free = false)
  ds32 : ∀ b ∈ h.blocks, b.data_size < U32
  mult8 : ∀ b ∈ h.blocks, 8 ∣ b.data_size

/-- The §3 state invariants of the specification, for a heap with block
headers stored in `uint32_t` fields: blocks are contiguous in address
order, the tail's end is the break, no two adjacent blocks are FREE, and
every `data_size` is a multiple of 8, at least 16 and a `uint32_t`
value. -/
structure Spec3Inv (H : Nat) (h : Heap) : Prop where
  contig : h.blocks.Chain' (fun x y => y.addr = endAddr H x)
  brkTail : ∀ b, h.blocks.getLast? = some b → h.brk = endAddr H b
  noAdj : h.blocks.Chain' (fun x y => x.is_free = true → y.is_free = false)
  mult8 : ∀ b ∈ h.blocks, 8 ∣ b.data_size
  ge16 : ∀ b ∈ h.blocks, 16 ≤ b.data_size
  ds32 : ∀ b ∈ h.blocks, b.data_size < U32

/-- Invariant tying a heap to the set `S` of outstanding (allocated,
not yet released) payload pointers, anchored at the address `anchor`
(the break before the phase began).  When `hasT` is set the initial
heap was non-empty and its TAKEN tail block `Tb`, ending exactly at
`anchor`, persists as a separator: no coalescing or retraction crosses
it.  Blocks at or above `anchor` that are TAKEN are exactly the
outstanding allocations. -/
structure PhaseInv (H anchor : Nat) (hasT gm : Bool) (h : Heap) (S : List Nat) :
    Prop where
  contig : h.blocks.Chain' (fun x y => y.addr = endAddr H x)
  brkTail : ∀ b, h.blocks.getLast? = some b → h.brk = endAddr H b
  brkNil : h.blocks = [] → h.brk = anchor
  headA : hasT = false → ∀ b, h.blocks.head? = some b → b.addr = anchor
  tailTk : ∀ b, h.blocks.getLast? = some b → b.is_free = false
  noAdj : h.blocks.Chain' (fun x y => x.is_free = true → y.is_free = false)
  ds32 : ∀ b ∈ h.blocks, b.data_size < U32
  mult8 : ∀ b ∈ h.blocks, 8 ∣ b.data_size
  ge16 : gm = true → ∀ b ∈ h.blocks, 16 ≤ b.data_size
  part : ∃ pre suf, h.blocks = pre ++ suf ∧ (∀ b ∈ suf, anchor ≤ b.addr) ∧
    (if hasT then
      ∃ pre2 Tb, pre = pre2 ++ [Tb] ∧ Tb.is_free = false ∧ endAddr H Tb = anchor ∧
        ∀ b ∈ pre, b.addr < anchor
     else pre = []) ∧
    (∀ b ∈ suf, b.is_free = false → b.addr + H ∈ S)
  ptrs : ∀ q ∈ S, ∃ c ∈ h.blocks, c.addr + H = q ∧ c.is_free = false ∧
    endAddr H c ≠ anchor
  nodup : S.Nodup

end MyMalloc

namespace MyMalloc

/-! ### List helper lemmas -/

theorem set_len_append (u v : List Block) (b c : Block) :
    (u ++ b :: v).set u.length c = u ++ c :: v := by
  induction u with
  | nil => rfl
  | cons x u ih => simp [ih]

theorem getElem?_len_append (u v : List Block) (b : Block) :
    (u ++ b :: v)[u.length]? = some b := by
  induction u with
  | nil => simp
  | cons x u ih => simpa using ih

theorem getElem?_len_succ_append (u v : List Block) (b : Block) :
    (u ++ b :: v)[u.length + 1]? = v[0]? := by
  induction u with
  | nil => simp
  | cons x u ih => simpa using ih

theorem eraseIdx_len_append (u v : List Block) (b : Block) :
    (u ++ b :: v).eraseIdx u.length = u ++ v := by
  induction u with
  | nil => rfl
  | cons x u ih => simpa [List.eraseIdx] using ih

theorem findBlockAt_append (u v : List Block) (b : Block)
    (hne : ∀ x ∈ u, x.addr ≠ b.addr) :
    findBlockAt (u ++ b :: v) b.addr = some u.length := by
  induction u with
  | nil => simp [findBlockAt]
  | cons x u ih =>
    have hx : x.addr ≠ b.addr := hne x (by simp)
    have ih' := ih (fun y hy => hne y (by simp [hy]))
    simp [findBlockAt, hx, ih']

theorem sumSpan_append (H : Nat) (u v : List Block) :
    sumSpan H (u ++ v) = sumSpan H u + sumSpan H v := by
  simp [sumSpan]

theorem sumSpan_cons (H : Nat) (b : Block) (v : List Block) :
    sumSpan H (b :: v) = blockSpan H b + sumSpan H v := by
  simp [sumSpan]

/-- Common unfolding of `my_free` at a valid payload pointer: the header
lookup finds exactly the block `b` between `u` and `v`, and the block is
marked FREE in place before coalescing. -/
theorem my_free_aux (H : Nat) (hH : 0 < H) (h : Heap) (u v : List Block) (b : Block)
    (hblocks : h.blocks = u ++ b :: v)
    (hne : ∀ x ∈ u, x.addr ≠ b.addr) :
    my_free H h (b.addr + H) =
      (let p := coalesce H (u ++ { b with is_free := true } :: v) u.length
       if p.2 + 1 = p.1.length then
         match p.1[p.2]? with
         | some c => ⟨c.addr, p.1.eraseIdx p.2⟩
         | none => ⟨h.brk, p.1⟩
       else ⟨h.brk, p.1⟩) := by
  have h0 : ¬(b.addr + H = 0) := by omega
  have hsub : b.addr + H - H = b.addr := by omega
  simp only [my_free, h0, if_false, hsub, hblocks, findBlockAt_append u v b hne,
    getElem?_len_append, set_len_append, contract_heap, remove_from_list]

end MyMalloc

namespace MyMalloc

theorem eraseIdx_len_succ_append (u v : List Block) (x y : Block) :
    (u ++ x :: y :: v).eraseIdx (u.length + 1) = u ++ x :: v := by
  induction u with
  | nil => rfl
  | cons z u ih => simpa [List.eraseIdx] using ih

theorem freeAt_len_append (u v : List Block) (c : Block) :
    freeAt (u ++ c :: v) u.length = c.is_free := by
  unfold freeAt
  rw [getElem?_len_append]

theorem freeAt_len_succ_append (u v : List Block) (c : Block)
    (hR : ∀ R, v[0]? = some R → R.is_free = false) :
    freeAt (u ++ c :: v) (u.length + 1) = false := by
  unfold freeAt
  rw [getElem?_len_succ_append]
  cases hv : v[0]? with
  | none => rfl
  | some R => simpa using hR R hv

/-- A condition of the form `u.getLast? = some L → L.is_free = false`
makes the left-merge guard of `coalesce` false. -/
theorem coalesce_left_guard_false (u v : List Block) (c : Block)
    (hL : ∀ L, u.getLast? = some L → L.is_free = false) :
    ¬(0 < u.length ∧ freeAt (u ++ c :: v) (u.length - 1) = true) := by
  rcases List.eq_nil_or_concat u with rfl | ⟨u', L, rfl⟩
  · simp
  · simp only [List.concat_eq_append] at hL ⊢
    have h1 : u' ++ [L] ++ c :: v = u' ++ L :: c :: v := by simp
    have h2 : (u' ++ [L]).length - 1 = u'.length := by simp
    rw [h1, h2]
    have h3 : freeAt (u' ++ L :: c :: v) u'.length = L.is_free :=
      freeAt_len_append u' (c :: v) L
    have hLf : L.is_free = false := hL L (by simp)
    rw [h3, hLf]
    simp

/-- `remove_block` at position `u.length + 1` of `u ++ x :: y :: v`
merges `y` into `x`. -/
theorem remove_block_shape (H : Nat) (u v : List Block) (x y : Block) :
    remove_block H (u ++ x :: y :: v) (u.length + 1) =
      u ++ (⟨x.addr, x.is_free, (x.data_size + H + y.data_size) % U32⟩ : Block) :: v := by
  unfold remove_block
  have e1 : (u ++ x :: y :: v)[u.length + 1 - 1]? = some x := by
    simp only [Nat.add_sub_cancel]
    exact getElem?_len_append u (y :: v) x
  have e2 : (u ++ x :: y :: v)[u.length + 1]? = some y := by
    simp [getElem?_len_succ_append u (y :: v) x]
  simp only [e1, e2]
  have e3 : (u ++ x :: y :: v).set (u.length + 1 - 1)
      (⟨x.addr, x.is_free, (x.data_size + H + y.data_size) % U32⟩ : Block) =
      u ++ (⟨x.addr, x.is_free, (x.data_size + H + y.data_size) % U32⟩ : Block) :: y :: v := by
    simpa using set_len_append u (y :: v) x _
  rw [e3]
  exact eraseIdx_len_succ_append u v _ y

/-- `coalesce` with no FREE neighbour on either side leaves the list
unchanged. -/
theorem coalesce_nn (H : Nat) (u v : List Block) (c : Block)
    (hL : ∀ L, u.getLast? = some L → L.is_free = false)
    (hR : ∀ R, v[0]? = some R → R.is_free = false) :
    coalesce H (u ++ c :: v) u.length = (u ++ c :: v, u.length) := by
  unfold coalesce
  rw [if_neg (coalesce_left_guard_false u v c hL)]
  have h2 : freeAt (u ++ c :: v) (u.length + 1) = false :=
    freeAt_len_succ_append u v c hR
  simp [h2]

/-- `coalesce` with a FREE left neighbour and no FREE right neighbour:
one left merge. -/
theorem coalesce_ln (H : Nat) (u' v : List Block) (L c : Block)
    (hLf : L.is_free = true)
    (hR : ∀ R, v[0]? = some R → R.is_free = false) :
    coalesce H (u' ++ L :: c :: v) (u'.length + 1) =
      (u' ++ (⟨L.addr, true, (L.data_size + H + c.data_size) % U32⟩ : Block) :: v,
        u'.length) := by
  have hrb : remove_block H (u' ++ L :: c :: v) (u'.length + 1) =
      u' ++ (⟨L.addr, true, (L.data_size + H + c.data_size) % U32⟩ : Block) :: v := by
    rw [remove_block_shape, hLf]
  have h2 : freeAt
      (u' ++ (⟨L.addr, true, (L.data_size + H + c.data_size) % U32⟩ : Block) :: v)
      (u'.length + 1) = false := freeAt_len_succ_append u' v _ hR
  have hcond : 0 < u'.length + 1 ∧
      freeAt (u' ++ L :: c :: v) (u'.length + 1 - 1) = true := by
    refine ⟨Nat.succ_pos _, ?_⟩
    have h3 : freeAt (u' ++ L :: c :: v) u'.length = L.is_free :=
      freeAt_len_append u' (c :: v) L
    simpa [h3] using hLf
  unfold coalesce
  rw [if_pos hcond]
  dsimp only
  simp only [Nat.add_sub_cancel]
  rw [hrb, h2]
  simp

/-- `coalesce` with no FREE left neighbour and a FREE right neighbour:
one right merge. -/
theorem coalesce_nr (H : Nat) (u v' : List Block) (c R : Block)
    (hL : ∀ L, u.getLast? = some L → L.is_free = false)
    (hRf : R.is_free = true) :
    coalesce H (u ++ c :: R :: v') u.length =
      (u ++ (⟨c.addr, c.is_free, (c.data_size + H + R.data_size) % U32⟩ : Block) :: v',
        u.length) := by
  unfold coalesce
  rw [if_neg (coalesce_left_guard_false u (R :: v') c hL)]
  dsimp only
  have h2 : freeAt (u ++ c :: R :: v') (u.length + 1) = true := by
    unfold freeAt
    rw [getElem?_len_succ_append]
    simpa using hRf
  rw [h2]
  simp only [if_pos]
  rw [remove_block_shape]

/-- `coalesce` with FREE neighbours on both sides: a left merge followed
by a right merge of the merged block. -/
theorem coalesce_lr (H : Nat) (u' v' : List Block) (L c R : Block)
    (hLf : L.is_free = true) (hRf : R.is_free = true) :
    coalesce H (u' ++ L :: c :: R :: v') (u'.length + 1) =
      (u' ++ (⟨L.addr, true,
          ((L.data_size + H + c.data_size) % U32 + H + R.data_size) % U32⟩ : Block) :: v',
        u'.length) := by
  have hrb : remove_block H (u' ++ L :: c :: R :: v') (u'.length + 1) =
      u' ++ (⟨L.addr, true, (L.data_size + H + c.data_size) % U32⟩ : Block) :: R :: v' := by
    rw [remove_block_shape, hLf]
  have h2 : freeAt
      (u' ++ (⟨L.addr, true, (L.data_size + H + c.data_size) % U32⟩ : Block) :: R :: v')
      (u'.length + 1) = true := by
    unfold freeAt
    rw [getElem?_len_succ_append]
    simpa using hRf
  have hrb2 : remove_block H
      (u' ++ (⟨L.addr, true, (L.data_size + H + c.data_size) % U32⟩ : Block) :: R :: v')
      (u'.length + 1) =
      u' ++ (⟨L.addr, true,
        ((L.data_size + H + c.data_size) % U32 + H + R.data_size) % U32⟩ : Block) :: v' := by
    rw [remove_block_shape]
  have hcond : 0 < u'.length + 1 ∧
      freeAt (u' ++ L :: c :: R :: v') (u'.length + 1 - 1) = true := by
    refine ⟨Nat.succ_pos _, ?_⟩
    have h3 : freeAt (u' ++ L :: c :: R :: v') u'.length = L.is_free :=
      freeAt_len_append u' (c :: R :: v') L
    simpa [h3] using hLf
  unfold coalesce
  rw [if_pos hcond]
  dsimp only
  simp only [Nat.add_sub_cancel]
  rw [hrb, h2]
  simp only [if_pos]
  rw [hrb2]

end MyMalloc

namespace MyMalloc

/-- `my_free` at a TAKEN block with no FREE neighbour: the block is
marked FREE in place; if it is the tail it is unlinked and the break
retracts to its header address. -/
theorem my_free_nn (H : Nat) (hH : 0 < H) (h : Heap) (u v : List Block) (b : Block)
    (hblocks : h.blocks = u ++ b :: v)
    (hne : ∀ x ∈ u, x.addr ≠ b.addr)
    (hL : ∀ L, u.getLast? = some L → L.is_free = false)
    (hR : ∀ R, v[0]? = some R → R.is_free = false) :
    my_free H h (b.addr + H) =
      if v = [] then ⟨b.addr, u⟩
      else ⟨h.brk, u ++ (⟨b.addr, true, b.data_size⟩ : Block) :: v⟩ := by
  rw [my_free_aux H hH h u v b hblocks hne]
  have hfb : ({ b with is_free := true } : Block) = ⟨b.addr, true, b.data_size⟩ := rfl
  rw [hfb, coalesce_nn H u v _ hL hR]
  dsimp only
  rcases v with _ | ⟨R, v'⟩
  · have hlen : u.length + 1 = (u ++ [(⟨b.addr, true, b.data_size⟩ : Block)]).length := by
      simp
    rw [if_pos hlen]
    have := getElem?_len_append u ([] : List Block) (⟨b.addr, true, b.data_size⟩ : Block)
    rw [this]
    have := eraseIdx_len_append u ([] : List Block) (⟨b.addr, true, b.data_size⟩ : Block)
    rw [this]
    simp
  · have hlen : ¬(u.length + 1 =
        (u ++ (⟨b.addr, true, b.data_size⟩ : Block) :: R :: v').length) := by
      simp
    rw [if_neg hlen]
    simp

/-- `my_free` at a TAKEN block with a FREE left neighbour and no FREE
right neighbour: the block is absorbed into the left neighbour; if the
merged block is the tail it is unlinked and the break retracts to the
left neighbour's header address. -/
theorem my_free_ln (H : Nat) (hH : 0 < H) (h : Heap) (u' v : List Block) (L b : Block)
    (hblocks : h.blocks = u' ++ L :: b :: v)
    (hne : ∀ x ∈ u' ++ [L], x.addr ≠ b.addr)
    (hLf : L.is_free = true)
    (hR : ∀ R, v[0]? = some R → R.is_free = false) :
    my_free H h (b.addr + H) =
      if v = [] then ⟨L.addr, u'⟩
      else ⟨h.brk,
        u' ++ (⟨L.addr, true, (L.data_size + H + b.data_size) % U32⟩ : Block) :: v⟩ := by
  have hb2 : h.blocks = (u' ++ [L]) ++ b :: v := by simpa using hblocks
  rw [my_free_aux H hH h (u' ++ [L]) v b hb2 hne]
  have hlen1 : (u' ++ [L]).length = u'.length + 1 := by simp
  have hset : (u' ++ [L]) ++ ({ b with is_free := true } : Block) :: v =
      u' ++ L :: ({ b with is_free := true } : Block) :: v := by simp
  rw [hlen1, hset]
  have hco := coalesce_ln H u' v L ({ b with is_free := true } : Block) hLf hR
  rw [hco]
  dsimp only
  rcases v with _ | ⟨R, v'⟩
  · have hlen : u'.length + 1 =
        (u' ++ [(⟨L.addr, true, (L.data_size + H + b.data_size) % U32⟩ : Block)]).length := by
      simp
    rw [if_pos hlen]
    have := getElem?_len_append u' ([] : List Block)
      (⟨L.addr, true, (L.data_size + H + b.data_size) % U32⟩ : Block)
    rw [this]
    have := eraseIdx_len_append u' ([] : List Block)
      (⟨L.addr, true, (L.data_size + H + b.data_size) % U32⟩ : Block)
    rw [this]
    simp
  · have hlen : ¬(u'.length + 1 =
        (u' ++ (⟨L.addr, true, (L.data_size + H + b.data_size) % U32⟩ : Block) ::
          R :: v').length) := by
      simp
    rw [if_neg hlen]
    simp

/-- `my_free` at a TAKEN block with no FREE left neighbour and a FREE
right neighbour: the right neighbour is absorbed into the freed block;
if the merged block is the tail it is unlinked and the break retracts to
the freed block's header address. -/
theorem my_free_nr (H : Nat) (hH : 0 < H) (h : Heap) (u v' : List Block) (b R : Block)
    (hblocks : h.blocks = u ++ b :: R :: v')
    (hne : ∀ x ∈ u, x.addr ≠ b.addr)
    (hL : ∀ L, u.getLast? = some L → L.is_free = false)
    (hRf : R.is_free = true) :
    my_free H h (b.addr + H) =
      if v' = [] then ⟨b.addr, u⟩
      else ⟨h.brk,
        u ++ (⟨b.addr, true, (b.data_size + H + R.data_size) % U32⟩ : Block) :: v'⟩ := by
  rw [my_free_aux H hH h u (R :: v') b hblocks hne]
  have hco := coalesce_nr H u v' ({ b with is_free := true } : Block) R hL hRf
  rw [hco]
  dsimp only
  rcases v' with _ | ⟨y, v''⟩
  · have hlen : u.length + 1 =
        (u ++ [(⟨b.addr, true, (b.data_size + H + R.data_size) % U32⟩ : Block)]).length := by
      simp
    rw [if_pos hlen]
    have := getElem?_len_append u ([] : List Block)
      (⟨b.addr, true, (b.data_size + H + R.data_size) % U32⟩ : Block)
    rw [this]
    have := eraseIdx_len_append u ([] : List Block)
      (⟨b.addr, true, (b.data_size + H + R.data_size) % U32⟩ : Block)
    rw [this]
    simp
  · have hlen : ¬(u.length + 1 =
        (u ++ (⟨b.addr, true, (b.data_size + H + R.data_size) % U32⟩ : Block) ::
          y :: v'').length) := by
      simp
    rw [if_neg hlen]
    simp

/-- `my_free` at a TAKEN block with FREE neighbours on both sides: the
block and its right neighbour are absorbed into the left neighbour; if
the merged block is the tail it is unlinked and the break retracts to
the left neighbour's header address. -/
theorem my_free_lr (H : Nat) (hH : 0 < H) (h : Heap) (u' v' : List Block) (L b R : Block)
    (hblocks : h.blocks = u' ++ L :: b :: R :: v')
    (hne : ∀ x ∈ u' ++ [L], x.addr ≠ b.addr)
    (hLf : L.is_free = true) (hRf : R.is_free = true) :
    my_free H h (b.addr + H) =
      if v' = [] then ⟨L.addr, u'⟩
      else ⟨h.brk,
        u' ++ (⟨L.addr, true,
          ((L.data_size + H + b.data_size) % U32 + H + R.data_size) % U32⟩ : Block) ::
          v'⟩ := by
  have hb2 : h.blocks = (u' ++ [L]) ++ b :: R :: v' := by simpa using hblocks
  rw [my_free_aux H hH h (u' ++ [L]) (R :: v') b hb2 hne]
  have hlen1 : (u' ++ [L]).length = u'.length + 1 := by simp
  have hset : (u' ++ [L]) ++ ({ b with is_free := true } : Block) :: R :: v' =
      u' ++ L :: ({ b with is_free := true } : Block) :: R :: v' := by simp
  rw [hlen1, hset]
  have hco := coalesce_lr H u' v' L ({ b with is_free := true } : Block) R hLf hRf
  rw [hco]
  dsimp only
  rcases v' with _ | ⟨y, v''⟩
  · have hlen : u'.length + 1 =
        (u' ++ [(⟨L.addr, true,
          ((L.data_size + H + b.data_size) % U32 + H + R.data_size) % U32⟩ : Block)]).length := by
      simp
    rw [if_pos hlen]
    have := getElem?_len_append u' ([] : List Block)
      (⟨L.addr, true, ((L.data_size + H + b.data_size) % U32 + H + R.data_size) % U32⟩ : Block)
    rw [this]
    have := eraseIdx_len_append u' ([] : List Block)
      (⟨L.addr, true, ((L.data_size + H + b.data_size) % U32 + H + R.data_size) % U32⟩ : Block)
    rw [this]
    simp
  · have hlen : ¬(u'.length + 1 =
        (u' ++ (⟨L.addr, true,
          ((L.data_size + H + b.data_size) % U32 + H + R.data_size) % U32⟩ : Block) ::
          y :: v'').length) := by
      simp
    rw [if_neg hlen]
    simp

end MyMalloc

namespace MyMalloc

/-- Soundness and minimality of the first fit scan. -/
theorem find_free_block_some (bs : List Block) (s : Nat) :
    ∀ i b, find_free_block bs s = some (i, b) →
      bs[i]? = some b ∧ b.is_free = true ∧ s ≤ b.data_size ∧
      ∀ j c, j < i → bs[j]? = some c → ¬(c.is_free = true ∧ s ≤ c.data_size) := by
  induction bs with
  | nil => intro i b h; simp [find_free_block] at h
  | cons x bs ih =>
    intro i b h
    unfold find_free_block at h
    by_cases hx : x.is_free = true ∧ s ≤ x.data_size
    · rw [if_pos hx] at h
      have h' : 0 = i ∧ x = b := by simpa using h
      obtain ⟨rfl, rfl⟩ := h'
      refine ⟨by simp, hx.1, hx.2, ?_⟩
      intro j c hj _
      exact absurd hj (Nat.not_lt_zero j)
    · rw [if_neg hx] at h
      rcases ho : find_free_block bs s with _ | ⟨pi, pb⟩
      · rw [ho] at h; simp at h
      · rw [ho] at h
        have h' : pi + 1 = i ∧ pb = b := by simpa using h
        obtain ⟨rfl, rfl⟩ := h'
        obtain ⟨h1, h2, h3, h4⟩ := ih pi pb ho
        refine ⟨by simpa using h1, h2, h3, ?_⟩
        intro j c hj hget
        cases j with
        | zero =>
          have hcx : x = c := by simpa using hget
          subst hcx
          exact hx
        | succ j' =>
          exact h4 j' c (by omega) (by simpa using hget)

/-- Completeness of the first fit scan: `none` means no FREE block is
large enough. -/
theorem find_free_block_none (bs : List Block) (s : Nat) :
    find_free_block bs s = none →
      ∀ c ∈ bs, ¬(c.is_free = true ∧ s ≤ c.data_size) := by
  induction bs with
  | nil => intro _ c hc; simp at hc
  | cons x bs ih =>
    intro h c hc
    unfold find_free_block at h
    by_cases hx : x.is_free = true ∧ s ≤ x.data_size
    · rw [if_pos hx] at h; simp at h
    · rw [if_neg hx] at h
      rcases List.mem_cons.mp hc with rfl | hc'
      · exact hx
      · rcases ho : find_free_block bs s with _ | p
        · exact ih ho c hc'
        · rw [ho] at h; simp at h

/-- In a strictly address sorted list every block left of `b` has a
strictly smaller address. -/
theorem chain_addr_lt_of_append (u v : List Block) (b : Block)
    (h : (u ++ b :: v).Chain' (fun x y => x.addr < y.addr)) :
    ∀ x ∈ u, x.addr < b.addr := by
  induction u with
  | nil => simp
  | cons z u2 ih =>
    intro x hx
    rw [List.cons_append] at h
    rcases List.mem_cons.mp hx with rfl | hx'
    · cases u2 with
      | nil => exact (List.chain'_cons.mp h).1
      | cons w u3 =>
        have hzw : x.addr < w.addr := (List.chain'_cons.mp h).1
        have hwb : w.addr < b.addr := ih h.tail w (by simp)
        omega
    · exact ih h.tail x hx'

/-- Index monotonicity of addresses in a strictly sorted list. -/
theorem chain_addr_le_of_getElem (bs : List Block)
    (hsort : bs.Chain' (fun x y => x.addr < y.addr)) :
    ∀ (i j : Nat) (bi bj : Block), i ≤ j → bs[i]? = some bi → bs[j]? = some bj →
      bi.addr ≤ bj.addr := by
  induction bs with
  | nil => intro i j bi bj _ h; simp at h
  | cons x bs ih =>
    intro i j bi bj hij hi hj
    cases i with
    | zero =>
      have hx : x = bi := by simpa using hi
      subst hx
      cases j with
      | zero =>
        have hbj : x = bj := by simpa using hj
        subst hbj
        exact le_refl _
      | succ j' =>
        have hj' : bs[j']? = some bj := by simpa using hj
        have hmem : bj ∈ bs := by
          have h2 := List.getElem?_eq_some_iff.mp hj'
          obtain ⟨hlt, hval⟩ := h2
          exact hval ▸ List.getElem_mem hlt
        cases bs with
        | nil => simp at hj'
        | cons w bs2 =>
          have hxw : x.addr < w.addr := (List.chain'_cons.mp hsort).1
          rcases List.mem_cons.mp hmem with rfl | hmem2
          · omega
          · obtain ⟨u, v, rfl⟩ := List.append_of_mem hmem2
            have h3 := chain_addr_lt_of_append (w :: u) v bj (by simpa using hsort.tail)
            have hw := h3 w (by simp)
            omega
    | succ i' =>
      cases j with
      | zero => omega
      | succ j' =>
        exact ih hsort.tail i' j' bi bj (by omega) (by simpa using hi) (by simpa using hj)

end MyMalloc

namespace MyMalloc

/-- Claim C8 counterexample: for `n = 4294967290` (a legal `unsigned
int` argument), the `uint32_t` sum `n + 7` wraps and `round_up_size`
returns `0`, which is not a multiple of 8 that is at least `n`: the
result is smaller than `n`. -/
theorem c8_round_up_counterexample :
    round_up_size 4294967290 = 0 ∧ 16 ≤ 4294967290 ∧
    ¬(4294967290 ≤ round_up_size 4294967290) := by
  refine ⟨by decide, by decide, by decide⟩

/-- Claim C8, amended: on the `unsigned int` domain `n < 2^32`,
`round_up_size` maps `0` to `0`, positive values below `16` to `16`, and
values `16 ≤ n ≤ 2^32 - 8` to the least multiple of `8` that is at least
`n`; for the seven values `n > 2^32 - 8` the addition `n + 7` wraps
modulo `2^32` and the function returns `0`. -/
theorem c8_round_up_amended (n : Nat) (hn : n < U32) :
    (n = 0 → round_up_size n = 0) ∧
    (0 < n → n < 16 → round_up_size n = 16) ∧
    (16 ≤ n → n + 7 < U32 →
      8 ∣ round_up_size n ∧ n ≤ round_up_size n ∧
      ∀ m, 8 ∣ m → n ≤ m → round_up_size n ≤ m) ∧
    (U32 - 7 ≤ n → round_up_size n = 0) := by
  simp only [U32] at hn ⊢
  unfold round_up_size MINIMUM_ALLOCATION SIZE_MULTIPLE
  refine ⟨fun h0 => by simp [h0], fun h1 h2 => by rw [if_neg (by omega), if_pos (by omega)],
    ?_, ?_⟩
  · intro h16 hlt
    simp only [U32] at hlt ⊢
    rw [if_neg (by omega), if_neg (by omega)]
    have h71 : (8 : Nat) - 1 = 7 := by norm_num
    rw [h71]
    have hmod : (n + 7) % 4294967296 = n + 7 := Nat.mod_eq_of_lt (by omega)
    rw [hmod]
    refine ⟨Dvd.intro_left _ rfl, by omega, ?_⟩
    intro m hm hnm
    omega
  · intro hge
    simp only [U32]
    rw [if_neg (by omega), if_neg (by omega)]
    have h71 : (8 : Nat) - 1 = 7 := by norm_num
    rw [h71]
    have hmod : (n + 7) % 4294967296 = n + 7 - 4294967296 := by omega
    rw [hmod]
    omega

/-- Witness for the amended C8 at `n = 45`: the result `48` is the least
multiple of 8 that is at least `45`. -/
theorem c8_round_up_amended_witness :
    45 ≤ round_up_size 45 ∧ 8 ∣ round_up_size 45 ∧ round_up_size 45 ≤ 48 := by
  have h := (c8_round_up_amended 45 (by norm_num [U32])).2.2.1 (by norm_num)
    (by norm_num [U32])
  exact ⟨h.2.1, h.1, h.2.2 48 (by norm_num) (by norm_num)⟩

/-- Claim C4: the first fit scan returns a FREE block that is large
enough, no earlier list position is a candidate, and (since the list is
strictly address sorted, head lowest) the returned block has the lowest
address among all candidates; `none` is returned exactly when no FREE
block is at least `size`. -/
theorem c4_first_fit_order (bs : List Block) (s : Nat)
    (hsort : bs.Chain' (fun x y => x.addr < y.addr)) :
    (∀ i b, find_free_block bs s = some (i, b) →
      bs[i]? = some b ∧ b.is_free = true ∧ s ≤ b.data_size ∧
      (∀ j c, j < i → bs[j]? = some c → ¬(c.is_free = true ∧ s ≤ c.data_size)) ∧
      (∀ c ∈ bs, c.is_free = true → s ≤ c.data_size → b.addr ≤ c.addr)) ∧
    (find_free_block bs s = none → ∀ c ∈ bs, ¬(c.is_free = true ∧ s ≤ c.data_size)) := by
  constructor
  · intro i b hfind
    obtain ⟨h1, h2, h3, h4⟩ := find_free_block_some bs s i b hfind
    refine ⟨h1, h2, h3, h4, ?_⟩
    intro c hc hcf hcs
    obtain ⟨j, hj⟩ := List.mem_iff_getElem?.mp hc
    by_cases hji : j < i
    · exact absurd ⟨hcf, hcs⟩ (h4 j c hji hj)
    · exact chain_addr_le_of_getElem bs hsort i j b c (by omega) h1 hj
  · exact find_free_block_none bs s

/-- Witness for C4 on the §8 example: FREE blocks of sizes
40, 80, 120, 160, 200 at increasing addresses; a request for 120 bytes
returns the third block, whose address is at most that of any later
fitting block. -/
theorem c4_first_fit_order_witness :
    ([⟨0, true, 40⟩, ⟨64, true, 80⟩, ⟨168, true, 120⟩, ⟨312, true, 160⟩,
        ⟨496, true, 200⟩] : List Block)[2]? = some ⟨168, true, 120⟩ ∧
    (⟨168, true, 120⟩ : Block).addr ≤ (⟨496, true, 200⟩ : Block).addr := by
  have h := (c4_first_fit_order
    [⟨0, true, 40⟩, ⟨64, true, 80⟩, ⟨168, true, 120⟩, ⟨312, true, 160⟩, ⟨496, true, 200⟩]
    120 (by norm_num [List.chain'_cons])).1 2 ⟨168, true, 120⟩ (by decide)
  exact ⟨h.1, h.2.2.2.2 ⟨496, true, 200⟩ (by decide) (by decide) (by decide)⟩

end MyMalloc

namespace MyMalloc

/-- Claim C3: when the first fit search finds a FREE block `b` for the
normalized size `s`, `update_block` marks it TAKEN; if the left-over
payload `b.data_size - s` is at most `sizeof(Block) +
MINIMUM_ALLOCATION` the size is left unchanged (no split), and
otherwise the block is shrunk to `s` and a FREE block whose header sits
exactly at `b`'s payload address plus `s`, with payload
`(b.data_size - s) - sizeof(Block)`, is inserted directly after it. -/
theorem c3_split_threshold (H : Nat) (bs : List Block) (size0 s i : Nat) (b : Block)
    (hs : s = round_up_size size0)
    (hfind : find_free_block bs s = some (i, b))
    (hds : b.data_size < U32) :
    (b.data_size - s ≤ H + MINIMUM_ALLOCATION →
      update_block H bs i s = bs.set i { b with is_free := false }) ∧
    (H + MINIMUM_ALLOCATION < b.data_size - s →
      update_block H bs i s =
        insertAt (bs.set i ⟨b.addr, false, s⟩) (i + 1)
          ⟨get_data_pointer H b + s, true, b.data_size - s - H⟩) := by
  obtain ⟨h1, _, h3, _⟩ := find_free_block_some bs s i b hfind
  have hsU : s < U32 := lt_of_le_of_lt h3 hds
  have hslo : (b.data_size + (U32 - s % U32)) % U32 = b.data_size - s := by
    rw [Nat.mod_eq_of_lt hsU]
    simp only [U32] at hds hsU ⊢
    omega
  unfold update_block
  rw [h1]
  simp only [hslo]
  constructor
  · intro hle
    rw [if_pos hle]
  · intro hgt
    rw [if_neg (by omega)]
    have hlen : i < bs.length := (List.getElem?_eq_some_iff.mp h1).1
    unfold add_block_after
    rw [List.set_set]
    have hget : ((bs.set i ⟨b.addr, false, s⟩))[i]? = some ⟨b.addr, false, s⟩ := by
      rw [List.getElem?_set_self']
      simp [hlen]
    rw [hget]
    simp [get_data_pointer]

/-- Witness for C3, split case: a FREE block of 120 bytes at address 0
(`H = 24`), allocated with normalized size 40: the block is shrunk and a
FREE 56-byte block appears at its payload address plus 40. -/
theorem c3_split_threshold_witness :
    update_block 24 [⟨0, true, 120⟩] 0 40 =
      [⟨0, false, 40⟩, ⟨64, true, 56⟩] := by
  have h := (c3_split_threshold 24 [⟨0, true, 120⟩] 40 40 0 ⟨0, true, 120⟩
    (by decide) (by decide) (by norm_num [U32])).2 (by norm_num [MINIMUM_ALLOCATION])
  rw [h]
  decide

/-- Claim C1 (the code bug): when no free block fits and `sbrk` fails,
`my_malloc` does not return null.  `add_to_list` writes the tail header
through the unchecked failure sentinel `(void * )-1` and returns it, so
`my_malloc` returns the sentinel plus `sizeof(Block)`, which wraps to
the non-null address `sizeof(Block) - 1`, and the error path that prints
a diagnostic and returns `NULL` is never taken. -/
theorem c1_growth_failure_not_null (H : Nat) (h : Heap) (size : Nat)
    (hH1 : 2 ≤ H) (hH2 : H ≤ 18446744073709551616)
    (hsz : 0 < size)
    (hnofit : find_free_block h.blocks (round_up_size size) = none) :
    my_malloc_nogrow H h size = some (H - 1) ∧ my_malloc_nogrow H h size ≠ none := by
  have hmain : my_malloc_nogrow H h size = some (H - 1) := by
    unfold my_malloc_nogrow
    rw [if_neg (by omega), hnofit]
    unfold sbrk_fail_addr
    norm_num
    omega
  exact ⟨hmain, by rw [hmain]; exact Option.some_ne_none _⟩

/-- Witness for C1 with `sizeof(Block) = 24` on the empty heap: the
returned pointer is address 23, not null. -/
theorem c1_growth_failure_not_null_witness :
    my_malloc_nogrow 24 ⟨0, []⟩ 16 = some 23 ∧ my_malloc_nogrow 24 ⟨0, []⟩ 16 ≠ none :=
  c1_growth_failure_not_null 24 ⟨0, []⟩ 16 (by norm_num) (by norm_num) (by norm_num)
    (by decide)

end MyMalloc

namespace MyMalloc

/-- Claim C5 counterexample: releasing a block whose FREE left
neighbour has `data_size = 2^31` while the block has `data_size =
2^31 + 24` (header size 24) merges them, but the `uint32_t` sum wraps:
the left neighbour's size becomes `48`, not the exact
`data_size + sizeof(Block) + block.data_size`. -/
theorem c5_coalesce_counterexample :
    my_free 24 ⟨4294967408,
      [⟨0, true, 2147483648⟩, ⟨2147483672, false, 2147483672⟩,
        ⟨4294967368, false, 16⟩]⟩ 2147483696 =
      ⟨4294967408, [⟨0, true, 48⟩, ⟨4294967368, false, 16⟩]⟩ ∧
    (48 : Nat) ≠ 2147483648 + (24 + 2147483672) := by
  exact ⟨by decide, by decide⟩

/-- Claim C5, amended: inside a release, after the freed block is
marked FREE, `coalesce` first merges it into its left neighbour when
that neighbour is FREE (the neighbour's `uint32_t data_size` growing by
`sizeof(Block) + block.data_size` modulo `2^32`, the absorbed block
unlinked), and then, independently, the resulting block absorbs its
right neighbour when that neighbour is FREE — with at most one merge on
each side (the surrounding lists `u2` and `v2` are untouched). -/
theorem c5_coalesce_amended (H : Nat) (u v : List Block) (b : Block)
    (hb : b.is_free = false) :
    (∀ u2 L, u = u2 ++ [L] → L.is_free = true →
      (∀ R v2, v = R :: v2 → R.is_free = true →
        coalesce H (u ++ { b with is_free := true } :: v) u.length =
          (u2 ++ (⟨L.addr, true,
            ((L.data_size + H + b.data_size) % U32 + H + R.data_size) % U32⟩ : Block) :: v2,
            u2.length)) ∧
      ((∀ R, v[0]? = some R → R.is_free = false) →
        coalesce H (u ++ { b with is_free := true } :: v) u.length =
          (u2 ++ (⟨L.addr, true, (L.data_size + H + b.data_size) % U32⟩ : Block) :: v,
            u2.length))) ∧
    ((∀ L, u.getLast? = some L → L.is_free = false) →
      (∀ R v2, v = R :: v2 → R.is_free = true →
        coalesce H (u ++ { b with is_free := true } :: v) u.length =
          (u ++ (⟨b.addr, true, (b.data_size + H + R.data_size) % U32⟩ : Block) :: v2,
            u.length)) ∧
      ((∀ R, v[0]? = some R → R.is_free = false) →
        coalesce H (u ++ { b with is_free := true } :: v) u.length =
          (u ++ { b with is_free := true } :: v, u.length))) := by
  constructor
  · intro u2 L hu hLf
    subst hu
    constructor
    · intro R v2 hv hRf
      subst hv
      have := coalesce_lr H u2 v2 L { b with is_free := true } R hLf hRf
      simpa using this
    · intro hR
      have := coalesce_ln H u2 v L { b with is_free := true } hLf hR
      simpa using this
  · intro hL
    constructor
    · intro R v2 hv hRf
      subst hv
      exact coalesce_nr H u v2 { b with is_free := true } R hL hRf
    · intro hR
      exact coalesce_nn H u v { b with is_free := true } hL hR

/-- Witness for the amended C5: a TAKEN block between a FREE left
neighbour and the list end merges once to the left; the TAKEN block two
to the left is untouched. -/
theorem c5_coalesce_amended_witness :
    coalesce 24 [⟨0, false, 16⟩, ⟨40, true, 16⟩, ⟨80, true, 16⟩] 2 =
      ([⟨0, false, 16⟩, ⟨40, true, 56⟩], 1) := by
  have h := ((c5_coalesce_amended 24 [⟨0, false, 16⟩, ⟨40, true, 16⟩] []
      (⟨80, false, 16⟩ : Block) rfl).1
    [⟨0, false, 16⟩] ⟨40, true, 16⟩ rfl rfl).2 (fun R hR => by simp at hR)
  simpa [U32] using h

/-- Claim C6: releasing a valid pointer, if the block resulting from
coalescing is the tail of the list (nothing, or a single FREE block,
lies to its right) it is unlinked and the break retracts to the
resulting block's starting header address (the FREE left neighbour's
address when a left merge happened, the freed block's own address
otherwise); if it is not the tail, the break is unchanged and the
resulting block stays in the list marked FREE. -/
theorem c6_tail_retract (H : Nat) (hH : 0 < H) (h : Heap) (u v : List Block) (b : Block)
    (hblocks : h.blocks = u ++ b :: v)
    (hb : b.is_free = false)
    (hsort : h.blocks.Chain' (fun x y => x.addr < y.addr)) :
    ((v = [] ∨ ∃ R, v = [R] ∧ R.is_free = true) →
      my_free H h (get_data_pointer H b) =
        match u.getLast? with
        | some L => if L.is_free = true then ⟨L.addr, u.dropLast⟩ else ⟨b.addr, u⟩
        | none => ⟨b.addr, u⟩) ∧
    (∀ vr, vr = (match v[0]? with
                 | some R => if R.is_free = true then v.tail else v
                 | none => v) → vr ≠ [] →
      (my_free H h (get_data_pointer H b)).brk = h.brk ∧
      ∃ m pre, (my_free H h (get_data_pointer H b)).blocks = pre ++ m :: vr ∧
        m.is_free = true) := by
  have hne : ∀ x ∈ u, x.addr ≠ b.addr := by
    intro x hx
    have := chain_addr_lt_of_append u v b (hblocks ▸ hsort) x hx
    omega
  simp only [get_data_pointer]
  rcases List.eq_nil_or_concat u with rfl | ⟨u2, L, rfl⟩
  · -- no left neighbour
    rcases hv : v with _ | ⟨R, v2⟩
    · -- sole block
      have hs := my_free_nn H hH h [] [] b (by simpa [hv] using hblocks) (by simp)
        (by simp) (by simp)
      constructor
      · intro _
        simpa [get_data_pointer] using hs
      · intro vr hvr hvr2
        simp at hvr
        exact absurd hvr hvr2
    · by_cases hRf : R.is_free = true
      · -- right neighbour FREE: right merge
        have hs := my_free_nr H hH h [] v2 b R (by simpa [hv] using hblocks) (by simp)
          (by simp) hRf
        rcases hv2 : v2 with _ | ⟨y, v3⟩
        · subst hv2
          constructor
          · intro _
            simpa [get_data_pointer] using hs
          · intro vr hvr hvr2
            simp [hRf] at hvr
            exact absurd hvr hvr2
        · subst hv2
          constructor
          · intro hcase
            rcases hcase with hcase | ⟨R', hR', _⟩
            · exact absurd hcase (by simp)
            · simp at hR'
          · intro vr hvr hvr2
            simp only [List.getElem?_cons_zero, hRf, if_pos, List.tail_cons] at hvr
            subst hvr
            rw [if_neg (by simp)] at hs
            rw [hs]
            refine ⟨rfl, ⟨b.addr, true, (b.data_size + H + R.data_size) % U32⟩, [], by simp,
              rfl⟩
      · -- right neighbour TAKEN: no merge
        have hs := my_free_nn H hH h [] (R :: v2) b (by simpa [hv] using hblocks) (by simp)
          (by simp) (by intro R' hR'; simp at hR'; subst hR'; simpa using hRf)
        rw [if_neg (by simp)] at hs
        constructor
        · intro hcase
          rcases hcase with hcase | ⟨R', hR', hR'f⟩
          · simp at hcase
          · have : R' = R := by simp at hR'; exact hR'.1.symm
            subst this
            exact absurd hR'f hRf
        · intro vr hvr hvr2
          simp only [List.getElem?_cons_zero] at hvr
          rw [if_neg hRf] at hvr
          subst hvr
          rw [hs]
          exact ⟨rfl, ⟨b.addr, true, b.data_size⟩, [], by simp, rfl⟩
  · -- left neighbour L present
    simp only [List.concat_eq_append] at hne hblocks ⊢
    have hblocks2 : h.blocks = u2 ++ L :: b :: v := by simpa using hblocks
    by_cases hLf : L.is_free = true
    · rcases hv : v with _ | ⟨R, v2⟩
      · -- left FREE, tail block freed
        have hs := my_free_ln H hH h u2 [] L b (by simpa [hv] using hblocks2)
          (by simpa using hne) hLf (by simp)
        constructor
        · intro _
          rw [if_pos rfl] at hs
          rw [List.getLast?_concat]
          simpa [hLf, List.dropLast_concat] using hs
        · intro vr hvr hvr2
          simp at hvr
          exact absurd hvr hvr2
      · by_cases hRf : R.is_free = true
        · -- both neighbours FREE
          have hs := my_free_lr H hH h u2 v2 L b R (by simpa [hv] using hblocks2)
            (by simpa using hne) hLf hRf
          rcases hv2 : v2 with _ | ⟨y, v3⟩
          · subst hv2
            constructor
            · intro _
              rw [if_pos rfl] at hs
              rw [List.getLast?_concat]
              simpa [hLf, List.dropLast_concat] using hs
            · intro vr hvr hvr2
              simp [hRf] at hvr
              exact absurd hvr hvr2
          · subst hv2
            constructor
            · intro hcase
              rcases hcase with hcase | ⟨R', hR', _⟩
              · exact absurd hcase (by simp)
              · simp at hR'
            · intro vr hvr hvr2
              simp only [List.getElem?_cons_zero, hRf, if_pos, List.tail_cons] at hvr
              subst hvr
              rw [if_neg (by simp)] at hs
              rw [hs]
              exact ⟨rfl, _, u2, rfl, rfl⟩
        · -- left FREE, right TAKEN
          have hs := my_free_ln H hH h u2 (R :: v2) L b (by simpa [hv] using hblocks2)
            (by simpa using hne) hLf
            (by intro R' hR'; simp at hR'; subst hR'; simpa using hRf)
          rw [if_neg (by simp)] at hs
          constructor
          · intro hcase
            rcases hcase with hcase | ⟨R', hR', hR'f⟩
            · simp at hcase
            · have : R' = R := by simp at hR'; exact hR'.1.symm
              subst this
              exact absurd hR'f hRf
          · intro vr hvr hvr2
            simp only [List.getElem?_cons_zero] at hvr
            rw [if_neg hRf] at hvr
            subst hvr
            rw [hs]
            exact ⟨rfl, _, u2, rfl, rfl⟩
    · -- left neighbour TAKEN
      have hLcond : ∀ L', (u2 ++ [L]).getLast? = some L' → L'.is_free = false := by
        intro L' hL'
        rw [List.getLast?_concat] at hL'
        have : L = L' := by simpa using hL'
        subst this
        simpa using hLf
      rcases hv : v with _ | ⟨R, v2⟩
      · have hs := my_free_nn H hH h (u2 ++ [L]) [] b (by simpa [hv] using hblocks)
          hne hLcond (by simp)
        constructor
        · intro _
          rw [if_pos rfl] at hs
          rw [List.getLast?_concat]
          simpa [hLf] using hs
        · intro vr hvr hvr2
          simp at hvr
          exact absurd hvr hvr2
      · by_cases hRf : R.is_free = true
        · have hs := my_free_nr H hH h (u2 ++ [L]) v2 b R (by simpa [hv] using hblocks)
            hne hLcond hRf
          rcases hv2 : v2 with _ | ⟨y, v3⟩
          · subst hv2
            constructor
            · intro _
              rw [if_pos rfl] at hs
              rw [List.getLast?_concat]
              simpa [hLf] using hs
            · intro vr hvr hvr2
              simp [hRf] at hvr
              exact absurd hvr hvr2
          · subst hv2
            constructor
            · intro hcase
              rcases hcase with hcase | ⟨R', hR', _⟩
              · exact absurd hcase (by simp)
              · simp at hR'
            · intro vr hvr hvr2
              simp only [List.getElem?_cons_zero, hRf, if_pos, List.tail_cons] at hvr
              subst hvr
              rw [if_neg (by simp)] at hs
              rw [hs]
              exact ⟨rfl, ⟨b.addr, true, (b.data_size + H + R.data_size) % U32⟩,
                u2 ++ [L], by simp, rfl⟩
        · have hs := my_free_nn H hH h (u2 ++ [L]) (R :: v2) b (by simpa [hv] using hblocks)
            hne hLcond
            (by intro R' hR'; simp at hR'; subst hR'; simpa using hRf)
          rw [if_neg (by simp)] at hs
          constructor
          · intro hcase
            rcases hcase with hcase | ⟨R', hR', hR'f⟩
            · simp at hcase
            · have : R' = R := by simp at hR'; exact hR'.1.symm
              subst this
              exact absurd hR'f hRf
          · intro vr hvr hvr2
            simp only [List.getElem?_cons_zero] at hvr
            rw [if_neg hRf] at hvr
            subst hvr
            rw [hs]
            exact ⟨rfl, ⟨b.addr, true, b.data_size⟩, u2 ++ [L], by simp, rfl⟩

/-- Witness for C6: freeing the tail block of a three block heap with a
TAKEN left neighbour unlinks the tail and retracts the break to its
header address 80. -/
theorem c6_tail_retract_witness :
    my_free 24 ⟨120, [⟨0, false, 16⟩, ⟨40, false, 16⟩, ⟨80, false, 16⟩]⟩ 104 =
      ⟨80, [⟨0, false, 16⟩, ⟨40, false, 16⟩]⟩ := by
  have h := (c6_tail_retract 24 (by norm_num)
    ⟨120, [⟨0, false, 16⟩, ⟨40, false, 16⟩, ⟨80, false, 16⟩]⟩
    [⟨0, false, 16⟩, ⟨40, false, 16⟩] [] ⟨80, false, 16⟩ rfl rfl
    (by norm_num [List.chain'_cons])).1 (Or.inl rfl)
  simpa [get_data_pointer] using h

end MyMalloc

namespace MyMalloc

theorem chain'_extract {P : Block → Block → Prop} (u v : List Block) (c : Block)
    (h : (u ++ c :: v).Chain' P) :
    u.Chain' P ∧ v.Chain' P ∧ (∀ x, u.getLast? = some x → P x c) ∧
      (∀ y, v.head? = some y → P c y) := by
  rw [List.chain'_append] at h
  obtain ⟨h1, h2, h3⟩ := h
  rw [List.chain'_cons'] at h2
  refine ⟨h1, h2.2, ?_, ?_⟩
  · intro x hx
    exact h3 x hx c rfl
  · intro y hy
    exact h2.1 y hy

theorem chain'_build {P : Block → Block → Prop} (u v : List Block) (c : Block)
    (hu : u.Chain' P) (hv : v.Chain' P)
    (hl : ∀ x, u.getLast? = some x → P x c)
    (hr : ∀ y, v.head? = some y → P c y) :
    (u ++ c :: v).Chain' P := by
  rw [List.chain'_append]
  refine ⟨hu, ?_, ?_⟩
  · rw [List.chain'_cons']
    exact ⟨hr, hv⟩
  · intro x hx y hy
    have hyc : c = y := by simpa using hy
    subst hyc
    exact hl x hx

theorem chain'_build2 {P : Block → Block → Prop} (u v : List Block) (c d : Block)
    (hu : u.Chain' P) (hv : v.Chain' P)
    (hl : ∀ x, u.getLast? = some x → P x c)
    (hcd : P c d)
    (hr : ∀ y, v.head? = some y → P d y) :
    (u ++ c :: d :: v).Chain' P := by
  have h2 : (d :: v).Chain' P := by
    rw [List.chain'_cons']
    exact ⟨hr, hv⟩
  have h1 : (c :: d :: v).Chain' P := by
    rw [List.chain'_cons']
    exact ⟨fun y hy => by simpa using (by simpa using hy : d = y) ▸ hcd, h2⟩
  rw [List.chain'_append]
  refine ⟨hu, h1, ?_⟩
  intro x hx y hy
  have hyc : c = y := by simpa using hy
  subst hyc
  exact hl x hx

theorem decomp_of_getElem? (bs : List Block) (i : Nat) (b : Block)
    (h : bs[i]? = some b) :
    ∃ u v, bs = u ++ b :: v ∧ u.length = i := by
  induction bs generalizing i with
  | nil => simp at h
  | cons x bs ih =>
    cases i with
    | zero =>
      have : x = b := by simpa using h
      subst this
      exact ⟨[], bs, rfl, rfl⟩
    | succ i' =>
      obtain ⟨u, v, rfl, hlen⟩ := ih i' (by simpa using h)
      exact ⟨x :: u, v, rfl, by simp [hlen]⟩

theorem insertAt_len_succ (u v : List Block) (x nb : Block) :
    insertAt (u ++ x :: v) (u.length + 1) nb = u ++ x :: nb :: v := by
  unfold insertAt
  have ht : (u ++ x :: v).take (u.length + 1) = u ++ [x] := by
    rw [List.take_append_eq_append_take]
    simp
  have hd : (u ++ x :: v).drop (u.length + 1) = v := by
    rw [List.drop_append_eq_append_drop]
    simp
  rw [ht, hd]
  simp

/-- `round_up_size` always produces a multiple of 8. -/
theorem round_up_size_mult8 (n : Nat) : 8 ∣ round_up_size n := by
  unfold round_up_size MINIMUM_ALLOCATION
  split
  · exact Dvd.intro 0 rfl
  · split
    · exact Dvd.intro 2 rfl
    · exact Dvd.intro_left _ rfl

/-- `round_up_size` always produces a `uint32_t` value. -/
theorem round_up_size_lt (n : Nat) : round_up_size n < U32 := by
  unfold round_up_size MINIMUM_ALLOCATION SIZE_MULTIPLE U32
  split
  · norm_num
  · split
    · norm_num
    · have h : (n + (8 - 1)) % 4294967296 < 4294967296 := Nat.mod_lt _ (by norm_num)
      omega

/-- `round_up_size` of a positive size is at least 16, provided the
`uint32_t` addition does not wrap. -/
theorem round_up_size_ge16 (n : Nat) (h0 : 0 < n) (hn : n ≤ U32 - 8) :
    16 ≤ round_up_size n := by
  unfold round_up_size MINIMUM_ALLOCATION SIZE_MULTIPLE at *
  simp only [U32] at hn ⊢
  rw [if_neg (by omega)]
  split
  · omega
  · have h71 : (8 : Nat) - 1 = 7 := by norm_num
    rw [h71, Nat.mod_eq_of_lt (by omega)]
    omega

/-- `round_up_size` never shrinks a size below the request, provided the
`uint32_t` addition does not wrap. -/
theorem round_up_size_ge (n : Nat) (hn : n ≤ U32 - 8) : n ≤ round_up_size n := by
  unfold round_up_size MINIMUM_ALLOCATION SIZE_MULTIPLE at *
  simp only [U32] at hn ⊢
  split
  · omega
  · split
    · omega
    · have h71 : (8 : Nat) - 1 = 7 := by norm_num
      rw [h71, Nat.mod_eq_of_lt (by omega)]
      omega

/-- Structural form of `update_block` at a decomposed position, when
the searched size is at most the block's size (as the first fit
guarantees): either only the flag changes, or the block is shrunk to
`s` and a FREE remainder block is inserted directly after it. -/
theorem update_block_shape (H : Nat) (u v : List Block) (b : Block) (s : Nat)
    (hds : b.data_size < U32) (hs : s ≤ b.data_size) :
    update_block H (u ++ b :: v) u.length s =
      if b.data_size - s ≤ H + MINIMUM_ALLOCATION then
        u ++ ({ b with is_free := false }) :: v
      else
        u ++ (⟨b.addr, false, s⟩ : Block) ::
          (⟨b.addr + H + s, true, b.data_size - s - H⟩ : Block) :: v := by
  have hsU : s < U32 := lt_of_le_of_lt hs hds
  have hslo : (b.data_size + (U32 - s % U32)) % U32 = b.data_size - s := by
    rw [Nat.mod_eq_of_lt hsU]
    simp only [U32] at hds hsU ⊢
    omega
  unfold update_block
  rw [getElem?_len_append]
  simp only [hslo]
  by_cases hth : b.data_size - s ≤ H + MINIMUM_ALLOCATION
  · rw [if_pos hth, if_pos hth, set_len_append]
  · rw [if_neg hth, if_neg hth]
    rw [set_len_append]
    have hset : (u ++ ({ b with is_free := false }) :: v).set u.length
        (⟨b.addr, false, s⟩ : Block) = u ++ (⟨b.addr, false, s⟩ : Block) :: v :=
      set_len_append u v _ _
    rw [hset]
    unfold add_block_after
    simp only [getElem?_len_append]
    rw [insertAt_len_succ]
    simp [get_data_pointer]

end MyMalloc

namespace MyMalloc

/-- Walking a gap chain: every block left of `c` ends at or before `c`'s
header. -/
theorem chain_end_le_of_append (H : Nat) (u v : List Block) (c : Block)
    (h : (u ++ c :: v).Chain' (fun x y => endAddr H x ≤ y.addr)) :
    ∀ x ∈ u, endAddr H x ≤ c.addr := by
  induction u with
  | nil => simp
  | cons z u2 ih =>
    intro x hx
    rw [List.cons_append] at h
    rcases List.mem_cons.mp hx with rfl | hx'
    · cases u2 with
      | nil => exact (List.chain'_cons.mp h).1
      | cons w u3 =>
        have hzw : endAddr H x ≤ w.addr := (List.chain'_cons.mp h).1
        have hwb : endAddr H w ≤ c.addr := ih h.tail w (by simp)
        unfold endAddr at *
        omega
    · exact ih h.tail x hx'

/-- Assemble `WInv` for a heap whose tail was unlinked: the break is
retracted to `a`, the address right after the remaining blocks. -/
theorem WInv_of_tail_cut (H : Nat) (w : List Block) (a : Nat)
    (gw : w.Chain' (fun x y => endAddr H x ≤ y.addr))
    (nw : w.Chain' (fun x y => x.is_free = true → y.is_free = false))
    (ew : ∀ x ∈ w, endAddr H x ≤ a)
    (tw : ∀ x, w.getLast? = some x → x.is_free = false)
    (d32 : ∀ x ∈ w, x.data_size < U32)
    (m8 : ∀ x ∈ w, 8 ∣ x.data_size) :
    WInv H ⟨a, w⟩ :=
  ⟨gw, ew, tw, nw, d32, m8⟩

/-- The last element of `u ++ c :: v` is the last element of `v` when
`v` is nonempty. -/
theorem getLast?_cons_ne (v : List Block) (c : Block) (hv : v ≠ []) :
    (c :: v).getLast? = v.getLast? := by
  rcases List.eq_nil_or_concat v with rfl | ⟨v2, y, rfl⟩
  · exact absurd rfl hv
  · simp only [List.concat_eq_append]
    rw [show c :: (v2 ++ [y]) = (c :: v2) ++ [y] by simp]
    rw [List.getLast?_concat, List.getLast?_concat]

theorem getLast?_mid (u v : List Block) (c : Block) (hv : v ≠ []) :
    (u ++ c :: v).getLast? = v.getLast? := by
  rcases List.eq_nil_or_concat v with rfl | ⟨v2, y, rfl⟩
  · exact absurd rfl hv
  · simp only [List.concat_eq_append]
    rw [show u ++ c :: (v2 ++ [y]) = (u ++ c :: v2) ++ [y] by simp]
    rw [List.getLast?_concat, List.getLast?_concat]

/-- Assemble `WInv` for a heap where the coalesced FREE block `m` sits
between untouched segments `w` and `rest`, with `rest` nonempty (the
non-tail case of a release). -/
theorem WInv_of_mid (H : Nat) (k : Nat) (w rest : List Block) (m : Block)
    (gw : w.Chain' (fun x y => endAddr H x ≤ y.addr))
    (grest : rest.Chain' (fun x y => endAddr H x ≤ y.addr))
    (gl : ∀ x, w.getLast? = some x → endAddr H x ≤ m.addr)
    (gr : ∀ y, rest.head? = some y → endAddr H m ≤ y.addr)
    (ew : ∀ x ∈ w, endAddr H x ≤ k)
    (er : ∀ x ∈ rest, endAddr H x ≤ k)
    (em : endAddr H m ≤ k)
    (hrest : rest ≠ [])
    (trest : ∀ b, rest.getLast? = some b → b.is_free = false)
    (nw : w.Chain' (fun x y => x.is_free = true → y.is_free = false))
    (nrest : rest.Chain' (fun x y => x.is_free = true → y.is_free = false))
    (nl : ∀ x, w.getLast? = some x → x.is_free = false)
    (nr : ∀ y, rest.head? = some y → y.is_free = false)
    (d32w : ∀ x ∈ w, x.data_size < U32)
    (d32r : ∀ x ∈ rest, x.data_size < U32)
    (d32m : m.data_size < U32)
    (m8w : ∀ x ∈ w, 8 ∣ x.data_size)
    (m8r : ∀ x ∈ rest, 8 ∣ x.data_size)
    (m8m : 8 ∣ m.data_size) :
    WInv H ⟨k, w ++ m :: rest⟩ := by
  constructor
  · exact chain'_build w rest m gw grest gl gr
  · intro x hx
    rcases List.mem_append.mp hx with hx | hx
    · exact ew x hx
    · rcases List.mem_cons.mp hx with rfl | hx
      · exact em
      · exact er x hx
  · intro b hb
    rw [getLast?_mid w rest m hrest] at hb
    exact trest b hb
  · refine chain'_build w rest m nw nrest (fun x hx => ?_) (fun y hy => ?_)
    · intro hxf
      exact absurd hxf (by simp [nl x hx])
    · intro _
      exact nr y hy
  · intro x hx
    rcases List.mem_append.mp hx with hx | hx
    · exact d32w x hx
    · rcases List.mem_cons.mp hx with rfl | hx
      · exact d32m
      · exact d32r x hx
  · intro x hx
    rcases List.mem_append.mp hx with hx | hx
    · exact m8w x hx
    · rcases List.mem_cons.mp hx with rfl | hx
      · exact m8m
      · exact m8r x hx

end MyMalloc

namespace MyMalloc

theorem mem_getLast? (l : List Block) (x : Block) (h : l.getLast? = some x) : x ∈ l := by
  rcases List.eq_nil_or_concat l with rfl | ⟨l2, y, rfl⟩
  · simp at h
  · simp only [List.concat_eq_append] at *
    rw [List.getLast?_concat] at h
    have hyx : y = x := by simpa using h
    subst hyx
    simp

theorem mem_head? (l : List Block) (x : Block) (h : l.head? = some x) : x ∈ l := by
  cases l with
  | nil => simp at h
  | cons z l =>
    have : z = x := by simpa using h
    subst this
    simp

/-- Appending a fresh TAKEN tail block at the break preserves `WInv`. -/
theorem WInv_append (H : Nat) (h : Heap) (s : Nat)
    (hs8 : 8 ∣ s) (hsU : s < U32) (W : WInv H h) :
    WInv H ⟨h.brk + (H + s), h.blocks ++ [⟨h.brk, false, s⟩]⟩ := by
  constructor
  · rw [List.chain'_append]
    refine ⟨W.gap, by simp, ?_⟩
    intro x hx y hy
    have hy' : (⟨h.brk, false, s⟩ : Block) = y := by simpa using hy
    subst hy'
    exact W.ends x (mem_getLast? _ x hx)
  · intro x hx
    rcases List.mem_append.mp hx with hx | hx
    · have hxe := W.ends x hx
      simp only [endAddr] at *
      omega
    · have hx' : x = ⟨h.brk, false, s⟩ := by simpa using hx
      subst hx'
      simp only [endAddr]
      omega
  · intro b hb
    rw [List.getLast?_concat] at hb
    have : (⟨h.brk, false, s⟩ : Block) = b := by simpa using hb
    subst this
    rfl
  · rw [List.chain'_append]
    refine ⟨W.noAdj, by simp, ?_⟩
    intro x hx y hy
    have hy' : (⟨h.brk, false, s⟩ : Block) = y := by simpa using hy
    subst hy'
    intro _
    rfl
  · intro x hx
    rcases List.mem_append.mp hx with hx | hx
    · exact W.ds32 x hx
    · have hx' : x = ⟨h.brk, false, s⟩ := by simpa using hx
      subst hx'
      exact hsU
  · intro x hx
    rcases List.mem_append.mp hx with hx | hx
    · exact W.mult8 x hx
    · have hx' : x = ⟨h.brk, false, s⟩ := by simpa using hx
      subst hx'
      exact hs8

/-- Marking a FREE block TAKEN in place preserves `WInv`. -/
theorem WInv_mark (H : Nat) (k : Nat) (u v : List Block) (b : Block)
    (W : WInv H ⟨k, u ++ b :: v⟩) :
    WInv H ⟨k, u ++ ({ b with is_free := false }) :: v⟩ := by
  obtain ⟨gU, gV, gXL, gXR⟩ := chain'_extract u v b W.gap
  obtain ⟨nU, nV, nXL, nXR⟩ := chain'_extract u v b W.noAdj
  have hmemb : b ∈ u ++ b :: v := by simp
  constructor
  · exact chain'_build u v _ gU gV gXL gXR
  · intro x hx
    rcases List.mem_append.mp hx with hx | hx
    · exact W.ends x (by simp [hx])
    · rcases List.mem_cons.mp hx with rfl | hx
      · exact W.ends b hmemb
      · exact W.ends x (by simp [hx])
  · intro c hc
    rcases List.eq_nil_or_concat v with rfl | ⟨v2, y, hv⟩
    · rw [show u ++ [({ b with is_free := false } : Block)] =
        u ++ [({ b with is_free := false } : Block)] from rfl, List.getLast?_concat] at hc
      have : ({ b with is_free := false } : Block) = c := by simpa using hc
      subst this
      rfl
    · have hvne : v ≠ [] := by simp [hv]
      rw [getLast?_mid u v _ hvne] at hc
      exact W.tailTk c (by rw [getLast?_mid u v b hvne]; exact hc)
  · refine chain'_build u v _ nU nV (fun x hx => ?_) (fun y hy => ?_)
    · intro _
      rfl
    · intro hf
      exact absurd hf (by simp)
  · intro x hx
    rcases List.mem_append.mp hx with hx | hx
    · exact W.ds32 x (by simp [hx])
    · rcases List.mem_cons.mp hx with rfl | hx
      · exact W.ds32 b hmemb
      · exact W.ds32 x (by simp [hx])
  · intro x hx
    rcases List.mem_append.mp hx with hx | hx
    · exact W.mult8 x (by simp [hx])
    · rcases List.mem_cons.mp hx with rfl | hx
      · exact W.mult8 b hmemb
      · exact W.mult8 x (by simp [hx])

/-- Splitting a FREE block into a TAKEN block of size `s` and a FREE
remainder preserves `WInv`. -/
theorem WInv_split (H : Nat) (h8 : 8 ∣ H) (k : Nat) (u v : List Block) (b : Block)
    (s : Nat) (W : WInv H ⟨k, u ++ b :: v⟩) (hbf : b.is_free = true)
    (hs8 : 8 ∣ s) (hsle : s ≤ b.data_size)
    (hth : H + MINIMUM_ALLOCATION < b.data_size - s) :
    WInv H ⟨k, u ++ (⟨b.addr, false, s⟩ : Block) ::
      (⟨b.addr + H + s, true, b.data_size - s - H⟩ : Block) :: v⟩ := by
  have hmemb : b ∈ u ++ b :: v := by simp
  have hvne : v ≠ [] := by
    intro hv
    subst hv
    have htk := W.tailTk b (by rw [List.getLast?_concat])
    rw [hbf] at htk
    simp at htk
  obtain ⟨gU, gV, gXL, gXR⟩ := chain'_extract u v b W.gap
  obtain ⟨nU, nV, nXL, nXR⟩ := chain'_extract u v b W.noAdj
  have hendb : endAddr H b ≤ k := W.ends b hmemb
  constructor
  · refine chain'_build2 u v _ _ gU gV (fun x hx => gXL x hx) ?_ (fun y hy => ?_)
    · simp only [endAddr]
      omega
    · have hyr := gXR y hy
      simp only [endAddr] at *
      omega
  · intro x hx
    rcases List.mem_append.mp hx with hx | hx
    · exact W.ends x (by simp [hx])
    · rcases List.mem_cons.mp hx with rfl | hx
      · simp only [endAddr] at *
        omega
      · rcases List.mem_cons.mp hx with rfl | hx
        · simp only [endAddr] at *
          omega
        · exact W.ends x (by simp [hx])
  · intro c hc
    rw [getLast?_mid u _ _ (by simp), getLast?_cons_ne v _ hvne] at hc
    exact W.tailTk c (by rw [getLast?_mid u v b hvne]; exact hc)
  · refine chain'_build2 u v _ _ nU nV (fun x hx => ?_) ?_ (fun y hy => ?_)
    · intro _
      rfl
    · intro hf
      exact absurd hf (by simp)
    · intro _
      exact nXR y hy hbf
  · intro x hx
    have hd32 : b.data_size < U32 := W.ds32 b hmemb
    rcases List.mem_append.mp hx with hx | hx
    · exact W.ds32 x (by simp [hx])
    · rcases List.mem_cons.mp hx with rfl | hx
      · simpa using lt_of_le_of_lt hsle hd32
      · rcases List.mem_cons.mp hx with rfl | hx
        · simp only []
          omega
        · exact W.ds32 x (by simp [hx])
  · intro x hx
    have hm8 : 8 ∣ b.data_size := W.mult8 b hmemb
    rcases List.mem_append.mp hx with hx | hx
    · exact W.mult8 x (by simp [hx])
    · rcases List.mem_cons.mp hx with rfl | hx
      · exact hs8
      · rcases List.mem_cons.mp hx with rfl | hx
        · exact Nat.dvd_sub' (Nat.dvd_sub' hm8 hs8) h8
        · exact W.mult8 x (by simp [hx])

/-- `my_malloc` preserves the wrap tolerant invariant. -/
theorem WInv_malloc (H : Nat) (h8 : 8 ∣ H) (h : Heap) (size : Nat)
    (W : WInv H h) : WInv H (my_malloc H h size).1 := by
  unfold my_malloc
  by_cases h0 : size = 0
  · rw [if_pos h0]
    exact W
  · rw [if_neg h0]
    rcases hfind : find_free_block h.blocks (round_up_size size) with _ | ⟨i, b⟩
    · simp only [hfind, add_to_list]
      exact WInv_append H h (round_up_size size) (round_up_size_mult8 size)
        (round_up_size_lt size) W
    · simp only [hfind]
      obtain ⟨hget, hbf, hsle, _⟩ :=
        find_free_block_some h.blocks (round_up_size size) i b hfind
      obtain ⟨u, v, hbs, hlen⟩ := decomp_of_getElem? h.blocks i b hget
      subst hlen
      have hd32 : b.data_size < U32 := W.ds32 b (by rw [hbs]; simp)
      have hW : WInv H ⟨h.brk, u ++ b :: v⟩ := by
        have : h = ⟨h.brk, h.blocks⟩ := rfl
        rw [← hbs]
        exact W
      rw [hbs, update_block_shape H u v b (round_up_size size) hd32 hsle]
      by_cases hth : b.data_size - round_up_size size ≤ H + MINIMUM_ALLOCATION
      · rw [if_pos hth]
        exact WInv_mark H h.brk u v b hW
      · rw [if_neg hth]
        exact WInv_split H h8 h.brk u v b (round_up_size size) hW hbf
          (round_up_size_mult8 size) hsle (by omega)

end MyMalloc

namespace MyMalloc

/-- A block directly left of a FREE block is TAKEN (from the
no-adjacent-FREE crossing condition). -/
theorem taken_before_free (u2 : List Block) (L : Block)
    (nX : ∀ x, u2.getLast? = some x → (x.is_free = true → L.is_free = false))
    (hLf : L.is_free = true) :
    ∀ x, u2.getLast? = some x → x.is_free = false := by
  intro x hx
  cases hxf : x.is_free with
  | false => rfl
  | true => exact absurd (nX x hx hxf) (by simp [hLf])

set_option maxHeartbeats 2000000 in
/-- `my_free` on a valid allocated pointer preserves the wrap tolerant
invariant. -/
theorem WInv_free (H : Nat) (hH : 0 < H) (h8 : 8 ∣ H) (h : Heap) (q : Nat)
    (W : WInv H h) (hq : validPtr H h q) : WInv H (my_free H h q) := by
  obtain ⟨c, hc, hcT, rfl⟩ := hq
  obtain ⟨u, v, hbs⟩ := List.append_of_mem hc
  have hsorted : h.blocks.Chain' (fun x y => x.addr < y.addr) := by
    refine W.gap.imp ?_
    intro x y hxy
    simp only [endAddr] at hxy
    omega
  have hne : ∀ x ∈ u, x.addr ≠ c.addr := by
    intro x hx
    have := chain_addr_lt_of_append u v c (hbs ▸ hsorted) x hx
    omega
  have gALL : (u ++ c :: v).Chain' (fun x y => endAddr H x ≤ y.addr) := hbs ▸ W.gap
  have nALL : (u ++ c :: v).Chain' (fun x y => x.is_free = true → y.is_free = false) :=
    hbs ▸ W.noAdj
  obtain ⟨gU, gV, gXL, gXR⟩ := chain'_extract u v c gALL
  obtain ⟨nU, nV, nXL, nXR⟩ := chain'_extract u v c nALL
  have hendc : endAddr H c ≤ h.brk := W.ends c hc
  have ends' : ∀ x ∈ u ++ c :: v, endAddr H x ≤ h.brk := hbs ▸ W.ends
  have ds32' : ∀ x ∈ u ++ c :: v, x.data_size < U32 := hbs ▸ W.ds32
  have m8' : ∀ x ∈ u ++ c :: v, 8 ∣ x.data_size := hbs ▸ W.mult8
  have tail' : ∀ b, (u ++ c :: v).getLast? = some b → b.is_free = false := by
    rw [← hbs]
    exact W.tailTk
  have hendu : ∀ x ∈ u, endAddr H x ≤ c.addr := chain_end_le_of_append H u v c gALL
  have hU32pos : 0 < U32 := by norm_num [U32]
  have h8U : (8 : Nat) ∣ U32 := by norm_num [U32]
  have hcd32 : c.data_size < U32 := W.ds32 c hc
  have hcm8 : 8 ∣ c.data_size := W.mult8 c hc
  simp only [get_data_pointer]
  rcases List.eq_nil_or_concat u with rfl | ⟨u2, L, hu⟩
  next =>
    -- no left neighbour
    have hLcond : ∀ x, ([] : List Block).getLast? = some x → x.is_free = false := by
      intro x hx
      simp at hx
    rcases hv : v with _ | ⟨R, v2⟩
    · subst hv
      rw [my_free_nn H hH h [] [] c hbs hne hLcond (by intro x hx; simp at hx),
        if_pos rfl]
      exact WInv_of_tail_cut H [] c.addr (by simp) (by simp) (by simp) (by simp)
        (by simp) (by simp)
    · subst hv
      obtain ⟨gVR, gV2⟩ := List.chain'_cons'.mp gV
      obtain ⟨nVR, nV2⟩ := List.chain'_cons'.mp nV
      have hcR : endAddr H c ≤ R.addr := gXR R (by simp)
      have hRd32 : R.data_size < U32 := ds32' R (by simp)
      have hRm8 : 8 ∣ R.data_size := m8' R (by simp)
      by_cases hRf : R.is_free = true
      · rw [my_free_nr H hH h [] v2 c R hbs hne hLcond hRf]
        by_cases hv2 : v2 = []
        · subst hv2
          rw [if_pos rfl]
          exact WInv_of_tail_cut H [] c.addr (by simp) (by simp) (by simp) (by simp)
            (by simp) (by simp)
        · rw [if_neg hv2]
          have hendR : endAddr H R ≤ h.brk := ends' R (by simp)
          refine WInv_of_mid H h.brk [] v2
            (⟨c.addr, true, (c.data_size + H + R.data_size) % U32⟩ : Block)
            (by simp) gV2 (by intro x hx; simp at hx) ?_
            (by intro x hx; simp at hx) (fun x hx => ends' x (by simp only [List.mem_append, List.mem_cons] at hx ⊢; tauto)) ?_
            hv2 ?_ (by simp) nV2 (by intro x hx; simp at hx) ?_
            (by intro x hx; simp at hx) (fun x hx => ds32' x (by simp only [List.mem_append, List.mem_cons] at hx ⊢; tauto)) ?_
            (by intro x hx; simp at hx) (fun x hx => m8' x (by simp only [List.mem_append, List.mem_cons] at hx ⊢; tauto)) ?_
          · intro y hy
            have h3 : endAddr H R ≤ y.addr := gVR y (by simpa using hy)
            have hmle : (c.data_size + H + R.data_size) % U32 ≤
                c.data_size + H + R.data_size := Nat.mod_le _ _
            simp only [endAddr] at *
            omega
          · have hmle : (c.data_size + H + R.data_size) % U32 ≤
                c.data_size + H + R.data_size := Nat.mod_le _ _
            simp only [endAddr] at *
            omega
          · intro b hb
            refine tail' b ?_
            have e1 : (([] : List Block) ++ c :: R :: v2).getLast? = v2.getLast? := by
              rw [getLast?_mid [] (R :: v2) c (by simp), getLast?_cons_ne v2 R hv2]
            rw [e1]
            exact hb
          · intro y hy
            exact nVR y (by simpa using hy) hRf
          · exact Nat.mod_lt _ hU32pos
          · rw [Nat.dvd_mod_iff h8U]
            exact Nat.dvd_add (Nat.dvd_add hcm8 h8) hRm8
      · have hRcond : ∀ x, (R :: v2)[0]? = some x → x.is_free = false := by
          intro x hx
          have hRR : R = x := by simpa using hx
          subst hRR
          simpa using hRf
        have hRcondH : ∀ x, (R :: v2).head? = some x → x.is_free = false := by
          intro x hx
          exact hRcond x (by simpa using hx)
        rw [my_free_nn H hH h [] (R :: v2) c hbs hne hLcond hRcond, if_neg (by simp)]
        refine WInv_of_mid H h.brk [] (R :: v2)
          (⟨c.addr, true, c.data_size⟩ : Block)
          (by simp) gV (by intro x hx; simp at hx) ?_
          (by intro x hx; simp at hx) (fun x hx => ends' x (by simp only [List.mem_append, List.mem_cons] at hx ⊢; tauto)) ?_
          (by simp) ?_ (by simp) nV (by intro x hx; simp at hx) hRcondH
          (by intro x hx; simp at hx) (fun x hx => ds32' x (by simp only [List.mem_append, List.mem_cons] at hx ⊢; tauto)) ?_
          (by intro x hx; simp at hx) (fun x hx => m8' x (by simp only [List.mem_append, List.mem_cons] at hx ⊢; tauto)) ?_
        · intro y hy
          have := gXR y hy
          simpa [endAddr] using this
        · simpa [endAddr] using hendc
        · intro b hb
          refine tail' b ?_
          have e1 : (([] : List Block) ++ c :: R :: v2).getLast? =
              (R :: v2).getLast? := getLast?_mid [] (R :: v2) c (by simp)
          rw [e1]
          exact hb
        · simpa using hcd32
        · simpa using hcm8
  next =>
    subst hu
    simp only [List.concat_eq_append] at hbs hne hendu gALL nALL gU nU gXL nXL tail' ends' ds32' m8'
    obtain ⟨gU2, gtriv, gXL2, gXLR⟩ := chain'_extract u2 [] L gU
    obtain ⟨nU2, ntriv, nXL2, nXLR⟩ := chain'_extract u2 [] L nU
    have hendu2 : ∀ x ∈ u2, endAddr H x ≤ L.addr := chain_end_le_of_append H u2 [] L gU
    have hLd32 : L.data_size < U32 := ds32' L (by simp)
    have hLm8 : 8 ∣ L.data_size := m8' L (by simp)
    by_cases hLf : L.is_free = true
    · have hu2T : ∀ x, u2.getLast? = some x → x.is_free = false :=
        taken_before_free u2 L nXL2 hLf
      have hendL : endAddr H L ≤ c.addr := gXL L (by rw [List.getLast?_concat])
      have hbs2 : h.blocks = u2 ++ L :: c :: v := by simpa using hbs
      rcases hv : v with _ | ⟨R, v2⟩
      · subst hv
        rw [my_free_ln H hH h u2 [] L c hbs2 hne hLf (by intro x hx; simp at hx),
          if_pos rfl]
        exact WInv_of_tail_cut H u2 L.addr gU2 nU2 hendu2 hu2T
          (fun x hx => ds32' x (by simp only [List.mem_append, List.mem_cons] at hx ⊢; tauto)) (fun x hx => m8' x (by simp only [List.mem_append, List.mem_cons] at hx ⊢; tauto))
      · subst hv
        obtain ⟨gVR, gV2⟩ := List.chain'_cons'.mp gV
        obtain ⟨nVR, nV2⟩ := List.chain'_cons'.mp nV
        have hcR : endAddr H c ≤ R.addr := gXR R (by simp)
        have hRd32 : R.data_size < U32 := ds32' R (by simp)
        have hRm8 : 8 ∣ R.data_size := m8' R (by simp)
        by_cases hRf : R.is_free = true
        · rw [my_free_lr H hH h u2 v2 L c R hbs2 hne hLf hRf]
          by_cases hv2 : v2 = []
          · subst hv2
            rw [if_pos rfl]
            exact WInv_of_tail_cut H u2 L.addr gU2 nU2 hendu2 hu2T
              (fun x hx => ds32' x (by simp only [List.mem_append, List.mem_cons] at hx ⊢; tauto)) (fun x hx => m8' x (by simp only [List.mem_append, List.mem_cons] at hx ⊢; tauto))
          · rw [if_neg hv2]
            have hendR : endAddr H R ≤ h.brk := ends' R (by simp)
            refine WInv_of_mid H h.brk u2 v2
              (⟨L.addr, true,
                ((L.data_size + H + c.data_size) % U32 + H + R.data_size) % U32⟩ : Block)
              gU2 gV2 ?_ ?_ (fun x hx => ends' x (by simp only [List.mem_append, List.mem_cons] at hx ⊢; tauto))
              (fun x hx => ends' x (by simp only [List.mem_append, List.mem_cons] at hx ⊢; tauto)) ?_ hv2 ?_ nU2 nV2 hu2T ?_
              (fun x hx => ds32' x (by simp only [List.mem_append, List.mem_cons] at hx ⊢; tauto)) (fun x hx => ds32' x (by simp only [List.mem_append, List.mem_cons] at hx ⊢; tauto))
              ?_ (fun x hx => m8' x (by simp only [List.mem_append, List.mem_cons] at hx ⊢; tauto)) (fun x hx => m8' x (by simp only [List.mem_append, List.mem_cons] at hx ⊢; tauto)) ?_
            · intro x hx
              have := gXL2 x hx
              simpa [endAddr] using this
            · intro y hy
              have h3 : endAddr H R ≤ y.addr := gVR y (by simpa using hy)
              have hm1 : (L.data_size + H + c.data_size) % U32 ≤
                  L.data_size + H + c.data_size := Nat.mod_le _ _
              have hm2 : ((L.data_size + H + c.data_size) % U32 + H + R.data_size) % U32 ≤
                  (L.data_size + H + c.data_size) % U32 + H + R.data_size := Nat.mod_le _ _
              simp only [endAddr] at *
              omega
            · have hm1 : (L.data_size + H + c.data_size) % U32 ≤
                  L.data_size + H + c.data_size := Nat.mod_le _ _
              have hm2 : ((L.data_size + H + c.data_size) % U32 + H + R.data_size) % U32 ≤
                  (L.data_size + H + c.data_size) % U32 + H + R.data_size := Nat.mod_le _ _
              simp only [endAddr] at *
              omega
            · intro b hb
              refine tail' b ?_
              have e1 : ((u2 ++ [L]) ++ c :: R :: v2).getLast? = v2.getLast? := by
                rw [show (u2 ++ [L]) ++ c :: R :: v2 = u2 ++ L :: c :: R :: v2 by simp]
                rw [getLast?_mid u2 (c :: R :: v2) L (by simp),
                  getLast?_cons_ne (R :: v2) c (by simp), getLast?_cons_ne v2 R hv2]
              rw [e1]
              exact hb
            · intro y hy
              exact nVR y (by simpa using hy) hRf
            · exact Nat.mod_lt _ hU32pos
            · rw [Nat.dvd_mod_iff h8U]
              refine Nat.dvd_add (Nat.dvd_add ?_ h8) hRm8
              rw [Nat.dvd_mod_iff h8U]
              exact Nat.dvd_add (Nat.dvd_add hLm8 h8) hcm8
        · have hRcond : ∀ x, (R :: v2)[0]? = some x → x.is_free = false := by
            intro x hx
            have hRR : R = x := by simpa using hx
            subst hRR
            simpa using hRf
          have hRcondH : ∀ x, (R :: v2).head? = some x → x.is_free = false := by
            intro x hx
            exact hRcond x (by simpa using hx)
          rw [my_free_ln H hH h u2 (R :: v2) L c hbs2 hne hLf hRcond, if_neg (by simp)]
          refine WInv_of_mid H h.brk u2 (R :: v2)
            (⟨L.addr, true, (L.data_size + H + c.data_size) % U32⟩ : Block)
            gU2 gV ?_ ?_ (fun x hx => ends' x (by simp only [List.mem_append, List.mem_cons] at hx ⊢; tauto))
            (fun x hx => ends' x (by simp only [List.mem_append, List.mem_cons] at hx ⊢; tauto)) ?_ (by simp) ?_ nU2 nV hu2T hRcondH
            (fun x hx => ds32' x (by simp only [List.mem_append, List.mem_cons] at hx ⊢; tauto)) (fun x hx => ds32' x (by simp only [List.mem_append, List.mem_cons] at hx ⊢; tauto))
            ?_ (fun x hx => m8' x (by simp only [List.mem_append, List.mem_cons] at hx ⊢; tauto)) (fun x hx => m8' x (by simp only [List.mem_append, List.mem_cons] at hx ⊢; tauto)) ?_
          · intro x hx
            have := gXL2 x hx
            simpa [endAddr] using this
          · intro y hy
            have hcy : endAddr H c ≤ y.addr := gXR y hy
            have hm1 : (L.data_size + H + c.data_size) % U32 ≤
                L.data_size + H + c.data_size := Nat.mod_le _ _
            simp only [endAddr] at *
            omega
          · have hm1 : (L.data_size + H + c.data_size) % U32 ≤
                L.data_size + H + c.data_size := Nat.mod_le _ _
            simp only [endAddr] at *
            omega
          · intro b hb
            refine tail' b ?_
            have e1 : ((u2 ++ [L]) ++ c :: R :: v2).getLast? = (R :: v2).getLast? := by
              rw [show (u2 ++ [L]) ++ c :: R :: v2 = u2 ++ L :: c :: R :: v2 by simp]
              rw [getLast?_mid u2 (c :: R :: v2) L (by simp),
                getLast?_cons_ne (R :: v2) c (by simp)]
            rw [e1]
            exact hb
          · exact Nat.mod_lt _ hU32pos
          · rw [Nat.dvd_mod_iff h8U]
            exact Nat.dvd_add (Nat.dvd_add hLm8 h8) hcm8
    · have hLt : ∀ x, (u2 ++ [L]).getLast? = some x → x.is_free = false := by
        intro x hx
        rw [List.getLast?_concat] at hx
        have hLx : L = x := by simpa using hx
        subst hLx
        simpa using hLf
      rcases hv : v with _ | ⟨R, v2⟩
      · subst hv
        rw [my_free_nn H hH h (u2 ++ [L]) [] c hbs hne hLt (by intro x hx; simp at hx),
          if_pos rfl]
        exact WInv_of_tail_cut H (u2 ++ [L]) c.addr gU nU hendu hLt
          (fun x hx => ds32' x (by simp only [List.mem_append, List.mem_cons] at hx ⊢; tauto)) (fun x hx => m8' x (by simp only [List.mem_append, List.mem_cons] at hx ⊢; tauto))
      · subst hv
        obtain ⟨gVR, gV2⟩ := List.chain'_cons'.mp gV
        obtain ⟨nVR, nV2⟩ := List.chain'_cons'.mp nV
        have hcR : endAddr H c ≤ R.addr := gXR R (by simp)
        have hRd32 : R.data_size < U32 := ds32' R (by simp)
        have hRm8 : 8 ∣ R.data_size := m8' R (by simp)
        by_cases hRf : R.is_free = true
        · rw [my_free_nr H hH h (u2 ++ [L]) v2 c R hbs hne hLt hRf]
          by_cases hv2 : v2 = []
          · subst hv2
            rw [if_pos rfl]
            exact WInv_of_tail_cut H (u2 ++ [L]) c.addr gU nU hendu hLt
              (fun x hx => ds32' x (by simp only [List.mem_append, List.mem_cons] at hx ⊢; tauto)) (fun x hx => m8' x (by simp only [List.mem_append, List.mem_cons] at hx ⊢; tauto))
          · rw [if_neg hv2]
            have hendR : endAddr H R ≤ h.brk := ends' R (by simp)
            refine WInv_of_mid H h.brk (u2 ++ [L]) v2
              (⟨c.addr, true, (c.data_size + H + R.data_size) % U32⟩ : Block)
              gU gV2 ?_ ?_ (fun x hx => ends' x (by simp only [List.mem_append, List.mem_cons] at hx ⊢; tauto))
              (fun x hx => ends' x (by simp only [List.mem_append, List.mem_cons] at hx ⊢; tauto)) ?_ hv2 ?_ nU nV2 hLt ?_
              (fun x hx => ds32' x (by simp only [List.mem_append, List.mem_cons] at hx ⊢; tauto)) (fun x hx => ds32' x (by simp only [List.mem_append, List.mem_cons] at hx ⊢; tauto))
              ?_ (fun x hx => m8' x (by simp only [List.mem_append, List.mem_cons] at hx ⊢; tauto)) (fun x hx => m8' x (by simp only [List.mem_append, List.mem_cons] at hx ⊢; tauto)) ?_
            · intro x hx
              have := gXL x hx
              simpa [endAddr] using this
            · intro y hy
              have h3 : endAddr H R ≤ y.addr := gVR y (by simpa using hy)
              have hm1 : (c.data_size + H + R.data_size) % U32 ≤
                  c.data_size + H + R.data_size := Nat.mod_le _ _
              simp only [endAddr] at *
              omega
            · have hm1 : (c.data_size + H + R.data_size) % U32 ≤
                  c.data_size + H + R.data_size := Nat.mod_le _ _
              simp only [endAddr] at *
              omega
            · intro b hb
              refine tail' b ?_
              have e1 : ((u2 ++ [L]) ++ c :: R :: v2).getLast? = v2.getLast? := by
                rw [getLast?_mid (u2 ++ [L]) (R :: v2) c (by simp),
                  getLast?_cons_ne v2 R hv2]
              rw [e1]
              exact hb
            · intro y hy
              exact nVR y (by simpa using hy) hRf
            · exact Nat.mod_lt _ hU32pos
            · rw [Nat.dvd_mod_iff h8U]
              exact Nat.dvd_add (Nat.dvd_add hcm8 h8) hRm8
        · have hRcond : ∀ x, (R :: v2)[0]? = some x → x.is_free = false := by
            intro x hx
            have hRR : R = x := by simpa using hx
            subst hRR
            simpa using hRf
          have hRcondH : ∀ x, (R :: v2).head? = some x → x.is_free = false := by
            intro x hx
            exact hRcond x (by simpa using hx)
          rw [my_free_nn H hH h (u2 ++ [L]) (R :: v2) c hbs hne hLt hRcond,
            if_neg (by simp)]
          refine WInv_of_mid H h.brk (u2 ++ [L]) (R :: v2)
            (⟨c.addr, true, c.data_size⟩ : Block)
            gU gV ?_ ?_ (fun x hx => ends' x (by simp only [List.mem_append, List.mem_cons] at hx ⊢; tauto))
            (fun x hx => ends' x (by simp only [List.mem_append, List.mem_cons] at hx ⊢; tauto)) ?_ (by simp) ?_ nU nV hLt hRcondH
            (fun x hx => ds32' x (by simp only [List.mem_append, List.mem_cons] at hx ⊢; tauto)) (fun x hx => ds32' x (by simp only [List.mem_append, List.mem_cons] at hx ⊢; tauto))
            ?_ (fun x hx => m8' x (by simp only [List.mem_append, List.mem_cons] at hx ⊢; tauto)) (fun x hx => m8' x (by simp only [List.mem_append, List.mem_cons] at hx ⊢; tauto)) ?_
          · intro x hx
            have := gXL x hx
            simpa [endAddr] using this
          · intro y hy
            have := gXR y hy
            simpa [endAddr] using this
          · simpa [endAddr] using hendc
          · intro b hb
            refine tail' b ?_
            have e1 : ((u2 ++ [L]) ++ c :: R :: v2).getLast? = (R :: v2).getLast? :=
              getLast?_mid (u2 ++ [L]) (R :: v2) c (by simp)
            rw [e1]
            exact hb
          · simpa using hcd32
          · simpa using hcm8

end MyMalloc

namespace MyMalloc

/-- Every reachable state (arbitrary `unsigned int` sizes, valid frees)
satisfies the wrap tolerant invariant. -/
theorem ReachA_WInv (H b0 : Nat) (hH : 0 < H) (h8 : 8 ∣ H) (h : Heap)
    (r : ReachA H b0 h) : WInv H h := by
  induction r with
  | init => refine ⟨?_, ?_, ?_, ?_, ?_, ?_⟩ <;> simp
  | alloc r hs ih => exact WInv_malloc H h8 _ _ ih
  | free r hq ih => exact WInv_free H hH h8 _ _ ih hq

/-- C7: in every state reachable from the empty heap by any sequence of
`my_malloc` calls and `my_free` calls on valid allocated pointers, no
two adjacent blocks of the list are both FREE. -/
theorem c7_no_adjacent_free (H b0 : Nat) (hH : 0 < H) (h8 : 8 ∣ H) (h : Heap)
    (r : ReachA H b0 h) :
    h.blocks.Chain' (fun x y => ¬(x.is_free = true ∧ y.is_free = true)) := by
  have W := ReachA_WInv H b0 hH h8 h r
  refine W.noAdj.imp ?_
  intro x y hxy hc
  rw [hxy hc.1] at hc
  exact absurd hc.2 (by simp)

/-- Witness for C7 on a concrete reachable state: allocate 16 twice and
free the first pointer, leaving a FREE block followed by a TAKEN one. -/
theorem c7_no_adjacent_free_witness :
    (⟨80, [(⟨0, true, 16⟩ : Block), ⟨40, false, 16⟩]⟩ : Heap).blocks.Chain'
      (fun x y => ¬(x.is_free = true ∧ y.is_free = true)) := by
  have e2 : (my_malloc 24 (my_malloc 24 ⟨0, []⟩ 16).1 16).1 =
      (⟨80, [(⟨0, false, 16⟩ : Block), ⟨40, false, 16⟩]⟩ : Heap) := by rfl
  have r2 : ReachA 24 0 (my_malloc 24 (my_malloc 24 ⟨0, []⟩ 16).1 16).1 :=
    ReachA.alloc (ReachA.alloc ReachA.init (by norm_num [U32])) (by norm_num [U32])
  have hv : validPtr 24 (my_malloc 24 (my_malloc 24 ⟨0, []⟩ 16).1 16).1 24 := by
    rw [e2]
    exact ⟨⟨0, false, 16⟩, by simp, rfl, rfl⟩
  have e3 : my_free 24 (my_malloc 24 (my_malloc 24 ⟨0, []⟩ 16).1 16).1 24 =
      (⟨80, [(⟨0, true, 16⟩ : Block), ⟨40, false, 16⟩]⟩ : Heap) := by rfl
  exact c7_no_adjacent_free 24 0 (by norm_num) (by norm_num) _
    (e3 ▸ ReachA.free r2 hv)

/-- C9 counterexample: a reachable state containing a block whose
`data_size` is 0, below the 16 byte minimum (one `my_malloc` call with
size 4294967290; `round_up_size` wraps to 0 in `uint32_t` and a 0 byte
block is appended). -/
theorem c9_min_size_counterexample :
    ∃ h : Heap, ReachA 24 0 h ∧ ∃ b ∈ h.blocks, b.data_size < 16 := by
  refine ⟨⟨24, [⟨0, false, 0⟩]⟩, ?_, ⟨0, false, 0⟩, by simp, by norm_num⟩
  have e : (my_malloc 24 ⟨0, []⟩ 4294967290).1 = (⟨24, [⟨0, false, 0⟩]⟩ : Heap) := by
    rfl
  exact e ▸ ReachA.alloc ReachA.init (by norm_num [U32])

end MyMalloc

namespace MyMalloc

/-- C10 counterexample: a reachable state whose (non-empty) block list
has a TAKEN tail whose stored end `addr + H + data_size` differs from
the break pointer.  A coalescing merge of two large blocks wraps the
stored `uint32_t` sum to 48, the wrapped block is re-allocated, and the
block after it is freed and retracted, leaving the wrapped block as
tail with stored end 72 while the break is 4294967368. -/
theorem c10_tail_end_counterexample :
    ∃ h : Heap, ReachA 24 0 h ∧ ∃ b, h.blocks.getLast? = some b ∧
      endAddr 24 b ≠ h.brk := by
  refine ⟨⟨4294967368, [⟨0, false, 48⟩]⟩, ?_, ⟨0, false, 48⟩, rfl, by
    simp only [endAddr]; norm_num⟩
  have r1 : ReachA 24 0 (⟨2147483672, [⟨0, false, 2147483648⟩]⟩ : Heap) := by
    have e : (my_malloc 24 ⟨0, []⟩ 2147483648).1 =
        (⟨2147483672, [⟨0, false, 2147483648⟩]⟩ : Heap) := by rfl
    exact e ▸ ReachA.alloc ReachA.init (by norm_num [U32])
  have r2 : ReachA 24 0 (⟨4294967368,
      [⟨0, false, 2147483648⟩, ⟨2147483672, false, 2147483672⟩]⟩ : Heap) := by
    have e : (my_malloc 24 (⟨2147483672, [⟨0, false, 2147483648⟩]⟩ : Heap)
        2147483672).1 = (⟨4294967368,
        [⟨0, false, 2147483648⟩, ⟨2147483672, false, 2147483672⟩]⟩ : Heap) := by rfl
    exact e ▸ ReachA.alloc r1 (by norm_num [U32])
  have r3 : ReachA 24 0 (⟨4294967408, [⟨0, false, 2147483648⟩,
      ⟨2147483672, false, 2147483672⟩, ⟨4294967368, false, 16⟩]⟩ : Heap) := by
    have e : (my_malloc 24 (⟨4294967368,
        [⟨0, false, 2147483648⟩, ⟨2147483672, false, 2147483672⟩]⟩ : Heap) 16).1 =
        (⟨4294967408, [⟨0, false, 2147483648⟩, ⟨2147483672, false, 2147483672⟩,
          ⟨4294967368, false, 16⟩]⟩ : Heap) := by rfl
    exact e ▸ ReachA.alloc r2 (by norm_num [U32])
  have r4 : ReachA 24 0 (⟨4294967408, [⟨0, true, 2147483648⟩,
      ⟨2147483672, false, 2147483672⟩, ⟨4294967368, false, 16⟩]⟩ : Heap) := by
    have e : my_free 24 (⟨4294967408, [⟨0, false, 2147483648⟩,
        ⟨2147483672, false, 2147483672⟩, ⟨4294967368, false, 16⟩]⟩ : Heap) 24 =
        (⟨4294967408, [⟨0, true, 2147483648⟩, ⟨2147483672, false, 2147483672⟩,
          ⟨4294967368, false, 16⟩]⟩ : Heap) := by rfl
    exact e ▸ ReachA.free r3 ⟨⟨0, false, 2147483648⟩, by simp, rfl, rfl⟩
  have r5 : ReachA 24 0 (⟨4294967408,
      [⟨0, true, 48⟩, ⟨4294967368, false, 16⟩]⟩ : Heap) := by
    have e : my_free 24 (⟨4294967408, [⟨0, true, 2147483648⟩,
        ⟨2147483672, false, 2147483672⟩, ⟨4294967368, false, 16⟩]⟩ : Heap)
        2147483696 = (⟨4294967408,
        [⟨0, true, 48⟩, ⟨4294967368, false, 16⟩]⟩ : Heap) := by rfl
    exact e ▸ ReachA.free r4 ⟨⟨2147483672, false, 2147483672⟩, by simp, rfl, rfl⟩
  have r6 : ReachA 24 0 (⟨4294967408,
      [⟨0, false, 48⟩, ⟨4294967368, false, 16⟩]⟩ : Heap) := by
    have e : (my_malloc 24 (⟨4294967408,
        [⟨0, true, 48⟩, ⟨4294967368, false, 16⟩]⟩ : Heap) 48).1 = (⟨4294967408,
        [⟨0, false, 48⟩, ⟨4294967368, false, 16⟩]⟩ : Heap) := by rfl
    exact e ▸ ReachA.alloc r5 (by norm_num [U32])
  have e : my_free 24 (⟨4294967408,
      [⟨0, false, 48⟩, ⟨4294967368, false, 16⟩]⟩ : Heap) 4294967392 =
      (⟨4294967368, [⟨0, false, 48⟩]⟩ : Heap) := by rfl
  exact e ▸ ReachA.free r6 ⟨⟨4294967368, false, 16⟩, by simp, rfl, rfl⟩

end MyMalloc

namespace MyMalloc

/-- Split a contiguity style chain along a middle segment. -/
theorem chain'_extract_seg {P : Block → Block → Prop} (w mid rest : List Block)
    (h : (w ++ (mid ++ rest)).Chain' P) :
    w.Chain' P ∧ mid.Chain' P ∧ rest.Chain' P ∧
      (∀ x z, w.getLast? = some x → (mid ++ rest).head? = some z → P x z) ∧
      (∀ y z, mid.getLast? = some y → rest.head? = some z → P y z) := by
  rw [List.chain'_append] at h
  obtain ⟨h1, h2, h3⟩ := h
  rw [List.chain'_append] at h2
  obtain ⟨h2a, h2b, h2c⟩ := h2
  exact ⟨h1, h2a, h2b, fun x z hx hz => h3 x hx z hz,
    fun y z hy hz => h2c y hy z hz⟩

/-- Two decompositions of one list, the second at an element whose
address is at least `A` while the first part of the first decomposition
stays below `A`: the split point lies in the second part. -/
theorem align_ge (pre suf u v : List Block) (c : Block) (A : Nat)
    (heq : pre ++ suf = u ++ c :: v)
    (hpre : ∀ b ∈ pre, b.addr < A) (hc : A ≤ c.addr) :
    ∃ t, u = pre ++ t ∧ suf = t ++ c :: v := by
  rcases List.append_eq_append_iff.mp heq with ⟨t, hu, hsv⟩ | ⟨t, hp, hv⟩
  · exact ⟨t, hu, hsv⟩
  · rcases t with _ | ⟨x, t2⟩
    · refine ⟨[], by simpa using hp.symm, ?_⟩
      simpa using hv.symm
    · exfalso
      have hx : x = c := by
        have := hv
        simp only [List.cons_append] at this
        exact (List.cons_eq_cons.mp this.symm).1
      subst hx
      have : x ∈ pre := by rw [hp]; simp
      exact absurd hc (by have := hpre x this; omega)

/-- Two decompositions of one list, the second at an element whose
address is below `A` while the tail of the first decomposition stays at
or above `A`: the split point lies in the first part. -/
theorem align_lt (pre suf u v : List Block) (c : Block) (A : Nat)
    (heq : pre ++ suf = u ++ c :: v)
    (hsuf : ∀ b ∈ suf, A ≤ b.addr) (hc : c.addr < A) :
    ∃ p2, pre = u ++ c :: p2 ∧ v = p2 ++ suf := by
  rcases List.append_eq_append_iff.mp heq with ⟨t, hu, hsv⟩ | ⟨t, hp, hv⟩
  · exfalso
    have : c ∈ suf := by rw [hsv]; simp
    exact absurd (hsuf c this) (by omega)
  · rcases t with _ | ⟨x, t2⟩
    · exfalso
      have hv2 : c :: v = suf := by simpa using hv
      have : c ∈ suf := by rw [← hv2]; simp
      exact absurd (hsuf c this) (by omega)
    · have hx : x = c ∧ t2 ++ suf = v := by
        have := hv
        simp only [List.cons_append] at this
        exact ⟨(List.cons_eq_cons.mp this.symm).1, (List.cons_eq_cons.mp this.symm).2⟩
      obtain ⟨rfl, hv2⟩ := hx
      exact ⟨t2, hp, hv2.symm⟩

/-- The three ways a partition `pre ++ suf` can relate to a segment
decomposition `w ++ mid ++ rest` of the same list: the segment entirely
inside `suf`, entirely inside `pre`, or straddling the boundary. -/
theorem part_cases (pre suf w mid rest : List Block)
    (heq : pre ++ suf = w ++ (mid ++ rest)) :
    (∃ t, w = pre ++ t ∧ suf = t ++ (mid ++ rest)) ∨
    (∃ s2, pre = w ++ (mid ++ s2) ∧ rest = s2 ++ suf) ∨
    (∃ t m2, t ≠ [] ∧ m2 ≠ [] ∧ mid = t ++ m2 ∧ pre = w ++ t ∧
      suf = m2 ++ rest) := by
  rcases List.append_eq_append_iff.mp heq with ⟨t, hu, hsv⟩ | ⟨t, hp, hv⟩
  · exact Or.inl ⟨t, hu, hsv⟩
  · rcases List.append_eq_append_iff.mp hv with ⟨a, ht, hrest⟩ | ⟨c', hm, hsuf⟩
    · refine Or.inr (Or.inl ⟨a, ?_, hrest⟩)
      rw [hp, ht]
    · rcases t with _ | ⟨x, t2⟩
      · refine Or.inl ⟨[], by simpa using hp.symm, ?_⟩
        simp only [List.nil_append] at hm
        rw [hsuf, hm]
        simp
      · rcases c' with _ | ⟨y, c2⟩
        · refine Or.inr (Or.inl ⟨[], ?_, by simpa using hsuf.symm⟩)
          rw [hp, hm]
          simp
        · exact Or.inr (Or.inr ⟨x :: t2, y :: c2, by simp, by simp, hm, hp, hsuf⟩)

/-- Contiguous blocks with positive header size are strictly sorted by
address. -/
theorem contig_sorted (H : Nat) (hH : 0 < H) (bs : List Block)
    (h : bs.Chain' (fun x y => y.addr = endAddr H x)) :
    bs.Chain' (fun x y => x.addr < y.addr) := by
  refine h.imp ?_
  intro x y hxy
  simp only [endAddr] at hxy
  omega

/-- A strictly sorted chain is pairwise sorted. -/
theorem sorted_pairwise (bs : List Block)
    (h : bs.Chain' (fun x y => x.addr < y.addr)) :
    bs.Pairwise (fun x y => x.addr < y.addr) := by
  haveI : IsTrans Block (fun x y : Block => x.addr < y.addr) :=
    ⟨fun a b c hab hbc => Nat.lt_trans hab hbc⟩
  rw [List.chain'_iff_pairwise] at h
  exact h

/-- Address separation of a pairwise sorted segment decomposition. -/
theorem seg_addr_lt (w mid rest : List Block)
    (hp : (w ++ (mid ++ rest)).Pairwise (fun x y => x.addr < y.addr)) :
    (∀ x ∈ w, ∀ y ∈ mid, x.addr < y.addr) ∧
    (∀ y ∈ mid, ∀ z ∈ rest, y.addr < z.addr) := by
  rw [List.pairwise_append] at hp
  obtain ⟨h1, h2, h3⟩ := hp
  rw [List.pairwise_append] at h2
  exact ⟨fun x hx y hy => h3 x hx y (by simp [hy]),
    fun y hy z hz => h2.2.2 y hy z hz⟩

/-- In a contiguous list whose last block ends at the break, every
block ends at or before the break. -/
theorem contig_ends (H : Nat) (brk : Nat) (bs : List Block)
    (hc : bs.Chain' (fun x y => y.addr = endAddr H x))
    (bt : ∀ b, bs.getLast? = some b → brk = endAddr H b) :
    ∀ b ∈ bs, endAddr H b ≤ brk := by
  induction bs with
  | nil => simp
  | cons a t ih =>
    intro b hb
    rcases List.mem_cons.mp hb with rfl | hb'
    · rcases t with _ | ⟨c, t2⟩
      · have := bt b (by simp)
        omega
      · have hac : c.addr = endAddr H b := (List.chain'_cons.mp hc).1
        have hce : endAddr H c ≤ brk := by
          refine ih (List.chain'_cons.mp hc).2 ?_ c (by simp)
          intro x hx
          refine bt x ?_
          rw [getLast?_cons_ne (c :: t2) b (by simp)]
          exact hx
        simp only [endAddr] at hac hce ⊢
        omega
    · refine ih hc.tail ?_ b hb'
      intro x hx
      refine bt x ?_
      rw [getLast?_cons_ne t a (List.ne_nil_of_mem hb')]
      exact hx

end MyMalloc

namespace MyMalloc

/-- Under the phase invariant, a FREE block never ends exactly at the
anchor (only the TAKEN separator block does). -/
theorem PhaseInv_free_end_ne (H anchor : Nat) (hasT gm : Bool) (h : Heap)
    (S : List Nat) (hH : 0 < H) (P : PhaseInv H anchor hasT gm h S)
    (u v : List Block) (b : Block) (hbs : h.blocks = u ++ b :: v)
    (hbf : b.is_free = true) : endAddr H b ≠ anchor := by
  intro hEnd
  rcases v with _ | ⟨R, v2⟩
  · have htail : h.blocks.getLast? = some b := by
      rw [hbs, List.getLast?_concat]
    have := P.tailTk b htail
    rw [hbf] at this
    simp at this
  · obtain ⟨pre, suf, hps, hsufA, hT, hSf⟩ := P.part
    by_cases hba : anchor ≤ b.addr
    · have he : endAddr H b = b.addr + H + b.data_size := rfl
      omega
    · push_neg at hba
      cases hhT : hasT with
      | false =>
        rw [hhT] at hT
        simp at hT
        subst hT
        have hbm : b ∈ suf := by
          have hm : b ∈ h.blocks := by rw [hbs]; simp
          rw [hps] at hm
          simpa using hm
        exact absurd (hsufA b hbm) (by omega)
      | true =>
        rw [hhT, if_pos rfl] at hT
        obtain ⟨pre2, Tb, hpre, hTbT, hTbE, hpreA⟩ := hT
        obtain ⟨p2, hpre2, hv⟩ := align_lt pre suf u (R :: v2) b anchor
          (by rw [← hps]; exact hbs) hsufA hba
        rcases p2 with _ | ⟨y, p3⟩
        · have h1 : pre.getLast? = some b := by
            rw [hpre2, List.getLast?_concat]
          rw [hpre, List.getLast?_concat] at h1
          have hTb : Tb = b := by simpa using h1
          rw [← hTb, hTbT] at hbf
          simp at hbf
        · have hRy : R = y := by
            have h2 := hv
            simp only [List.cons_append] at h2
            exact (List.cons_eq_cons.mp h2).1
          have hyA : y.addr < anchor := hpreA y (by rw [hpre2]; simp)
          have hcontig := P.contig
          rw [hbs] at hcontig
          have hRe : R.addr = endAddr H b :=
            (chain'_extract u (R :: v2) b hcontig).2.2.2 R rfl
          rw [hRy] at hRe
          omega

/-- Under the phase invariant the break never falls below the anchor. -/
theorem PhaseInv_brk_ge (H anchor : Nat) (hasT gm : Bool) (h : Heap)
    (S : List Nat) (hH : 0 < H) (P : PhaseInv H anchor hasT gm h S) :
    anchor ≤ h.brk := by
  obtain ⟨pre, suf, hps, hsufA, hT, hSf⟩ := P.part
  rcases List.eq_nil_or_concat suf with rfl | ⟨s2, z, rfl⟩
  · cases hhT : hasT with
    | false =>
      rw [hhT] at hT
      simp at hT
      subst hT
      have hnil : h.blocks = [] := by rw [hps]; simp
      rw [P.brkNil hnil]
    | true =>
      rw [hhT, if_pos rfl] at hT
      obtain ⟨pre2, Tb, hpre, hTbT, hTbE, hpreA⟩ := hT
      have hlast : h.blocks.getLast? = some Tb := by
        rw [hps, hpre]
        simp only [List.append_nil]
        rw [List.getLast?_concat]
      have hb := P.brkTail Tb hlast
      rw [hb, hTbE]
  · simp only [List.concat_eq_append] at hps hsufA
    have hlast : h.blocks.getLast? = some z := by
      rw [hps, show pre ++ (s2 ++ [z]) = (pre ++ s2) ++ [z] by simp,
        List.getLast?_concat]
    have hzA : anchor ≤ z.addr := hsufA z (by simp)
    have hb := P.brkTail z hlast
    simp only [endAddr] at hb
    omega

/-- When every outstanding pointer has been released, the break is back
at the anchor. -/
theorem PhaseInv_term (H anchor : Nat) (hasT gm : Bool) (h : Heap)
    (P : PhaseInv H anchor hasT gm h []) : h.brk = anchor := by
  obtain ⟨pre, suf, hps, hsufA, hT, hSf⟩ := P.part
  have hsufnil : suf = [] := by
    rcases List.eq_nil_or_concat suf with rfl | ⟨s2, z, rfl⟩
    · rfl
    · exfalso
      simp only [List.concat_eq_append] at hps hSf
      have hlast : h.blocks.getLast? = some z := by
        rw [hps, show pre ++ (s2 ++ [z]) = (pre ++ s2) ++ [z] by simp,
          List.getLast?_concat]
      have hzT := P.tailTk z hlast
      exact absurd (hSf z (by simp) hzT) (by simp)
  subst hsufnil
  cases hhT : hasT with
  | false =>
    rw [hhT] at hT
    simp at hT
    subst hT
    exact P.brkNil (by rw [hps]; simp)
  | true =>
    rw [hhT, if_pos rfl] at hT
    obtain ⟨pre2, Tb, hpre, hTbT, hTbE, hpreA⟩ := hT
    have hlast : h.blocks.getLast? = some Tb := by
      rw [hps, hpre]
      simp only [List.append_nil]
      rw [List.getLast?_concat]
    rw [P.brkTail Tb hlast, hTbE]

end MyMalloc

namespace MyMalloc

set_option maxHeartbeats 1000000 in
/-- Rebuild the phase invariant after a release whose coalesced FREE
block `m` replaces the consecutive segment `mid` of the block list,
with untouched segments `w` and `rest` on either side (the non-tail
case of `my_free`). -/
theorem PhaseInv_mid (H anchor : Nat) (hasT gm : Bool) (h : Heap)
    (S : List Nat) (q : Nat) (w mid rest : List Block) (m : Block)
    (hH : 0 < H) (P : PhaseInv H anchor hasT gm h S)
    (hblocks : h.blocks = w ++ (mid ++ rest))
    (hmidne : mid ≠ []) (hrestne : rest ≠ [])
    (haddr : ∀ x, mid.head? = some x → m.addr = x.addr)
    (hend : ∀ y, mid.getLast? = some y → endAddr H m = endAddr H y)
    (hmf : m.is_free = true)
    (hmne : endAddr H m ≠ anchor)
    (hmidT : ∀ x ∈ mid, x.is_free = false → endAddr H x ≠ anchor)
    (hmidq : ∀ x ∈ mid, x.is_free = false → x.addr + H = q)
    (hqc : ∃ c ∈ mid, c.addr + H = q)
    (hwT : ∀ x, w.getLast? = some x → x.is_free = false)
    (hrT : ∀ y, rest.head? = some y → y.is_free = false)
    (hm32 : m.data_size < U32) (hm8 : 8 ∣ m.data_size)
    (hm16 : gm = true → 16 ≤ m.data_size)
    (hq : q ∈ S) :
    PhaseInv H anchor hasT gm ⟨h.brk, w ++ m :: rest⟩ (S.erase q) := by
  obtain ⟨mh, hmh⟩ : ∃ x, mid.head? = some x := by
    cases mid with
    | nil => exact absurd rfl hmidne
    | cons a t => exact ⟨a, rfl⟩
  obtain ⟨ml, hml⟩ : ∃ y, mid.getLast? = some y := by
    rcases List.eq_nil_or_concat mid with rfl | ⟨m2, z, rfl⟩
    · exact absurd rfl hmidne
    · exact ⟨z, by simp only [List.concat_eq_append]; rw [List.getLast?_concat]⟩
  have hmraddr : m.addr = mh.addr := haddr mh hmh
  have hmrend : endAddr H m = endAddr H ml := hend ml hml
  have hmhmem : mh ∈ mid := mem_head? mid mh hmh
  have hmlmem : ml ∈ mid := mem_getLast? mid ml hml
  have hmrhead : (mid ++ rest).head? = some mh := by
    rw [List.head?_append_of_ne_nil mid hmidne]
    exact hmh
  have hmrne : mid ++ rest ≠ [] := by
    intro hcon
    exact hrestne (List.append_eq_nil.mp hcon).2
  have hcontigO := P.contig
  rw [hblocks] at hcontigO
  obtain ⟨cw, cmid, crest, cwx, cmr⟩ := chain'_extract_seg w mid rest hcontigO
  have hnoAdjO := P.noAdj
  rw [hblocks] at hnoAdjO
  obtain ⟨nw, nmid, nrest, nwx, nmr⟩ := chain'_extract_seg w mid rest hnoAdjO
  have hpw := sorted_pairwise _ (contig_sorted H hH _ hcontigO)
  obtain ⟨hwm, hmr2⟩ := seg_addr_lt w mid rest hpw
  obtain ⟨cq, hcqmem, hcqe⟩ := hqc
  have hkeep : ∀ x : Block, (x ∈ w ∨ x ∈ rest) → x.addr + H ≠ q := by
    intro x hx
    rw [← hcqe]
    intro hcon
    have hxa : x.addr = cq.addr := by omega
    rcases hx with hx | hx
    · exact absurd hxa (by have := hwm x hx cq hcqmem; omega)
    · exact absurd hxa (by have := hmr2 cq hcqmem x hx; omega)
  have hmemO : ∀ x : Block, (x ∈ w ∨ x ∈ rest) → x ∈ h.blocks := by
    intro x hx
    rw [hblocks]
    rcases hx with hx | hx
    · simp [hx]
    · simp [hx]
  refine ⟨?_, ?_, ?_, ?_, ?_, ?_, ?_, ?_, ?_, ?_, ?_, ?_⟩
  · refine chain'_build w rest m cw crest ?_ ?_
    · intro x hx
      have h1 := cwx x mh hx hmrhead
      rw [hmraddr]
      exact h1
    · intro y hy
      have h1 := cmr ml y hml hy
      rw [← hmrend] at h1
      exact h1
  · intro b hb
    rw [getLast?_mid w rest m hrestne] at hb
    refine P.brkTail b ?_
    rw [hblocks, List.getLast?_append_of_ne_nil w hmrne,
      List.getLast?_append_of_ne_nil mid hrestne]
    exact hb
  · intro hcon
    exact absurd hcon (by simp)
  · intro hF b hb
    rcases w with _ | ⟨a, w2⟩
    · have hbm : m = b := by simpa using hb
      subst hbm
      rw [hmraddr]
      refine P.headA hF mh ?_
      rw [hblocks]
      simpa using hmrhead
    · refine P.headA hF b ?_
      rw [hblocks]
      simp only [List.cons_append, List.head?_cons] at hb ⊢
      exact hb
  · intro b hb
    rw [getLast?_mid w rest m hrestne] at hb
    refine P.tailTk b ?_
    rw [hblocks, List.getLast?_append_of_ne_nil w hmrne,
      List.getLast?_append_of_ne_nil mid hrestne]
    exact hb
  · refine chain'_build w rest m nw nrest ?_ ?_
    · intro x hx hxf
      exact absurd hxf (by simp [hwT x hx])
    · intro y hy _
      exact hrT y hy
  · intro b hb
    rcases List.mem_append.mp hb with hbw | hbm
    · exact P.ds32 b (hmemO b (Or.inl hbw))
    · rcases List.mem_cons.mp hbm with rfl | hbr
      · exact hm32
      · exact P.ds32 b (hmemO b (Or.inr hbr))
  · intro b hb
    rcases List.mem_append.mp hb with hbw | hbm
    · exact P.mult8 b (hmemO b (Or.inl hbw))
    · rcases List.mem_cons.mp hbm with rfl | hbr
      · exact hm8
      · exact P.mult8 b (hmemO b (Or.inr hbr))
  · intro hgm b hb
    rcases List.mem_append.mp hb with hbw | hbm
    · exact P.ge16 hgm b (hmemO b (Or.inl hbw))
    · rcases List.mem_cons.mp hbm with rfl | hbr
      · exact hm16 hgm
      · exact P.ge16 hgm b (hmemO b (Or.inr hbr))
  · obtain ⟨pre, suf, hps, hsufA, hT, hSf⟩ := P.part
    have heq : pre ++ suf = w ++ (mid ++ rest) := by rw [← hps]; exact hblocks
    rcases part_cases pre suf w mid rest heq with ⟨t, hwp, hsuf⟩ |
      ⟨s2, hpre, hrest2⟩ | ⟨t, m2, htne, hm2ne, hmid2, hpre, hsuf⟩
    · refine ⟨pre, t ++ m :: rest, ?_, ?_, hT, ?_⟩
      · show w ++ m :: rest = pre ++ (t ++ m :: rest)
        rw [hwp]
        simp
      · intro b hb
        rcases List.mem_append.mp hb with hbt | hbm
        · exact hsufA b (by rw [hsuf]; simp [hbt])
        · rcases List.mem_cons.mp hbm with rfl | hbr
          · rw [hmraddr]
            exact hsufA mh (by rw [hsuf]; simp [hmhmem])
          · exact hsufA b (by rw [hsuf]; simp [hbr])
      · intro b hb hbT
        rcases List.mem_append.mp hb with hbt | hbm
        · have h1 : b.addr + H ∈ S := hSf b (by rw [hsuf]; simp [hbt]) hbT
          rw [List.mem_erase_of_ne (hkeep b (Or.inl (by rw [hwp]; simp [hbt])))]
          exact h1
        · rcases List.mem_cons.mp hbm with rfl | hbr
          · rw [hmf] at hbT
            simp at hbT
          · have h1 : b.addr + H ∈ S := hSf b (by rw [hsuf]; simp [hbr]) hbT
            rw [List.mem_erase_of_ne (hkeep b (Or.inr hbr))]
            exact h1
    · cases hhT : hasT with
      | false =>
        exfalso
        rw [hhT] at hT
        simp at hT
        rw [hT] at hpre
        have hmid0 : mid = [] := (List.append_eq_nil.mp
          (List.append_eq_nil.mp hpre.symm).2).1
        exact hmidne hmid0
      | true =>
        rw [hhT, if_pos rfl] at hT
        obtain ⟨pre2, Tb, hpreTb, hTbT, hTbE, hpreA⟩ := hT
        have hs2ne : s2 ≠ [] := by
          rintro rfl
          have hplast : pre.getLast? = some ml := by
            rw [hpre]
            simp only [List.append_nil]
            rw [List.getLast?_append_of_ne_nil w hmidne]
            exact hml
          rw [hpreTb, List.getLast?_concat] at hplast
          have hTbml : Tb = ml := by simpa using hplast
          rw [hmrend, ← hTbml, hTbE] at hmne
          exact hmne rfl
        obtain ⟨s2', z, rfl⟩ := (List.eq_nil_or_concat s2).resolve_left hs2ne
        simp only [List.concat_eq_append] at hpre hrest2
        have hzTb : (w ++ (mid ++ s2')) ++ [z] = pre2 ++ [Tb] := by
          rw [← hpreTb, hpre]
          simp
        obtain ⟨hpre2eq, hzz⟩ := List.append_inj' hzTb (by simp)
        have hzzTb : z = Tb := by simpa using hzz
        refine ⟨w ++ m :: (s2' ++ [z]), suf, ?_, hsufA, ?_, ?_⟩
        · show w ++ m :: rest = (w ++ m :: (s2' ++ [z])) ++ suf
          rw [hrest2]
          simp
        · rw [if_pos rfl]
          refine ⟨w ++ m :: s2', Tb, ?_, hTbT, hTbE, ?_⟩
          · rw [hzzTb]
            simp
          · intro b hb
            rcases List.mem_append.mp hb with hbw | hbm
            · exact hpreA b (by rw [hpre]; simp [hbw])
            · rcases List.mem_cons.mp hbm with rfl | hbr
              · rw [hmraddr]
                exact hpreA mh (by rw [hpre]; simp [hmhmem])
              · refine hpreA b ?_
                rw [hpre]
                simp only [List.mem_append, List.mem_cons] at hbr ⊢
                tauto
        · intro b hb hbT
          have hbrest : b ∈ rest := by rw [hrest2]; simp [hb]
          have h1 : b.addr + H ∈ S := hSf b hb hbT
          rw [List.mem_erase_of_ne (hkeep b (Or.inr hbrest))]
          exact h1
    · exfalso
      cases hhT : hasT with
      | false =>
        rw [hhT] at hT
        simp at hT
        rw [hT] at hpre
        exact htne (List.append_eq_nil.mp hpre.symm).2
      | true =>
        rw [hhT, if_pos rfl] at hT
        obtain ⟨pre2, Tb, hpreTb, hTbT, hTbE, hpreA⟩ := hT
        obtain ⟨t', zz, rfl⟩ := (List.eq_nil_or_concat t).resolve_left htne
        simp only [List.concat_eq_append] at hpre hmid2
        have hzTb : (w ++ t') ++ [zz] = pre2 ++ [Tb] := by
          rw [← hpreTb, hpre]
          simp
        obtain ⟨_, hzz⟩ := List.append_inj' hzTb (by simp)
        have hzzTb : zz = Tb := by simpa using hzz
        have hTbmid : Tb ∈ mid := by
          rw [hmid2, ← hzzTb]
          simp
        exact hmidT Tb hTbmid hTbT hTbE
  · intro q' hq'
    have hq'S : q' ∈ S := List.mem_of_mem_erase hq'
    obtain ⟨c', hc'm, hc'e, hc'T, hc'ne⟩ := P.ptrs q' hq'S
    rw [hblocks] at hc'm
    rcases List.mem_append.mp hc'm with hc'w | hc'mr
    · exact ⟨c', by simp [hc'w], hc'e, hc'T, hc'ne⟩
    · rcases List.mem_append.mp hc'mr with hc'mid | hc'rest
      · exfalso
        have h1 : c'.addr + H = q := hmidq c' hc'mid hc'T
        have hq'q : q' = q := by rw [← hc'e, h1]
        rw [hq'q] at hq'
        exact ((List.Nodup.mem_erase_iff P.nodup).mp hq').1 rfl
      · exact ⟨c', by simp [hc'rest], hc'e, hc'T, hc'ne⟩
  · exact P.nodup.erase q

end MyMalloc

namespace MyMalloc

set_option maxHeartbeats 1000000 in
/-- Rebuild the phase invariant after a release whose coalesced block
was the tail: the segment `mid` at the end of the list is unlinked and
the break retracts to the coalesced block's header address `m.addr`. -/
theorem PhaseInv_cut (H anchor : Nat) (hasT gm : Bool) (h : Heap)
    (S : List Nat) (q : Nat) (w mid : List Block) (m : Block)
    (hH : 0 < H) (P : PhaseInv H anchor hasT gm h S)
    (hblocks : h.blocks = w ++ mid)
    (hmidne : mid ≠ [])
    (haddr : ∀ x, mid.head? = some x → m.addr = x.addr)
    (hend : ∀ y, mid.getLast? = some y → endAddr H m = endAddr H y)
    (hmne : endAddr H m ≠ anchor)
    (hmidT : ∀ x ∈ mid, x.is_free = false → endAddr H x ≠ anchor)
    (hmidq : ∀ x ∈ mid, x.is_free = false → x.addr + H = q)
    (hqc : ∃ c ∈ mid, c.addr + H = q)
    (hwT : ∀ x, w.getLast? = some x → x.is_free = false)
    (hq : q ∈ S) :
    PhaseInv H anchor hasT gm ⟨m.addr, w⟩ (S.erase q) := by
  obtain ⟨mh, hmh⟩ : ∃ x, mid.head? = some x := by
    cases mid with
    | nil => exact absurd rfl hmidne
    | cons a t => exact ⟨a, rfl⟩
  obtain ⟨ml, hml⟩ : ∃ y, mid.getLast? = some y := by
    rcases List.eq_nil_or_concat mid with rfl | ⟨m2, z, rfl⟩
    · exact absurd rfl hmidne
    · exact ⟨z, by simp only [List.concat_eq_append]; rw [List.getLast?_concat]⟩
  have hmraddr : m.addr = mh.addr := haddr mh hmh
  have hmrend : endAddr H m = endAddr H ml := hend ml hml
  have hmhmem : mh ∈ mid := mem_head? mid mh hmh
  have hblocks2 : h.blocks = w ++ (mid ++ []) := by rw [hblocks]; simp
  have hcontigO := P.contig
  rw [hblocks] at hcontigO
  obtain ⟨cw, cmid, cwx⟩ : w.Chain' (fun x y => y.addr = endAddr H x) ∧
      mid.Chain' (fun x y => y.addr = endAddr H x) ∧
      ∀ x z, w.getLast? = some x → mid.head? = some z → z.addr = endAddr H x := by
    have := chain'_extract_seg w mid [] (by simpa using hcontigO)
    refine ⟨this.1, this.2.1, ?_⟩
    intro x z hx hz
    refine this.2.2.2.1 x z hx ?_
    rw [List.head?_append_of_ne_nil mid hmidne]
    exact hz
  have hnoAdjO := P.noAdj
  rw [hblocks] at hnoAdjO
  have nw : w.Chain' (fun x y => x.is_free = true → y.is_free = false) :=
    (chain'_extract_seg w mid [] (by simpa using hnoAdjO)).1
  have hpw := sorted_pairwise (w ++ (mid ++ []))
    (contig_sorted H hH (w ++ (mid ++ [])) (by simpa using hcontigO))
  obtain ⟨hwm, hmr2⟩ := seg_addr_lt w mid [] hpw
  obtain ⟨cq, hcqmem, hcqe⟩ := hqc
  have hkeep : ∀ x : Block, x ∈ w → x.addr + H ≠ q := by
    intro x hx
    rw [← hcqe]
    intro hcon
    have hxa : x.addr = cq.addr := by omega
    exact absurd hxa (by have := hwm x hx cq hcqmem; omega)
  have hmemO : ∀ x : Block, x ∈ w → x ∈ h.blocks := by
    intro x hx
    rw [hblocks]
    simp [hx]
  refine ⟨?_, ?_, ?_, ?_, ?_, ?_, ?_, ?_, ?_, ?_, ?_, ?_⟩
  · exact cw
  · intro b hb
    have h1 := cwx b mh hb hmh
    show m.addr = endAddr H b
    rw [hmraddr]
    exact h1
  · intro hw
    rcases w with _ | ⟨a, w2⟩
    · have hblk : h.blocks = mid := by rw [hblocks]; simp
      cases hhT : hasT with
      | false =>
        rw [hmraddr]
        refine P.headA hhT mh ?_
        rw [hblk]
        exact hmh
      | true =>
        exfalso
        obtain ⟨pre, suf, hps, hsufA, hT, hSf⟩ := P.part
        rw [hhT, if_pos rfl] at hT
        obtain ⟨pre2, Tb, hpreTb, hTbT, hTbE, hpreA⟩ := hT
        have hTbmid : Tb ∈ mid := by
          rw [← hblk, hps, hpreTb]
          simp
        exact hmidT Tb hTbmid hTbT hTbE
    · simp at hw
  · intro hF b hb
    have hwne : w ≠ [] := by
      intro hcon
      rw [hcon] at hb
      simp at hb
    refine P.headA hF b ?_
    rw [hblocks, List.head?_append_of_ne_nil w hwne]
    exact hb
  · exact fun b hb => hwT b hb
  · exact nw
  · exact fun b hb => P.ds32 b (hmemO b hb)
  · exact fun b hb => P.mult8 b (hmemO b hb)
  · exact fun hgm b hb => P.ge16 hgm b (hmemO b hb)
  · obtain ⟨pre, suf, hps, hsufA, hT, hSf⟩ := P.part
    have heq : pre ++ suf = w ++ (mid ++ []) := by rw [← hps]; exact hblocks2
    rcases part_cases pre suf w mid [] heq with ⟨t, hwp, hsuf⟩ |
      ⟨s2, hpre, hrest2⟩ | ⟨t, m2, htne, hm2ne, hmid2, hpre, hsuf⟩
    · refine ⟨pre, t, ?_, ?_, hT, ?_⟩
      · exact hwp
      · intro b hb
        exact hsufA b (by rw [hsuf]; simp [hb])
      · intro b hb hbT
        have h1 : b.addr + H ∈ S := hSf b (by rw [hsuf]; simp [hb]) hbT
        rw [List.mem_erase_of_ne (hkeep b (by rw [hwp]; simp [hb]))]
        exact h1
    · exfalso
      have hs2nil : s2 = [] := (List.append_eq_nil.mp hrest2.symm).1
      subst hs2nil
      cases hhT : hasT with
      | false =>
        rw [hhT] at hT
        simp at hT
        rw [hT] at hpre
        exact hmidne (List.append_eq_nil.mp
          (List.append_eq_nil.mp hpre.symm).2).1
      | true =>
        rw [hhT, if_pos rfl] at hT
        obtain ⟨pre2, Tb, hpreTb, hTbT, hTbE, hpreA⟩ := hT
        have hplast : pre.getLast? = some ml := by
          rw [hpre]
          simp only [List.append_nil]
          rw [List.getLast?_append_of_ne_nil w hmidne]
          exact hml
        rw [hpreTb, List.getLast?_concat] at hplast
        have hTbml : Tb = ml := by simpa using hplast
        rw [hmrend, ← hTbml, hTbE] at hmne
        exact hmne rfl
    · exfalso
      cases hhT : hasT with
      | false =>
        rw [hhT] at hT
        simp at hT
        rw [hT] at hpre
        exact htne (List.append_eq_nil.mp hpre.symm).2
      | true =>
        rw [hhT, if_pos rfl] at hT
        obtain ⟨pre2, Tb, hpreTb, hTbT, hTbE, hpreA⟩ := hT
        obtain ⟨t', zz, rfl⟩ := (List.eq_nil_or_concat t).resolve_left htne
        simp only [List.concat_eq_append] at hpre hmid2
        have hzTb : (w ++ t') ++ [zz] = pre2 ++ [Tb] := by
          rw [← hpreTb, hpre]
          simp
        obtain ⟨_, hzz⟩ := List.append_inj' hzTb (by simp)
        have hzzTb : zz = Tb := by simpa using hzz
        have hTbmid : Tb ∈ mid := by
          rw [hmid2, ← hzzTb]
          simp
        exact hmidT Tb hTbmid hTbT hTbE
  · intro q' hq'
    have hq'S : q' ∈ S := List.mem_of_mem_erase hq'
    obtain ⟨c', hc'm, hc'e, hc'T, hc'ne⟩ := P.ptrs q' hq'S
    rw [hblocks] at hc'm
    rcases List.mem_append.mp hc'm with hc'w | hc'mid
    · exact ⟨c', hc'w, hc'e, hc'T, hc'ne⟩
    · exfalso
      have h1 : c'.addr + H = q := hmidq c' hc'mid hc'T
      have hq'q : q' = q := by rw [← hc'e, h1]
      rw [hq'q] at hq'
      exact ((List.Nodup.mem_erase_iff P.nodup).mp hq').1 rfl
  · exact P.nodup.erase q

end MyMalloc

namespace MyMalloc

/-- The span of the empty block list is zero. -/
theorem sumSpan_nil (H : Nat) : sumSpan H [] = 0 := rfl

set_option maxHeartbeats 2000000 in
/-- `my_free` on an outstanding pointer preserves the phase invariant,
removes the pointer from the outstanding set, and never increases the
total span of the block list (no merge wraps because the total span is
below `2^32`). -/
theorem PhaseInv_free (H anchor : Nat) (hasT gm : Bool) (h : Heap)
    (S : List Nat) (q : Nat)
    (hH : 0 < H) (h8 : 8 ∣ H) (P : PhaseInv H anchor hasT gm h S)
    (hq : q ∈ S) (hbound : sumSpan H h.blocks < U32) :
    PhaseInv H anchor hasT gm (my_free H h q) (S.erase q) ∧
      sumSpan H (my_free H h q).blocks ≤ sumSpan H h.blocks := by
  obtain ⟨c, hcmem, hcq, hcT, hcne⟩ := P.ptrs q hq
  subst hcq
  obtain ⟨u, v, hbs⟩ := List.append_of_mem hcmem
  have cALL : (u ++ c :: v).Chain' (fun x y => y.addr = endAddr H x) :=
    hbs ▸ P.contig
  have nALL : (u ++ c :: v).Chain' (fun x y => x.is_free = true → y.is_free = false) :=
    hbs ▸ P.noAdj
  obtain ⟨cU, cV, cXL, cXR⟩ := chain'_extract u v c cALL
  obtain ⟨nU, nV, nXL, nXR⟩ := chain'_extract u v c nALL
  have hsorted : (u ++ c :: v).Chain' (fun x y => x.addr < y.addr) :=
    contig_sorted H hH _ cALL
  have hne : ∀ x ∈ u, x.addr ≠ c.addr := by
    intro x hx
    have := chain_addr_lt_of_append u v c hsorted x hx
    omega
  have ds32' : ∀ x ∈ u ++ c :: v, x.data_size < U32 := hbs ▸ P.ds32
  have m8' : ∀ x ∈ u ++ c :: v, 8 ∣ x.data_size := hbs ▸ P.mult8
  have ge16' : gm = true → ∀ x ∈ u ++ c :: v, 16 ≤ x.data_size := by
    intro hgm
    rw [← hbs]
    exact P.ge16 hgm
  have hcd32 : c.data_size < U32 := ds32' c (by simp)
  have hcm8 : 8 ∣ c.data_size := m8' c (by simp)
  have hLsplit : (∀ x, u.getLast? = some x → x.is_free = false) ∨
      (∃ u2 L, u = u2 ++ [L] ∧ L.is_free = true) := by
    rcases List.eq_nil_or_concat u with rfl | ⟨u2, L, hu⟩
    · refine Or.inl ?_
      intro x hx
      simp at hx
    · by_cases hLf : L.is_free = true
      · exact Or.inr ⟨u2, L, by rw [hu]; simp, hLf⟩
      · refine Or.inl ?_
        intro x hx
        rw [hu] at hx
        simp only [List.concat_eq_append, List.getLast?_concat] at hx
        obtain rfl : L = x := by simpa using hx
        simpa using hLf
  rcases hLsplit with hL | ⟨u2, L, hu, hLf⟩
  next =>
    rcases hv : v with _ | ⟨R, v2⟩
    · subst hv
      rw [my_free_nn H hH h u [] c hbs hne hL (by intro x hx; simp at hx),
        if_pos rfl]
      refine ⟨?_, ?_⟩
      · refine PhaseInv_cut H anchor hasT gm h S (c.addr + H) u [c]
          (⟨c.addr, true, c.data_size⟩ : Block) hH P hbs (by simp)
          ?_ ?_ hcne ?_ ?_ ⟨c, by simp, rfl⟩ hL hq
        · intro x hx
          obtain rfl : c = x := by simpa using hx
          rfl
        · intro y hy
          obtain rfl : c = y := by simpa using hy
          rfl
        · intro x hx hxT
          obtain rfl : x = c := by simpa using hx
          exact hcne
        · intro x hx hxT
          obtain rfl : x = c := by simpa using hx
          rfl
      · simp only [hbs, sumSpan_append, sumSpan_cons, sumSpan_nil, blockSpan]
        omega
    · subst hv
      obtain ⟨nVR, nV2⟩ := List.chain'_cons'.mp nV
      have hRd32 : R.data_size < U32 := ds32' R (by simp)
      have hRm8 : 8 ∣ R.data_size := m8' R (by simp)
      have hs := hbound
      rw [hbs] at hs
      simp only [sumSpan_append, sumSpan_cons, sumSpan_nil, blockSpan] at hs
      by_cases hRf : R.is_free = true
      · have hRc : R.addr = endAddr H c := cXR R rfl
        have hRne : endAddr H R ≠ anchor :=
          PhaseInv_free_end_ne H anchor hasT gm h S hH P (u ++ [c]) v2 R
            (by rw [hbs]; simp) hRf
        rcases hv2 : v2 with _ | ⟨y, v3⟩
        · subst hv2
          rw [my_free_nr H hH h u [] c R hbs hne hL hRf, if_pos rfl]
          refine ⟨?_, ?_⟩
          · refine PhaseInv_cut H anchor hasT gm h S (c.addr + H) u [c, R]
              (⟨c.addr, true, c.data_size + H + R.data_size⟩ : Block) hH P hbs
              (by simp) ?_ ?_ ?_ ?_ ?_ ⟨c, by simp, rfl⟩ hL hq
            · intro x hx
              obtain rfl : c = x := by simpa using hx
              rfl
            · intro y hy
              obtain rfl : R = y := by simpa using hy
              simp only [endAddr] at hRc ⊢
              omega
            · intro hcon
              apply hRne
              simp only [endAddr] at hcon hRc ⊢
              omega
            · intro x hx hxT
              rcases (by simpa using hx : x = c ∨ x = R) with rfl | rfl
              · exact hcne
              · rw [hRf] at hxT
                simp at hxT
            · intro x hx hxT
              rcases (by simpa using hx : x = c ∨ x = R) with rfl | rfl
              · rfl
              · rw [hRf] at hxT
                simp at hxT
          · simp only [hbs, sumSpan_append, sumSpan_cons, sumSpan_nil, blockSpan]
            omega
        · subst hv2
          have hexactCR : (c.data_size + H + R.data_size) % U32 =
              c.data_size + H + R.data_size := Nat.mod_eq_of_lt (by omega)
          rw [my_free_nr H hH h u (y :: v3) c R hbs hne hL hRf,
            if_neg (by simp), hexactCR]
          refine ⟨?_, ?_⟩
          · refine PhaseInv_mid H anchor hasT gm h S (c.addr + H) u [c, R]
              (y :: v3) (⟨c.addr, true, c.data_size + H + R.data_size⟩ : Block)
              hH P hbs (by simp) (by simp) ?_ ?_ rfl ?_ ?_ ?_
              ⟨c, by simp, rfl⟩ hL ?_ ?_ ?_ ?_ hq
            · intro x hx
              obtain rfl : c = x := by simpa using hx
              rfl
            · intro z hz
              obtain rfl : R = z := by simpa using hz
              simp only [endAddr] at hRc ⊢
              omega
            · intro hcon
              apply hRne
              simp only [endAddr] at hcon hRc ⊢
              omega
            · intro x hx hxT
              rcases (by simpa using hx : x = c ∨ x = R) with rfl | rfl
              · exact hcne
              · rw [hRf] at hxT
                simp at hxT
            · intro x hx hxT
              rcases (by simpa using hx : x = c ∨ x = R) with rfl | rfl
              · rfl
              · rw [hRf] at hxT
                simp at hxT
            · intro z hz
              obtain rfl : y = z := by simpa using hz
              exact nVR y (by simp) hRf
            · show c.data_size + H + R.data_size < U32
              omega
            · exact Nat.dvd_add (Nat.dvd_add hcm8 h8) hRm8
            · intro hgm
              have := ge16' hgm c (by simp)
              show 16 ≤ c.data_size + H + R.data_size
              omega
          · simp only [hbs, sumSpan_append, sumSpan_cons, sumSpan_nil, blockSpan]
            omega
      · have hRT : R.is_free = false := by simpa using hRf
        have hRcond : ∀ x, (R :: v2)[0]? = some x → x.is_free = false := by
          intro x hx
          obtain rfl : R = x := by simpa using hx
          exact hRT
        have hRcondH : ∀ x, (R :: v2).head? = some x → x.is_free = false := by
          intro x hx
          obtain rfl : R = x := by simpa using hx
          exact hRT
        rw [my_free_nn H hH h u (R :: v2) c hbs hne hL hRcond,
          if_neg (by simp)]
        refine ⟨?_, ?_⟩
        · refine PhaseInv_mid H anchor hasT gm h S (c.addr + H) u [c] (R :: v2)
            (⟨c.addr, true, c.data_size⟩ : Block) hH P hbs (by simp) (by simp)
            ?_ ?_ rfl hcne ?_ ?_ ⟨c, by simp, rfl⟩ hL hRcondH hcd32 hcm8 ?_ hq
          · intro x hx
            obtain rfl : c = x := by simpa using hx
            rfl
          · intro y hy
            obtain rfl : c = y := by simpa using hy
            rfl
          · intro x hx hxT
            obtain rfl : x = c := by simpa using hx
            exact hcne
          · intro x hx hxT
            obtain rfl : x = c := by simpa using hx
            rfl
          · intro hgm
            exact ge16' hgm c (by simp)
        · simp only [hbs, sumSpan_append, sumSpan_cons, sumSpan_nil, blockSpan]
          omega
  next =>
    subst hu
    have hbs2 : h.blocks = u2 ++ L :: c :: v := by rw [hbs]; simp
    have hLc : c.addr = endAddr H L := cXL L (by rw [List.getLast?_concat])
    obtain ⟨nU2, ntriv, nXL2, nXLR⟩ := chain'_extract u2 [] L nU
    have hu2T : ∀ x, u2.getLast? = some x → x.is_free = false :=
      taken_before_free u2 L nXL2 hLf
    have hLd32 : L.data_size < U32 := ds32' L (by simp)
    have hLm8 : 8 ∣ L.data_size := m8' L (by simp)
    have hs := hbound
    rw [hbs] at hs
    simp only [sumSpan_append, sumSpan_cons, sumSpan_nil, blockSpan] at hs
    have hLne : endAddr H L ≠ anchor :=
      PhaseInv_free_end_ne H anchor hasT gm h S hH P u2 (c :: v) L
        (by rw [hbs]; simp) hLf
    rcases hv : v with _ | ⟨R, v2⟩
    · subst hv
      rw [my_free_ln H hH h u2 [] L c hbs2 hne hLf (by intro x hx; simp at hx),
        if_pos rfl]
      refine ⟨?_, ?_⟩
      · refine PhaseInv_cut H anchor hasT gm h S (c.addr + H) u2 [L, c]
          (⟨L.addr, true, L.data_size + H + c.data_size⟩ : Block) hH P
          (by rw [hbs]; simp) (by simp) ?_ ?_ ?_ ?_ ?_
          ⟨c, by simp, rfl⟩ hu2T hq
        · intro x hx
          obtain rfl : L = x := by simpa using hx
          rfl
        · intro y hy
          obtain rfl : c = y := by simpa using hy
          simp only [endAddr] at hLc ⊢
          omega
        · intro hcon
          apply hcne
          simp only [endAddr] at hcon hLc ⊢
          omega
        · intro x hx hxT
          rcases (by simpa using hx : x = L ∨ x = c) with rfl | rfl
          · rw [hLf] at hxT
            simp at hxT
          · exact hcne
        · intro x hx hxT
          rcases (by simpa using hx : x = L ∨ x = c) with rfl | rfl
          · rw [hLf] at hxT
            simp at hxT
          · rfl
      · simp only [hbs, sumSpan_append, sumSpan_cons, sumSpan_nil, blockSpan]
        omega
    · subst hv
      obtain ⟨nVR, nV2⟩ := List.chain'_cons'.mp nV
      have hRd32 : R.data_size < U32 := ds32' R (by simp)
      have hRm8 : 8 ∣ R.data_size := m8' R (by simp)
      simp only [sumSpan_cons, blockSpan] at hs
      have hexactLC : (L.data_size + H + c.data_size) % U32 =
          L.data_size + H + c.data_size := Nat.mod_eq_of_lt (by omega)
      by_cases hRf : R.is_free = true
      · have hRc : R.addr = endAddr H c := cXR R rfl
        have hRne : endAddr H R ≠ anchor :=
          PhaseInv_free_end_ne H anchor hasT gm h S hH P ((u2 ++ [L]) ++ [c]) v2 R
            (by rw [hbs]; simp) hRf
        have hexactFull : (L.data_size + H + c.data_size + H + R.data_size) % U32 =
            L.data_size + H + c.data_size + H + R.data_size :=
          Nat.mod_eq_of_lt (by omega)
        rcases hv2 : v2 with _ | ⟨y, v3⟩
        · subst hv2
          rw [my_free_lr H hH h u2 [] L c R hbs2 hne hLf hRf, if_pos rfl]
          refine ⟨?_, ?_⟩
          · refine PhaseInv_cut H anchor hasT gm h S (c.addr + H) u2 [L, c, R]
              (⟨L.addr, true,
                L.data_size + H + c.data_size + H + R.data_size⟩ : Block) hH P
              (by rw [hbs]; simp) (by simp) ?_ ?_ ?_ ?_ ?_
              ⟨c, by simp, rfl⟩ hu2T hq
            · intro x hx
              obtain rfl : L = x := by simpa using hx
              rfl
            · intro y hy
              obtain rfl : R = y := by simpa using hy
              simp only [endAddr] at hLc hRc ⊢
              omega
            · intro hcon
              apply hRne
              simp only [endAddr] at hcon hLc hRc ⊢
              omega
            · intro x hx hxT
              rcases (by simpa using hx : x = L ∨ x = c ∨ x = R) with rfl | rfl | rfl
              · rw [hLf] at hxT
                simp at hxT
              · exact hcne
              · rw [hRf] at hxT
                simp at hxT
            · intro x hx hxT
              rcases (by simpa using hx : x = L ∨ x = c ∨ x = R) with rfl | rfl | rfl
              · rw [hLf] at hxT
                simp at hxT
              · rfl
              · rw [hRf] at hxT
                simp at hxT
          · simp only [hbs, sumSpan_append, sumSpan_cons, sumSpan_nil, blockSpan]
            omega
        · subst hv2
          rw [my_free_lr H hH h u2 (y :: v3) L c R hbs2 hne hLf hRf,
            if_neg (by simp), hexactLC, hexactFull]
          refine ⟨?_, ?_⟩
          · refine PhaseInv_mid H anchor hasT gm h S (c.addr + H) u2 [L, c, R]
              (y :: v3) (⟨L.addr, true,
                L.data_size + H + c.data_size + H + R.data_size⟩ : Block)
              hH P hbs2 (by simp) (by simp) ?_ ?_ rfl ?_ ?_ ?_
              ⟨c, by simp, rfl⟩ hu2T ?_ ?_ ?_ ?_ hq
            · intro x hx
              obtain rfl : L = x := by simpa using hx
              rfl
            · intro z hz
              obtain rfl : R = z := by simpa using hz
              simp only [endAddr] at hLc hRc ⊢
              omega
            · intro hcon
              apply hRne
              simp only [endAddr] at hcon hLc hRc ⊢
              omega
            · intro x hx hxT
              rcases (by simpa using hx : x = L ∨ x = c ∨ x = R) with rfl | rfl | rfl
              · rw [hLf] at hxT
                simp at hxT
              · exact hcne
              · rw [hRf] at hxT
                simp at hxT
            · intro x hx hxT
              rcases (by simpa using hx : x = L ∨ x = c ∨ x = R) with rfl | rfl | rfl
              · rw [hLf] at hxT
                simp at hxT
              · rfl
              · rw [hRf] at hxT
                simp at hxT
            · intro z hz
              obtain rfl : y = z := by simpa using hz
              exact nVR y (by simp) hRf
            · show L.data_size + H + c.data_size + H + R.data_size < U32
              omega
            · exact Nat.dvd_add (Nat.dvd_add (Nat.dvd_add
                (Nat.dvd_add hLm8 h8) hcm8) h8) hRm8
            · intro hgm
              have := ge16' hgm c (by simp)
              show 16 ≤ L.data_size + H + c.data_size + H + R.data_size
              omega
          · simp only [hbs, sumSpan_append, sumSpan_cons, sumSpan_nil, blockSpan]
            omega
      · have hRT : R.is_free = false := by simpa using hRf
        have hRcond : ∀ x, (R :: v2)[0]? = some x → x.is_free = false := by
          intro x hx
          obtain rfl : R = x := by simpa using hx
          exact hRT
        have hRcondH : ∀ x, (R :: v2).head? = some x → x.is_free = false := by
          intro x hx
          obtain rfl : R = x := by simpa using hx
          exact hRT
        rw [my_free_ln H hH h u2 (R :: v2) L c hbs2 hne hLf hRcond,
          if_neg (by simp), hexactLC]
        refine ⟨?_, ?_⟩
        · refine PhaseInv_mid H anchor hasT gm h S (c.addr + H) u2 [L, c]
            (R :: v2) (⟨L.addr, true, L.data_size + H + c.data_size⟩ : Block)
            hH P hbs2 (by simp) (by simp) ?_ ?_ rfl ?_ ?_ ?_
            ⟨c, by simp, rfl⟩ hu2T hRcondH ?_ ?_ ?_ hq
          · intro x hx
            obtain rfl : L = x := by simpa using hx
            rfl
          · intro y hy
            obtain rfl : c = y := by simpa using hy
            simp only [endAddr] at hLc ⊢
            omega
          · intro hcon
            apply hcne
            simp only [endAddr] at hcon hLc ⊢
            omega
          · intro x hx hxT
            rcases (by simpa using hx : x = L ∨ x = c) with rfl | rfl
            · rw [hLf] at hxT
              simp at hxT
            · exact hcne
          · intro x hx hxT
            rcases (by simpa using hx : x = L ∨ x = c) with rfl | rfl
            · rw [hLf] at hxT
              simp at hxT
            · rfl
          · show L.data_size + H + c.data_size < U32
            omega
          · exact Nat.dvd_add (Nat.dvd_add hLm8 h8) hcm8
          · intro hgm
            have := ge16' hgm c (by simp)
            show 16 ≤ L.data_size + H + c.data_size
            omega
        · simp only [hbs, sumSpan_append, sumSpan_cons, sumSpan_nil, blockSpan]
          omega

end MyMalloc

namespace MyMalloc

/-- The phase invariant after `add_to_list`: a fresh TAKEN block is
appended at the break, and its payload pointer joins the outstanding
set. -/
theorem PhaseInv_append (H anchor : Nat) (hasT gm : Bool) (h : Heap)
    (S : List Nat) (s : Nat)
    (hH : 0 < H) (P : PhaseInv H anchor hasT gm h S)
    (hs32 : s < U32) (hs8 : 8 ∣ s) (hs16 : gm = true → 16 ≤ s) :
    PhaseInv H anchor hasT gm
      ⟨h.brk + (H + s), h.blocks ++ [⟨h.brk, false, s⟩]⟩
      (S ++ [h.brk + H]) := by
  have hbrkge := PhaseInv_brk_ge H anchor hasT gm h S hH P
  have hends := contig_ends H h.brk h.blocks P.contig P.brkTail
  have hnotin : h.brk + H ∉ S := by
    intro hcon
    obtain ⟨c, hcm, hce, hcT, hcne⟩ := P.ptrs _ hcon
    have h1 := hends c hcm
    simp only [endAddr] at h1
    omega
  refine ⟨?_, ?_, ?_, ?_, ?_, ?_, ?_, ?_, ?_, ?_, ?_, ?_⟩
  · refine chain'_build h.blocks [] (⟨h.brk, false, s⟩ : Block) P.contig
      (by simp) ?_ (by intro y hy; simp at hy)
    intro x hx
    exact P.brkTail x hx
  · intro b hb
    rw [List.getLast?_concat] at hb
    obtain rfl : (⟨h.brk, false, s⟩ : Block) = b := by simpa using hb
    show h.brk + (H + s) = endAddr H (⟨h.brk, false, s⟩ : Block)
    simp only [endAddr]
    omega
  · intro hcon
    simp at hcon
  · intro hF b hb
    rcases hbk : h.blocks with _ | ⟨a, t⟩
    · rw [hbk] at hb
      obtain rfl : (⟨h.brk, false, s⟩ : Block) = b := by simpa using hb
      exact P.brkNil hbk
    · rw [hbk] at hb
      refine P.headA hF b ?_
      rw [hbk]
      simp only [List.cons_append, List.head?_cons] at hb ⊢
      exact hb
  · intro b hb
    rw [List.getLast?_concat] at hb
    obtain rfl : (⟨h.brk, false, s⟩ : Block) = b := by simpa using hb
    rfl
  · refine chain'_build h.blocks [] (⟨h.brk, false, s⟩ : Block) P.noAdj
      (by simp) ?_ (by intro y hy; simp at hy)
    intro x hx hxf
    rfl
  · intro b hb
    rcases List.mem_append.mp hb with hbw | hbn
    · exact P.ds32 b hbw
    · obtain rfl : b = ⟨h.brk, false, s⟩ := by simpa using hbn
      exact hs32
  · intro b hb
    rcases List.mem_append.mp hb with hbw | hbn
    · exact P.mult8 b hbw
    · obtain rfl : b = ⟨h.brk, false, s⟩ := by simpa using hbn
      exact hs8
  · intro hgm b hb
    rcases List.mem_append.mp hb with hbw | hbn
    · exact P.ge16 hgm b hbw
    · obtain rfl : b = ⟨h.brk, false, s⟩ := by simpa using hbn
      exact hs16 hgm
  · obtain ⟨pre, suf, hps, hsufA, hT, hSf⟩ := P.part
    refine ⟨pre, suf ++ [⟨h.brk, false, s⟩], ?_, ?_, hT, ?_⟩
    · show h.blocks ++ [(⟨h.brk, false, s⟩ : Block)] = pre ++ _
      rw [hps]
      simp
    · intro b hb
      rcases List.mem_append.mp hb with hbs2 | hbn
      · exact hsufA b hbs2
      · obtain rfl : b = ⟨h.brk, false, s⟩ := by simpa using hbn
        exact hbrkge
    · intro b hb hbT
      rcases List.mem_append.mp hb with hbs2 | hbn
      · exact List.mem_append.mpr (Or.inl (hSf b hbs2 hbT))
      · obtain rfl : b = ⟨h.brk, false, s⟩ := by simpa using hbn
        exact List.mem_append.mpr (Or.inr (by simp))
  · intro q hq
    rcases List.mem_append.mp hq with hqS | hqN
    · obtain ⟨c, hcm, hce, hcT, hcne⟩ := P.ptrs q hqS
      exact ⟨c, by simp [hcm], hce, hcT, hcne⟩
    · obtain rfl : q = h.brk + H := by simpa using hqN
      refine ⟨⟨h.brk, false, s⟩, by simp, rfl, rfl, ?_⟩
      show h.brk + H + s ≠ anchor
      omega
  · rw [List.nodup_append]
    refine ⟨P.nodup, by simp, ?_⟩
    intro a ha hax
    have : a = h.brk + H := by simpa using hax
    subst this
    exact hnotin ha

end MyMalloc

namespace MyMalloc

set_option maxHeartbeats 1000000 in
/-- The phase invariant after marking a found FREE block TAKEN without
splitting: its payload pointer joins the outstanding set. -/
theorem PhaseInv_mark (H anchor : Nat) (hasT gm : Bool) (h : Heap)
    (S : List Nat) (u v : List Block) (b : Block)
    (hH : 0 < H) (P : PhaseInv H anchor hasT gm h S)
    (hbs : h.blocks = u ++ b :: v) (hbf : b.is_free = true) :
    PhaseInv H anchor hasT gm
      ⟨h.brk, u ++ ({ b with is_free := false }) :: v⟩
      (S ++ [b.addr + H]) := by
  have cALL : (u ++ b :: v).Chain' (fun x y => y.addr = endAddr H x) :=
    hbs ▸ P.contig
  have nALL : (u ++ b :: v).Chain' (fun x y => x.is_free = true → y.is_free = false) :=
    hbs ▸ P.noAdj
  obtain ⟨cU, cV, cXL, cXR⟩ := chain'_extract u v b cALL
  obtain ⟨nU, nV, nXL, nXR⟩ := chain'_extract u v b nALL
  have hpw := sorted_pairwise _ (contig_sorted H hH _ cALL)
  obtain ⟨hwm, hmr2⟩ := seg_addr_lt u [b] v (by simpa using hpw)
  have hbne : endAddr H b ≠ anchor :=
    PhaseInv_free_end_ne H anchor hasT gm h S hH P u v b hbs hbf
  have hnotin : b.addr + H ∉ S := by
    intro hcon
    obtain ⟨c, hcm, hce, hcT, hcne⟩ := P.ptrs _ hcon
    have hca : c.addr = b.addr := by omega
    rw [hbs] at hcm
    rcases List.mem_append.mp hcm with hcw | hcbv
    · have := hwm c hcw b (by simp)
      omega
    · rcases List.mem_cons.mp hcbv with rfl | hcv
      · rw [hbf] at hcT
        simp at hcT
      · have := hmr2 b (by simp) c hcv
        omega
  have ds32' : ∀ x ∈ u ++ b :: v, x.data_size < U32 := hbs ▸ P.ds32
  have m8' : ∀ x ∈ u ++ b :: v, 8 ∣ x.data_size := hbs ▸ P.mult8
  have ge16' : gm = true → ∀ x ∈ u ++ b :: v, 16 ≤ x.data_size := by
    intro hgm
    rw [← hbs]
    exact P.ge16 hgm
  refine ⟨?_, ?_, ?_, ?_, ?_, ?_, ?_, ?_, ?_, ?_, ?_, ?_⟩
  · refine chain'_build u v ({ b with is_free := false }) cU cV ?_ ?_
    · intro x hx
      exact cXL x hx
    · intro y hy
      exact cXR y hy
  · intro x hx
    rcases hv : v with _ | ⟨R, v2⟩
    · subst hv
      rw [List.getLast?_concat] at hx
      obtain rfl : ({ b with is_free := false } : Block) = x := by simpa using hx
      refine P.brkTail b ?_
      rw [hbs, List.getLast?_concat]
    · subst hv
      rw [getLast?_mid u (R :: v2) _ (by simp)] at hx
      refine P.brkTail x ?_
      rw [hbs, getLast?_mid u (R :: v2) b (by simp)]
      exact hx
  · intro hcon
    exact absurd hcon (by simp)
  · intro hF x hx
    rcases u with _ | ⟨a, u2⟩
    · obtain rfl : ({ b with is_free := false } : Block) = x := by simpa using hx
      show b.addr = anchor
      refine P.headA hF b ?_
      rw [hbs]
      simp
    · refine P.headA hF x ?_
      rw [hbs]
      simp only [List.cons_append, List.head?_cons] at hx ⊢
      exact hx
  · intro x hx
    rcases hv : v with _ | ⟨R, v2⟩
    · subst hv
      rw [List.getLast?_concat] at hx
      obtain rfl : ({ b with is_free := false } : Block) = x := by simpa using hx
      rfl
    · subst hv
      rw [getLast?_mid u (R :: v2) _ (by simp)] at hx
      refine P.tailTk x ?_
      rw [hbs, getLast?_mid u (R :: v2) b (by simp)]
      exact hx
  · refine chain'_build u v ({ b with is_free := false }) nU nV ?_ ?_
    · intro x hx hxf
      rfl
    · intro y hy hcon
      simp at hcon
  · intro x hx
    rcases List.mem_append.mp hx with hxu | hxm
    · exact ds32' x (by simp [hxu])
    · rcases List.mem_cons.mp hxm with rfl | hxv
      · exact ds32' b (by simp)
      · exact ds32' x (by simp [hxv])
  · intro x hx
    rcases List.mem_append.mp hx with hxu | hxm
    · exact m8' x (by simp [hxu])
    · rcases List.mem_cons.mp hxm with rfl | hxv
      · exact m8' b (by simp)
      · exact m8' x (by simp [hxv])
  · intro hgm x hx
    rcases List.mem_append.mp hx with hxu | hxm
    · exact ge16' hgm x (by simp [hxu])
    · rcases List.mem_cons.mp hxm with rfl | hxv
      · exact ge16' hgm b (by simp)
      · exact ge16' hgm x (by simp [hxv])
  · obtain ⟨pre, suf, hps, hsufA, hT, hSf⟩ := P.part
    have heq : pre ++ suf = u ++ ([b] ++ v) := by
      rw [← hps, hbs]
      simp
    rcases part_cases pre suf u [b] v heq with ⟨t, hwp, hsuf⟩ |
      ⟨s2, hpre, hrest2⟩ | ⟨t, m2, htne, hm2ne, hmid2, hpre, hsuf⟩
    · refine ⟨pre, t ++ ({ b with is_free := false }) :: v, ?_, ?_, hT, ?_⟩
      · show u ++ ({ b with is_free := false }) :: v = pre ++ _
        rw [hwp]
        simp
      · intro x hx
        rcases List.mem_append.mp hx with hxt | hxm
        · exact hsufA x (by rw [hsuf]; simp [hxt])
        · rcases List.mem_cons.mp hxm with rfl | hxv
          · show anchor ≤ b.addr
            exact hsufA b (by rw [hsuf]; simp)
          · exact hsufA x (by rw [hsuf]; simp [hxv])
      · intro x hx hxT
        rcases List.mem_append.mp hx with hxt | hxm
        · exact List.mem_append.mpr
            (Or.inl (hSf x (by rw [hsuf]; simp [hxt]) hxT))
        · rcases List.mem_cons.mp hxm with rfl | hxv
          · exact List.mem_append.mpr (Or.inr (by simp))
          · exact List.mem_append.mpr
              (Or.inl (hSf x (by rw [hsuf]; simp [hxv]) hxT))
    · cases hhT : hasT with
      | false =>
        exfalso
        rw [hhT] at hT
        simp at hT
        rw [hT] at hpre
        exact absurd (List.append_eq_nil.mp
          (List.append_eq_nil.mp hpre.symm).2).1 (by simp)
      | true =>
        rw [hhT, if_pos rfl] at hT
        obtain ⟨pre2, Tb, hpreTb, hTbT, hTbE, hpreA⟩ := hT
        have hs2ne : s2 ≠ [] := by
          rintro rfl
          have hplast : pre.getLast? = some b := by
            rw [hpre]
            simp
          rw [hpreTb, List.getLast?_concat] at hplast
          have hTbb : Tb = b := by simpa using hplast
          rw [← hTbb, hTbT] at hbf
          simp at hbf
        obtain ⟨s2', z, rfl⟩ := (List.eq_nil_or_concat s2).resolve_left hs2ne
        simp only [List.concat_eq_append] at hpre hrest2
        have hzTb : (u ++ ([b] ++ s2')) ++ [z] = pre2 ++ [Tb] := by
          rw [← hpreTb, hpre]
          simp
        obtain ⟨hpre2eq, hzz⟩ := List.append_inj' hzTb (by simp)
        have hzzTb : z = Tb := by simpa using hzz
        refine ⟨u ++ ({ b with is_free := false }) :: (s2' ++ [z]), suf,
          ?_, hsufA, ?_, ?_⟩
        · show u ++ ({ b with is_free := false }) :: v = _ ++ suf
          rw [hrest2]
          simp
        · rw [if_pos rfl]
          refine ⟨u ++ ({ b with is_free := false }) :: s2', Tb, ?_, hTbT,
            hTbE, ?_⟩
          · rw [hzzTb]
            simp
          · intro x hx
            rcases List.mem_append.mp hx with hxu | hxm
            · exact hpreA x (by rw [hpre]; simp [hxu])
            · rcases List.mem_cons.mp hxm with rfl | hxv
              · show b.addr < anchor
                exact hpreA b (by rw [hpre]; simp)
              · refine hpreA x ?_
                rw [hpre]
                simp only [List.mem_append, List.mem_cons] at hxv ⊢
                tauto
        · intro x hx hxT
          exact List.mem_append.mpr (Or.inl (hSf x hx hxT))
    · exfalso
      have := congrArg List.length hmid2
      simp at this
      rcases t with _ | ⟨t1, t2⟩
      · exact htne rfl
      · rcases m2 with _ | ⟨m1, m3⟩
        · exact hm2ne rfl
        · simp at this
          omega
  · intro q hq
    rcases List.mem_append.mp hq with hqS | hqN
    · obtain ⟨c, hcm, hce, hcT, hcne⟩ := P.ptrs q hqS
      rw [hbs] at hcm
      rcases List.mem_append.mp hcm with hcw | hcbv
      · exact ⟨c, by simp [hcw], hce, hcT, hcne⟩
      · rcases List.mem_cons.mp hcbv with rfl | hcv
        · rw [hbf] at hcT
          simp at hcT
        · exact ⟨c, by simp [hcv], hce, hcT, hcne⟩
    · obtain rfl : q = b.addr + H := by simpa using hqN
      exact ⟨{ b with is_free := false }, by simp, rfl, rfl, hbne⟩
  · rw [List.nodup_append]
    refine ⟨P.nodup, by simp, ?_⟩
    intro a ha hax
    have : a = b.addr + H := by simpa using hax
    subst this
    exact hnotin ha

end MyMalloc

namespace MyMalloc

set_option maxHeartbeats 1000000 in
/-- The phase invariant after splitting a found FREE block: the front
part is TAKEN with the requested size, a FREE remainder block follows
it, and the payload pointer joins the outstanding set. -/
theorem PhaseInv_split (H anchor : Nat) (hasT gm : Bool) (h : Heap)
    (S : List Nat) (u v : List Block) (b : Block) (s : Nat)
    (hH : 0 < H) (h8 : 8 ∣ H) (P : PhaseInv H anchor hasT gm h S)
    (hbs : h.blocks = u ++ b :: v) (hbf : b.is_free = true)
    (hs8 : 8 ∣ s) (hs16 : gm = true → 16 ≤ s)
    (hsle : s ≤ b.data_size)
    (hth : ¬(b.data_size - s ≤ H + MINIMUM_ALLOCATION)) :
    PhaseInv H anchor hasT gm
      ⟨h.brk, u ++ (⟨b.addr, false, s⟩ : Block) ::
        (⟨b.addr + H + s, true, b.data_size - s - H⟩ : Block) :: v⟩
      (S ++ [b.addr + H]) := by
  simp only [MINIMUM_ALLOCATION] at hth
  have harith : H + 16 < b.data_size - s := by omega
  have cALL : (u ++ b :: v).Chain' (fun x y => y.addr = endAddr H x) :=
    hbs ▸ P.contig
  have nALL : (u ++ b :: v).Chain' (fun x y => x.is_free = true → y.is_free = false) :=
    hbs ▸ P.noAdj
  obtain ⟨cU, cV, cXL, cXR⟩ := chain'_extract u v b cALL
  obtain ⟨nU, nV, nXL, nXR⟩ := chain'_extract u v b nALL
  have hpw := sorted_pairwise _ (contig_sorted H hH _ cALL)
  obtain ⟨hwm, hmr2⟩ := seg_addr_lt u [b] v (by simpa using hpw)
  have hvne : v ≠ [] := by
    rintro rfl
    have h1 := P.tailTk b (by rw [hbs, List.getLast?_concat])
    rw [hbf] at h1
    simp at h1
  have hnotin : b.addr + H ∉ S := by
    intro hcon
    obtain ⟨c, hcm, hce, hcT, hcne⟩ := P.ptrs _ hcon
    have hca : c.addr = b.addr := by omega
    rw [hbs] at hcm
    rcases List.mem_append.mp hcm with hcw | hcbv
    · have := hwm c hcw b (by simp)
      omega
    · rcases List.mem_cons.mp hcbv with rfl | hcv
      · rw [hbf] at hcT
        simp at hcT
      · have := hmr2 b (by simp) c hcv
        omega
  have ds32' : ∀ x ∈ u ++ b :: v, x.data_size < U32 := hbs ▸ P.ds32
  have m8' : ∀ x ∈ u ++ b :: v, 8 ∣ x.data_size := hbs ▸ P.mult8
  have ge16' : gm = true → ∀ x ∈ u ++ b :: v, 16 ≤ x.data_size := by
    intro hgm
    rw [← hbs]
    exact P.ge16 hgm
  have hbd32 : b.data_size < U32 := ds32' b (by simp)
  have hbm8 : 8 ∣ b.data_size := m8' b (by simp)
  have hstrad : b.addr < anchor → endAddr H b < anchor := by
    intro hba
    obtain ⟨pre, suf, hps, hsufA, hT, hSf⟩ := P.part
    obtain ⟨p2, hpre2, hv⟩ := align_lt pre suf u v b anchor
      (by rw [← hps]; exact hbs) hsufA hba
    cases hhT : hasT with
    | false =>
      exfalso
      rw [hhT] at hT
      simp at hT
      rw [hT] at hpre2
      simp at hpre2
    | true =>
      rw [hhT, if_pos rfl] at hT
      obtain ⟨pre2, Tb, hpreTb, hTbT, hTbE, hpreA⟩ := hT
      rcases p2 with _ | ⟨hd, p3⟩
      · exfalso
        have hplast : pre.getLast? = some b := by
          rw [hpre2, List.getLast?_concat]
        rw [hpreTb, List.getLast?_concat] at hplast
        have hTbb : Tb = b := by simpa using hplast
        rw [← hTbb, hTbT] at hbf
        simp at hbf
      · have hhd : v.head? = some hd := by rw [hv]; simp
        have h1 : hd.addr = endAddr H b := cXR hd hhd
        have h2 : hd.addr < anchor := hpreA hd (by rw [hpre2]; simp)
        omega
  have hb1ne : b.addr + H + s ≠ anchor := by
    by_cases hba : anchor ≤ b.addr
    · omega
    · push_neg at hba
      have := hstrad hba
      simp only [endAddr] at this
      omega
  refine ⟨?_, ?_, ?_, ?_, ?_, ?_, ?_, ?_, ?_, ?_, ?_, ?_⟩
  · refine chain'_build2 u v (⟨b.addr, false, s⟩ : Block)
      (⟨b.addr + H + s, true, b.data_size - s - H⟩ : Block) cU cV ?_ rfl ?_
    · intro x hx
      exact cXL x hx
    · intro y hy
      have h1 := cXR y hy
      simp only [endAddr] at h1 ⊢
      omega
  · intro x hx
    rw [getLast?_mid u _ _ (by simp), getLast?_cons_ne v _ hvne] at hx
    refine P.brkTail x ?_
    rw [hbs, getLast?_mid u v b hvne]
    exact hx
  · intro hcon
    exact absurd hcon (by simp)
  · intro hF x hx
    rcases u with _ | ⟨a, u2⟩
    · obtain rfl : (⟨b.addr, false, s⟩ : Block) = x := by simpa using hx
      show b.addr = anchor
      refine P.headA hF b ?_
      rw [hbs]
      simp
    · refine P.headA hF x ?_
      rw [hbs]
      simp only [List.cons_append, List.head?_cons] at hx ⊢
      exact hx
  · intro x hx
    rw [getLast?_mid u _ _ (by simp), getLast?_cons_ne v _ hvne] at hx
    refine P.tailTk x ?_
    rw [hbs, getLast?_mid u v b hvne]
    exact hx
  · refine chain'_build2 u v (⟨b.addr, false, s⟩ : Block)
      (⟨b.addr + H + s, true, b.data_size - s - H⟩ : Block) nU nV ?_ ?_ ?_
    · intro x hx hxf
      rfl
    · intro hcon
      simp at hcon
    · intro y hy _
      exact nXR y hy hbf
  · intro x hx
    rcases List.mem_append.mp hx with hxu | hxm
    · exact ds32' x (by simp [hxu])
    · rcases List.mem_cons.mp hxm with rfl | hxm2
      · show s < U32
        omega
      · rcases List.mem_cons.mp hxm2 with rfl | hxv
        · show b.data_size - s - H < U32
          omega
        · exact ds32' x (by simp [hxv])
  · intro x hx
    rcases List.mem_append.mp hx with hxu | hxm
    · exact m8' x (by simp [hxu])
    · rcases List.mem_cons.mp hxm with rfl | hxm2
      · exact hs8
      · rcases List.mem_cons.mp hxm2 with rfl | hxv
        · exact Nat.dvd_sub' (Nat.dvd_sub' hbm8 hs8) h8
        · exact m8' x (by simp [hxv])
  · intro hgm x hx
    rcases List.mem_append.mp hx with hxu | hxm
    · exact ge16' hgm x (by simp [hxu])
    · rcases List.mem_cons.mp hxm with rfl | hxm2
      · exact hs16 hgm
      · rcases List.mem_cons.mp hxm2 with rfl | hxv
        · show 16 ≤ b.data_size - s - H
          omega
        · exact ge16' hgm x (by simp [hxv])
  · obtain ⟨pre, suf, hps, hsufA, hT, hSf⟩ := P.part
    have heq : pre ++ suf = u ++ ([b] ++ v) := by
      rw [← hps, hbs]
      simp
    rcases part_cases pre suf u [b] v heq with ⟨t, hwp, hsuf⟩ |
      ⟨s2, hpre, hrest2⟩ | ⟨t, m2, htne, hm2ne, hmid2, hpre, hsuf⟩
    · refine ⟨pre, t ++ (⟨b.addr, false, s⟩ : Block) ::
        (⟨b.addr + H + s, true, b.data_size - s - H⟩ : Block) :: v, ?_, ?_,
        hT, ?_⟩
      · show u ++ _ :: _ :: v = pre ++ _
        rw [hwp]
        simp
      · have hbA : anchor ≤ b.addr := hsufA b (by rw [hsuf]; simp)
        intro x hx
        rcases List.mem_append.mp hx with hxt | hxm
        · exact hsufA x (by rw [hsuf]; simp [hxt])
        · rcases List.mem_cons.mp hxm with rfl | hxm2
          · exact hbA
          · rcases List.mem_cons.mp hxm2 with rfl | hxv
            · show anchor ≤ b.addr + H + s
              omega
            · exact hsufA x (by rw [hsuf]; simp [hxv])
      · intro x hx hxT
        rcases List.mem_append.mp hx with hxt | hxm
        · exact List.mem_append.mpr
            (Or.inl (hSf x (by rw [hsuf]; simp [hxt]) hxT))
        · rcases List.mem_cons.mp hxm with rfl | hxm2
          · exact List.mem_append.mpr (Or.inr (by simp))
          · rcases List.mem_cons.mp hxm2 with rfl | hxv
            · simp at hxT
            · exact List.mem_append.mpr
                (Or.inl (hSf x (by rw [hsuf]; simp [hxv]) hxT))
    · cases hhT : hasT with
      | false =>
        exfalso
        rw [hhT] at hT
        simp at hT
        rw [hT] at hpre
        exact absurd (List.append_eq_nil.mp
          (List.append_eq_nil.mp hpre.symm).2).1 (by simp)
      | true =>
        rw [hhT, if_pos rfl] at hT
        obtain ⟨pre2, Tb, hpreTb, hTbT, hTbE, hpreA⟩ := hT
        have hs2ne : s2 ≠ [] := by
          rintro rfl
          have hplast : pre.getLast? = some b := by
            rw [hpre]
            simp
          rw [hpreTb, List.getLast?_concat] at hplast
          have hTbb : Tb = b := by simpa using hplast
          rw [← hTbb, hTbT] at hbf
          simp at hbf
        obtain ⟨s2', z, rfl⟩ := (List.eq_nil_or_concat s2).resolve_left hs2ne
        simp only [List.concat_eq_append] at hpre hrest2
        have hzTb : (u ++ ([b] ++ s2')) ++ [z] = pre2 ++ [Tb] := by
          rw [← hpreTb, hpre]
          simp
        obtain ⟨hpre2eq, hzz⟩ := List.append_inj' hzTb (by simp)
        have hzzTb : z = Tb := by simpa using hzz
        have hbA : b.addr < anchor := hpreA b (by rw [hpre]; simp)
        have hendb : endAddr H b < anchor := hstrad hbA
        refine ⟨u ++ (⟨b.addr, false, s⟩ : Block) ::
          (⟨b.addr + H + s, true, b.data_size - s - H⟩ : Block) ::
          (s2' ++ [z]), suf, ?_, hsufA, ?_, ?_⟩
        · show u ++ _ :: _ :: v = _ ++ suf
          rw [hrest2]
          simp
        · rw [if_pos rfl]
          refine ⟨u ++ (⟨b.addr, false, s⟩ : Block) ::
            (⟨b.addr + H + s, true, b.data_size - s - H⟩ : Block) :: s2', Tb,
            ?_, hTbT, hTbE, ?_⟩
          · rw [hzzTb]
            simp
          · intro x hx
            rcases List.mem_append.mp hx with hxu | hxm
            · exact hpreA x (by rw [hpre]; simp [hxu])
            · rcases List.mem_cons.mp hxm with rfl | hxm2
              · exact hbA
              · rcases List.mem_cons.mp hxm2 with rfl | hxv
                · show b.addr + H + s < anchor
                  simp only [endAddr] at hendb
                  omega
                · refine hpreA x ?_
                  rw [hpre]
                  simp only [List.mem_append, List.mem_cons] at hxv ⊢
                  tauto
        · intro x hx hxT
          exact List.mem_append.mpr (Or.inl (hSf x hx hxT))
    · exfalso
      have := congrArg List.length hmid2
      rcases t with _ | ⟨t1, t2⟩
      · exact htne rfl
      · rcases m2 with _ | ⟨m1, m3⟩
        · exact hm2ne rfl
        · simp at this
  · intro q hq
    rcases List.mem_append.mp hq with hqS | hqN
    · obtain ⟨c, hcm, hce, hcT, hcne⟩ := P.ptrs q hqS
      rw [hbs] at hcm
      rcases List.mem_append.mp hcm with hcw | hcbv
      · exact ⟨c, by simp [hcw], hce, hcT, hcne⟩
      · rcases List.mem_cons.mp hcbv with rfl | hcv
        · rw [hbf] at hcT
          simp at hcT
        · exact ⟨c, by simp [hcv], hce, hcT, hcne⟩
    · obtain rfl : q = b.addr + H := by simpa using hqN
      exact ⟨⟨b.addr, false, s⟩, by simp, rfl, rfl, hb1ne⟩
  · rw [List.nodup_append]
    refine ⟨P.nodup, by simp, ?_⟩
    intro a ha hax
    have : a = b.addr + H := by simpa using hax
    subst this
    exact hnotin ha

end MyMalloc

namespace MyMalloc

/-- `my_malloc` preserves the phase invariant; the returned payload
pointer (if any) joins the outstanding set. -/
theorem PhaseInv_malloc (H anchor : Nat) (hasT gm : Bool) (h : Heap)
    (S : List Nat) (size : Nat)
    (hH : 0 < H) (h8 : 8 ∣ H) (P : PhaseInv H anchor hasT gm h S)
    (hg : gm = true → size ≠ 0 → 16 ≤ round_up_size size) :
    PhaseInv H anchor hasT gm (my_malloc H h size).1
      (S ++ (my_malloc H h size).2.toList) := by
  unfold my_malloc
  by_cases h0 : size = 0
  · rw [if_pos h0]
    simpa using P
  · rw [if_neg h0]
    rcases hfind : find_free_block h.blocks (round_up_size size) with _ | ⟨i, b⟩
    · simp only [hfind, add_to_list, get_data_pointer, Option.toList_some]
      exact PhaseInv_append H anchor hasT gm h S (round_up_size size) hH P
        (round_up_size_lt size) (round_up_size_mult8 size)
        (fun hgm => hg hgm h0)
    · simp only [hfind, get_data_pointer, Option.toList_some]
      obtain ⟨hget, hbf, hsle, _⟩ :=
        find_free_block_some h.blocks (round_up_size size) i b hfind
      obtain ⟨u, v, hbs, hlen⟩ := decomp_of_getElem? h.blocks i b hget
      subst hlen
      have hd32 : b.data_size < U32 := P.ds32 b (by rw [hbs]; simp)
      rw [hbs, update_block_shape H u v b (round_up_size size) hd32 hsle]
      by_cases hth : b.data_size - round_up_size size ≤ H + MINIMUM_ALLOCATION
      · rw [if_pos hth]
        exact PhaseInv_mark H anchor hasT gm h S u v b hH P hbs hbf
      · rw [if_neg hth]
        exact PhaseInv_split H anchor hasT gm h S u v b (round_up_size size)
          hH h8 P hbs hbf (round_up_size_mult8 size) (fun hgm => hg hgm h0)
          hsle hth

end MyMalloc

namespace MyMalloc

/-- The phase invariant holds at the empty heap with no outstanding
pointers. -/
theorem PhaseInv_init (H b0 : Nat) (gm : Bool) :
    PhaseInv H b0 false gm ⟨b0, []⟩ [] := by
  refine ⟨by simp, ?_, ?_, ?_, ?_, by simp, by simp, by simp, ?_, ?_, ?_, by simp⟩
  · intro b hb
    simp at hb
  · intro _
    rfl
  · intro _ b hb
    simp at hb
  · intro b hb
    simp at hb
  · intro _ b hb
    simp at hb
  · exact ⟨[], [], by simp, by simp, by simp, by simp⟩
  · intro q hq
    simp at hq

/-- Every overflow free reachable state carries the phase invariant
anchored at the initial break, with some set of outstanding pointers,
and keeps its total span below `2^32`. -/
theorem ReachB_inv (H b0 : Nat) (hH : 0 < H) (h8 : 8 ∣ H) (h : Heap)
    (r : ReachB H b0 h) :
    ∃ S, PhaseInv H b0 false true h S ∧ sumSpan H h.blocks < U32 := by
  induction r with
  | init =>
    refine ⟨[], PhaseInv_init H b0 true, ?_⟩
    show sumSpan H [] < U32
    rw [sumSpan_nil]
    norm_num [U32]
  | alloc r hs hb ih =>
    obtain ⟨S, P, hsum⟩ := ih
    refine ⟨_, PhaseInv_malloc H b0 false true _ S _ hH h8 P ?_, hb⟩
    intro _ h0
    exact round_up_size_ge16 _ (Nat.pos_of_ne_zero h0) hs
  | free r hv ih =>
    obtain ⟨S, P, hsum⟩ := ih
    obtain ⟨c, hcm, hcT, hcq⟩ := hv
    obtain ⟨pre, suf, hps, hsufA, hT, hSf⟩ := P.part
    have hpre : pre = [] := by simpa using hT
    have hqS : c.addr + H ∈ S := by
      refine hSf c ?_ hcT
      rw [hpre] at hps
      simp only [List.nil_append] at hps
      rw [← hps]
      exact hcm
    rw [hcq]
    obtain ⟨P', hle⟩ := PhaseInv_free H b0 false true _ S (c.addr + H) hH h8 P
      hqS hsum
    exact ⟨S.erase (c.addr + H), P', lt_of_le_of_lt hle hsum⟩

/-- A state satisfying the §3 invariants whose tail is TAKEN carries the
phase invariant anchored at its own break, with no outstanding
pointers. -/
theorem PhaseInv_of_Spec3 (H : Nat) (hH : 0 < H) (gm : Bool) (h : Heap)
    (I : Spec3Inv H h)
    (htail : ∀ b, h.blocks.getLast? = some b → b.is_free = false) :
    PhaseInv H h.brk (!h.blocks.isEmpty) gm h [] := by
  have hends := contig_ends H h.brk h.blocks I.contig I.brkTail
  refine ⟨I.contig, I.brkTail, ?_, ?_, htail, I.noAdj, I.ds32, I.mult8,
    fun _ => I.ge16, ?_, ?_, by simp⟩
  · intro _
    rfl
  · intro hF b hb
    have hnil : h.blocks = [] := by
      have h1 : h.blocks.isEmpty = true := by simpa using hF
      exact List.isEmpty_iff.mp h1
    rw [hnil] at hb
    simp at hb
  · refine ⟨h.blocks, [], by simp, by simp, ?_, by simp⟩
    rcases List.eq_nil_or_concat h.blocks with hbk | ⟨w, Tb, hbk⟩
    · simp [hbk]
    · simp only [List.concat_eq_append] at hbk
      rw [hbk]
      rw [if_pos (by simp)]
      refine ⟨w, Tb, rfl, ?_, ?_, ?_⟩
      · refine htail Tb ?_
        rw [hbk, List.getLast?_concat]
      · refine (I.brkTail Tb ?_).symm
        rw [hbk, List.getLast?_concat]
      · intro b hb
        have h1 := hends b (by rw [hbk]; exact hb)
        simp only [endAddr] at h1
        omega
  · intro q hq
    simp at hq

/-- Running the allocation phase preserves the phase invariant, the
returned payload pointers joining the outstanding set in order. -/
theorem allocPhase_inv (H anchor : Nat) (hasT : Bool) (hH : 0 < H)
    (h8 : 8 ∣ H) :
    ∀ (sizes : List Nat) (h : Heap) (S : List Nat),
      PhaseInv H anchor hasT false h S →
      PhaseInv H anchor hasT false (allocPhase H h sizes).1
        (S ++ (allocPhase H h sizes).2) := by
  intro sizes
  induction sizes with
  | nil =>
    intro h S P
    simpa [allocPhase] using P
  | cons s rest ih =>
    intro h S P
    have P1 := PhaseInv_malloc H anchor hasT false h S s hH h8 P (by simp)
    have P2 := ih (my_malloc H h s).1 (S ++ (my_malloc H h s).2.toList) P1
    simp only [allocPhase]
    simpa [List.append_assoc] using P2

/-- Releasing, in any order, all outstanding pointers of a heap in the
overflow free regime brings the break back to the anchor. -/
theorem freePhase_brk (H anchor : Nat) (hasT gm : Bool) (hH : 0 < H)
    (h8 : 8 ∣ H) :
    ∀ (qs : List Nat) (h : Heap) (S : List Nat),
      PhaseInv H anchor hasT gm h S → S.Perm qs →
      sumSpan H h.blocks < U32 →
      (freePhase H h qs).brk = anchor := by
  intro qs
  induction qs with
  | nil =>
    intro h S P hperm hsum
    have hS : S = [] := hperm.eq_nil
    subst hS
    simpa [freePhase] using PhaseInv_term H anchor hasT gm h P
  | cons q rest ih =>
    intro h S P hperm hsum
    have hqS : q ∈ S := hperm.mem_iff.mpr (by simp)
    obtain ⟨P', hle⟩ := PhaseInv_free H anchor hasT gm h S q hH h8 P hqS hsum
    simp only [freePhase]
    refine ih (my_free H h q) (S.erase q) P' ?_ (lt_of_le_of_lt hle hsum)
    have h1 := hperm.erase q
    simpa using h1

end MyMalloc

namespace MyMalloc

/-- C2 counterexample: a §3-satisfying start state whose tail block is
FREE.  One allocation reuses the FREE tail, and the release then
retracts the break past the original break: the final break is 0, not
the initial 40. -/
theorem c2_round_trip_counterexample :
    ∃ (h0 : Heap) (sizes qs : List Nat),
      Spec3Inv 24 h0 ∧ (∀ s ∈ sizes, 0 < s) ∧
      ((allocPhase 24 h0 sizes).2).Perm qs ∧
      (freePhase 24 (allocPhase 24 h0 sizes).1 qs).brk ≠ h0.brk := by
  refine ⟨⟨40, [(⟨0, true, 16⟩ : Block)]⟩, [16], [24], ?_, ?_, ?_, ?_⟩
  · refine ⟨by simp, ?_, by simp, ?_, ?_, ?_⟩
    · intro b hb
      obtain rfl : (⟨0, true, 16⟩ : Block) = b := by simpa using hb
      show (40 : Nat) = endAddr 24 (⟨0, true, 16⟩ : Block)
      norm_num [endAddr]
    · intro b hb
      obtain rfl : b = (⟨0, true, 16⟩ : Block) := by simpa using hb
      norm_num
    · intro b hb
      obtain rfl : b = (⟨0, true, 16⟩ : Block) := by simpa using hb
      norm_num
    · intro b hb
      obtain rfl : b = (⟨0, true, 16⟩ : Block) := by simpa using hb
      norm_num [U32]
  · intro s hs
    have h1 : s = 16 := by simpa using hs
    omega
  · have e : (allocPhase 24 (⟨40, [(⟨0, true, 16⟩ : Block)]⟩ : Heap) [16]).2 =
        [24] := by rfl
    rw [e]
  · have e : (freePhase 24
        (allocPhase 24 (⟨40, [(⟨0, true, 16⟩ : Block)]⟩ : Heap) [16]).1
        [24]).brk = 0 := by rfl
    rw [e]
    norm_num

/-- C9 (amended): in every reachable state every block's `data_size` is
a multiple of 8; the minimum of 16 additionally holds throughout the
overflow free regime (sizes at most `2^32 - 8`, total span below
`2^32`), while a wrapping `round_up_size` can otherwise create smaller
blocks. -/
theorem c9_block_size_amended (H b0 : Nat) (hH : 0 < H) (h8 : 8 ∣ H)
    (h : Heap) :
    (ReachA H b0 h → ∀ b ∈ h.blocks, 8 ∣ b.data_size) ∧
    (ReachB H b0 h → ∀ b ∈ h.blocks, 8 ∣ b.data_size ∧ 16 ≤ b.data_size) := by
  constructor
  · intro r
    exact (ReachA_WInv H b0 hH h8 h r).mult8
  · intro r
    obtain ⟨S, P, _⟩ := ReachB_inv H b0 hH h8 h r
    intro b hb
    exact ⟨P.mult8 b hb, P.ge16 rfl b hb⟩

/-- Witness for the amended C9 on a concrete reachable block. -/
theorem c9_block_size_amended_witness :
    8 ∣ (Block.mk 0 false 16).data_size ∧
      16 ≤ (Block.mk 0 false 16).data_size := by
  have e1 : (my_malloc 24 ⟨0, []⟩ 16).1 =
      (⟨40, [(⟨0, false, 16⟩ : Block)]⟩ : Heap) := by rfl
  have hsum : sumSpan 24 (my_malloc 24 ⟨0, []⟩ 16).1.blocks < U32 := by
    rw [e1]
    show sumSpan 24 [(⟨0, false, 16⟩ : Block)] < U32
    norm_num [sumSpan, blockSpan, U32]
  have hB : ReachB 24 0 (⟨40, [(⟨0, false, 16⟩ : Block)]⟩ : Heap) :=
    e1 ▸ ReachB.alloc ReachB.init (by norm_num [U32]) hsum
  exact (c9_block_size_amended 24 0 (by norm_num) (by norm_num) _).2 hB
    ⟨0, false, 16⟩ (by simp)

/-- C10 (amended): in every reachable state the tail block is TAKEN and
the first fit search never selects the tail; the stored tail end
coincides with the break throughout the overflow free regime, while a
wrapping merge can otherwise leave a tail whose stored end differs from
the break. -/
theorem c10_tail_amended (H b0 : Nat) (hH : 0 < H) (h8 : 8 ∣ H) (h : Heap) :
    (ReachA H b0 h →
      (∀ b, h.blocks.getLast? = some b → b.is_free = false) ∧
      (∀ s i b, find_free_block h.blocks s = some (i, b) →
        i + 1 < h.blocks.length)) ∧
    (ReachB H b0 h → ∀ b, h.blocks.getLast? = some b → h.brk = endAddr H b) := by
  constructor
  · intro r
    have W := ReachA_WInv H b0 hH h8 h r
    refine ⟨W.tailTk, ?_⟩
    intro s i b hf
    obtain ⟨hget, hbf, _, _⟩ := find_free_block_some h.blocks s i b hf
    have hlt : i < h.blocks.length := by
      by_contra hcon
      push_neg at hcon
      rw [List.getElem?_eq_none hcon] at hget
      simp at hget
    by_contra hcon
    push_neg at hcon
    have hi : i = h.blocks.length - 1 := by omega
    have hlast : h.blocks.getLast? = some b := by
      rw [List.getLast?_eq_getElem?, ← hi]
      exact hget
    have h1 := W.tailTk b hlast
    rw [hbf] at h1
    simp at h1
  · intro r
    obtain ⟨S, P, _⟩ := ReachB_inv H b0 hH h8 h r
    exact P.brkTail

/-- Witness for the amended C10 on a concrete reachable state with a
FREE block followed by the TAKEN tail. -/
theorem c10_tail_amended_witness :
    (Block.mk 40 false 16).is_free = false ∧
    (0 : Nat) + 1 < 2 ∧
    (80 : Nat) = endAddr 24 (Block.mk 40 false 16) := by
  have e1 : (my_malloc 24 ⟨0, []⟩ 16).1 =
      (⟨40, [(⟨0, false, 16⟩ : Block)]⟩ : Heap) := by rfl
  have e2 : (my_malloc 24 (⟨40, [(⟨0, false, 16⟩ : Block)]⟩ : Heap) 16).1 =
      (⟨80, [(⟨0, false, 16⟩ : Block), ⟨40, false, 16⟩]⟩ : Heap) := by rfl
  have e3 : my_free 24
      (⟨80, [(⟨0, false, 16⟩ : Block), ⟨40, false, 16⟩]⟩ : Heap) 24 =
      (⟨80, [(⟨0, true, 16⟩ : Block), ⟨40, false, 16⟩]⟩ : Heap) := by rfl
  have hA : ReachA 24 0
      (⟨80, [(⟨0, true, 16⟩ : Block), ⟨40, false, 16⟩]⟩ : Heap) := by
    have r2 : ReachA 24 0
        (⟨80, [(⟨0, false, 16⟩ : Block), ⟨40, false, 16⟩]⟩ : Heap) :=
      e2 ▸ ReachA.alloc (e1 ▸ ReachA.alloc ReachA.init (by norm_num [U32]))
        (by norm_num [U32])
    exact e3 ▸ ReachA.free r2 ⟨⟨0, false, 16⟩, by simp, rfl, rfl⟩
  have hB : ReachB 24 0
      (⟨80, [(⟨0, true, 16⟩ : Block), ⟨40, false, 16⟩]⟩ : Heap) := by
    have hs1 : sumSpan 24 (my_malloc 24 ⟨0, []⟩ 16).1.blocks < U32 := by
      rw [e1]
      show sumSpan 24 [(⟨0, false, 16⟩ : Block)] < U32
      norm_num [sumSpan, blockSpan, U32]
    have r1 : ReachB 24 0 (⟨40, [(⟨0, false, 16⟩ : Block)]⟩ : Heap) :=
      e1 ▸ ReachB.alloc ReachB.init (by norm_num [U32]) hs1
    have hs2 : sumSpan 24
        (my_malloc 24 (⟨40, [(⟨0, false, 16⟩ : Block)]⟩ : Heap) 16).1.blocks <
        U32 := by
      rw [e2]
      show sumSpan 24 [(⟨0, false, 16⟩ : Block), ⟨40, false, 16⟩] < U32
      norm_num [sumSpan, blockSpan, U32]
    have r2 : ReachB 24 0
        (⟨80, [(⟨0, false, 16⟩ : Block), ⟨40, false, 16⟩]⟩ : Heap) :=
      e2 ▸ ReachB.alloc r1 (by norm_num [U32]) hs2
    exact e3 ▸ ReachB.free r2 ⟨⟨0, false, 16⟩, by simp, rfl, rfl⟩
  have hthm := c10_tail_amended 24 0 (by norm_num) (by norm_num)
    (⟨80, [(⟨0, true, 16⟩ : Block), ⟨40, false, 16⟩]⟩ : Heap)
  refine ⟨(hthm.1 hA).1 (⟨40, false, 16⟩ : Block) (by rfl), ?_, ?_⟩
  · exact (hthm.1 hA).2 16 0 ⟨0, true, 16⟩ (by rfl)
  · exact (hthm.2 hB) (⟨40, false, 16⟩ : Block) (by rfl)

end MyMalloc

namespace MyMalloc

/-- In a strictly address sorted list, blocks are determined by their
addresses. -/
theorem sorted_addr_inj (bs : List Block)
    (hs : bs.Chain' (fun x y => x.addr < y.addr)) :
    ∀ a ∈ bs, ∀ b ∈ bs, a.addr = b.addr → a = b := by
  intro a ha b hb heq
  obtain ⟨u, v, rfl⟩ := List.append_of_mem ha
  rcases List.mem_append.mp hb with hbu | hbv
  · exact absurd heq (by
      have := chain_addr_lt_of_append u v a hs b hbu
      omega)
  · rcases List.mem_cons.mp hbv with rfl | hbv2
    · rfl
    · have hp := sorted_pairwise _ hs
      rw [List.pairwise_append] at hp
      have h2 := List.pairwise_cons.mp hp.2.1
      exact absurd heq (by have := h2.1 b hbv2; omega)

/-- Retraction invariant for the release phase.  It mentions no stored
`data_size` at all, so it survives wrapping `uint32_t` coalesce sums:
addresses are strictly sorted, the list splits at the `anchor` address
into an untouched-boundary part `pre` (ending in the fixed TAKEN
separator block `tb`, when present) and a part `suf` starting exactly at
`anchor`, outstanding pointers are payload pointers of TAKEN blocks
other than the separator, every TAKEN block of `suf` is outstanding,
and once `suf` is empty the break has been retracted to `anchor`. -/
structure RInv (H anchor : Nat) (tb : Option Block) (h : Heap)
    (S : List Nat) : Prop where
  sorted : h.blocks.Chain' (fun x y => x.addr < y.addr)
  noAdj : h.blocks.Chain' (fun x y => x.is_free = true → y.is_free = false)
  tailTk : ∀ b, h.blocks.getLast? = some b → b.is_free = false
  tbT : ∀ Tb, tb = some Tb → Tb.is_free = false
  part : ∃ pre suf, h.blocks = pre ++ suf ∧
    (∀ b ∈ pre, b.addr < anchor) ∧ (∀ b ∈ suf, anchor ≤ b.addr) ∧
    (∀ Tb, tb = some Tb → pre.getLast? = some Tb) ∧
    (tb = none → pre = []) ∧
    (∀ b, suf.head? = some b → b.addr = anchor) ∧
    (suf = [] → h.brk = anchor) ∧
    (∀ b ∈ suf, b.is_free = false → b.addr + H ∈ S)
  ptrs : ∀ q ∈ S, ∃ c ∈ h.blocks, c.addr + H = q ∧ c.is_free = false ∧
    (∀ Tb, tb = some Tb → c.addr ≠ Tb.addr)
  nodup : S.Nodup

/-- When no pointer is outstanding, the retraction invariant pins the
break at the anchor. -/
theorem RInv_term (H anchor : Nat) (tb : Option Block) (h : Heap)
    (R : RInv H anchor tb h []) : h.brk = anchor := by
  obtain ⟨pre, suf, hps, hpreA, hsufA, htbL, htbN, hheadS, hnil, hSf⟩ := R.part
  have hsufnil : suf = [] := by
    rcases List.eq_nil_or_concat suf with rfl | ⟨s2, z, rfl⟩
    · rfl
    · exfalso
      simp only [List.concat_eq_append] at hps hSf
      have hlast : h.blocks.getLast? = some z := by
        rw [hps, show pre ++ (s2 ++ [z]) = (pre ++ s2) ++ [z] by simp,
          List.getLast?_concat]
      have hzT := R.tailTk z hlast
      exact absurd (hSf z (by simp) hzT) (by simp)
  exact hnil hsufnil

/-- The phase invariant (which holds after the allocation phase, where
no `uint32_t` sum can wrap) yields the wrap proof retraction
invariant. -/
theorem RInv_of_PhaseInv (H anchor : Nat) (hasT gm : Bool) (h : Heap)
    (S : List Nat) (hH : 0 < H) (P : PhaseInv H anchor hasT gm h S) :
    ∃ tb, RInv H anchor tb h S := by
  obtain ⟨pre, suf, hps, hsufA, hT, hSf⟩ := P.part
  have hsorted := contig_sorted H hH _ P.contig
  have hinj := sorted_addr_inj h.blocks hsorted
  cases hhT : hasT with
  | false =>
    rw [hhT] at hT
    simp at hT
    subst hT
    refine ⟨none, hsorted, P.noAdj, P.tailTk, by simp, ?_, ?_, P.nodup⟩
    · refine ⟨[], suf, by simpa using hps, by simp, hsufA, by simp,
        fun _ => rfl, ?_, ?_, hSf⟩
      · intro b hb
        refine P.headA hhT b ?_
        rw [hps]
        simpa using hb
      · intro hsnil
        refine P.brkNil ?_
        rw [hps, hsnil]
        simp
    · intro q hq
      obtain ⟨c, hcm, hce, hcT, hcne⟩ := P.ptrs q hq
      exact ⟨c, hcm, hce, hcT, fun Tb hTb => by simp at hTb⟩
  | true =>
    rw [hhT, if_pos rfl] at hT
    obtain ⟨pre2, Tb, hpre, hTbT, hTbE, hpreA⟩ := hT
    have hTbmem : Tb ∈ h.blocks := by
      rw [hps, hpre]
      simp
    refine ⟨some Tb, hsorted, P.noAdj, P.tailTk, ?_, ?_, ?_, P.nodup⟩
    · intro Tb' hTb'
      obtain rfl : Tb = Tb' := by simpa using hTb'
      exact hTbT
    · refine ⟨pre, suf, hps, hpreA, hsufA, ?_, by simp, ?_, ?_, hSf⟩
      · intro Tb' hTb'
        obtain rfl : Tb = Tb' := by simpa using hTb'
        rw [hpre, List.getLast?_concat]
      · intro b hb
        have hc := P.contig
        rw [hps, hpre] at hc
        rw [List.chain'_append] at hc
        have h1 := hc.2.2 Tb (List.getLast?_concat _) b hb
        rw [h1, hTbE]
      · intro hsnil
        have hlast : h.blocks.getLast? = some Tb := by
          rw [hps, hsnil, hpre]
          simp only [List.append_nil]
          rw [List.getLast?_concat]
        rw [P.brkTail Tb hlast, hTbE]
    · intro q hq
      obtain ⟨c, hcm, hce, hcT, hcne⟩ := P.ptrs q hq
      refine ⟨c, hcm, hce, hcT, ?_⟩
      intro Tb' hTb' hca
      obtain rfl : Tb = Tb' := by simpa using hTb'
      have : c = Tb := hinj c hcm Tb hTbmem hca
      rw [this, hTbE] at hcne
      exact hcne rfl

end MyMalloc

namespace MyMalloc

set_option maxHeartbeats 1000000 in
/-- Rebuild the retraction invariant after a release whose coalesced
FREE block `m` replaces the consecutive segment `mid`, with untouched
segments `w` and `rest` on either side (the non-tail case).  No stored
size enters the proof, so wrapping merge sums are harmless. -/
theorem RInv_mid (H anchor : Nat) (tb : Option Block) (h : Heap)
    (S : List Nat) (q : Nat) (w mid rest : List Block) (m : Block)
    (hH : 0 < H) (R : RInv H anchor tb h S)
    (hblocks : h.blocks = w ++ (mid ++ rest))
    (hmidne : mid ≠ []) (hrestne : rest ≠ [])
    (haddr : ∀ x, mid.head? = some x → m.addr = x.addr)
    (hmf : m.is_free = true)
    (hmidq : ∀ x ∈ mid, x.is_free = false → x.addr + H = q)
    (hqc : ∃ c ∈ mid, c.addr + H = q)
    (hqTb : ∀ Tb, tb = some Tb → q ≠ Tb.addr + H)
    (hwT : ∀ x, w.getLast? = some x → x.is_free = false)
    (hrT : ∀ y, rest.head? = some y → y.is_free = false)
    (hq : q ∈ S) :
    RInv H anchor tb (⟨h.brk, w ++ m :: rest⟩ : Heap) (S.erase q) := by
  obtain ⟨mh, hmh⟩ : ∃ x, mid.head? = some x := by
    cases mid with
    | nil => exact absurd rfl hmidne
    | cons a t => exact ⟨a, rfl⟩
  obtain ⟨ml, hml⟩ : ∃ y, mid.getLast? = some y := by
    rcases List.eq_nil_or_concat mid with rfl | ⟨m2, z, rfl⟩
    · exact absurd rfl hmidne
    · exact ⟨z, by simp only [List.concat_eq_append]; rw [List.getLast?_concat]⟩
  have hmraddr : m.addr = mh.addr := haddr mh hmh
  have hmhmem : mh ∈ mid := mem_head? mid mh hmh
  have hmlmem : ml ∈ mid := mem_getLast? mid ml hml
  have hmrhead : (mid ++ rest).head? = some mh := by
    rw [List.head?_append_of_ne_nil mid hmidne]
    exact hmh
  have hmrne : mid ++ rest ≠ [] := by
    intro hcon
    exact hrestne (List.append_eq_nil.mp hcon).2
  have sALL := hblocks ▸ R.sorted
  have nALL := hblocks ▸ R.noAdj
  obtain ⟨sw, smid, srest, swx, smr⟩ := chain'_extract_seg w mid rest sALL
  obtain ⟨nw, nmid, nrest, nwx, nmr⟩ := chain'_extract_seg w mid rest nALL
  have hpw := sorted_pairwise _ sALL
  obtain ⟨hwm, hmr2⟩ := seg_addr_lt w mid rest hpw
  obtain ⟨cq, hcqmem, hcqe⟩ := hqc
  have hkeep : ∀ x : Block, (x ∈ w ∨ x ∈ rest) → x.addr + H ≠ q := by
    intro x hx
    rw [← hcqe]
    intro hcon
    have hxa : x.addr = cq.addr := by omega
    rcases hx with hx | hx
    · exact absurd hxa (by have := hwm x hx cq hcqmem; omega)
    · exact absurd hxa (by have := hmr2 cq hcqmem x hx; omega)
  refine ⟨?_, ?_, ?_, R.tbT, ?_, ?_, ?_⟩
  · refine chain'_build w rest m sw srest ?_ ?_
    · intro x hx
      have h1 := swx x mh hx hmrhead
      rw [hmraddr]
      exact h1
    · intro y hy
      have h1 := hmr2 mh hmhmem y (mem_head? rest y hy)
      rw [hmraddr]
      exact h1
  · refine chain'_build w rest m nw nrest ?_ ?_
    · intro x hx hxf
      exact absurd hxf (by simp [hwT x hx])
    · intro y hy _
      exact hrT y hy
  · intro b hb
    rw [getLast?_mid w rest m hrestne] at hb
    refine R.tailTk b ?_
    rw [hblocks, List.getLast?_append_of_ne_nil w hmrne,
      List.getLast?_append_of_ne_nil mid hrestne]
    exact hb
  · obtain ⟨pre, suf, hps, hpreA, hsufA, htbL, htbN, hheadS, hnil, hSf⟩ :=
      R.part
    have heq : pre ++ suf = w ++ (mid ++ rest) := by
      rw [← hps]
      exact hblocks
    rcases part_cases pre suf w mid rest heq with ⟨t, hwp, hsuf⟩ |
      ⟨s2, hpre, hrest2⟩ | ⟨t, m2, htne, hm2ne, hmid2, hpre, hsuf⟩
    · refine ⟨pre, t ++ m :: rest, ?_, hpreA, ?_, htbL, htbN, ?_, ?_, ?_⟩
      · show w ++ m :: rest = pre ++ (t ++ m :: rest)
        rw [hwp]
        simp
      · intro b hb
        rcases List.mem_append.mp hb with hbt | hbm
        · exact hsufA b (by rw [hsuf]; simp [hbt])
        · rcases List.mem_cons.mp hbm with rfl | hbr
          · rw [hmraddr]
            exact hsufA mh (by rw [hsuf]; simp [hmhmem])
          · exact hsufA b (by rw [hsuf]; simp [hbr])
      · intro b hb
        rcases ht : t with _ | ⟨a, t2⟩
        · subst ht
          have hbm : m = b := by simpa using hb
          subst hbm
          rw [hmraddr]
          refine hheadS mh ?_
          rw [hsuf]
          simpa using hmrhead
        · subst ht
          refine hheadS b ?_
          rw [hsuf]
          simp only [List.cons_append, List.head?_cons] at hb ⊢
          exact hb
      · intro hcon
        exact absurd hcon (by simp)
      · intro b hb hbT
        rcases List.mem_append.mp hb with hbt | hbm
        · have h1 : b.addr + H ∈ S := hSf b (by rw [hsuf]; simp [hbt]) hbT
          rw [List.mem_erase_of_ne (hkeep b (Or.inl (by rw [hwp]; simp [hbt])))]
          exact h1
        · rcases List.mem_cons.mp hbm with rfl | hbr
          · rw [hmf] at hbT
            simp at hbT
          · have h1 : b.addr + H ∈ S := hSf b (by rw [hsuf]; simp [hbr]) hbT
            rw [List.mem_erase_of_ne (hkeep b (Or.inr hbr))]
            exact h1
    · rcases htb : tb with _ | Tb
      · exfalso
        have hp0 := htbN htb
        rw [hp0] at hpre
        exact hmidne (List.append_eq_nil.mp
          (List.append_eq_nil.mp hpre.symm).2).1
      · have hTbT := R.tbT Tb htb
        have hpl := htbL Tb htb
        have hs2ne : s2 ≠ [] := by
          rintro rfl
          have hpl2 : pre.getLast? = some ml := by
            rw [hpre]
            simp only [List.append_nil]
            rw [List.getLast?_append_of_ne_nil w hmidne]
            exact hml
          rw [hpl] at hpl2
          have hTbml : Tb = ml := by simpa using hpl2
          have h1 := hmidq ml hmlmem (by rw [← hTbml]; exact hTbT)
          rw [← hTbml] at h1
          exact hqTb Tb htb h1.symm
        obtain ⟨s2', z, rfl⟩ := (List.eq_nil_or_concat s2).resolve_left hs2ne
        simp only [List.concat_eq_append] at hpre hrest2
        have hzTb : Tb = z := by
          have hpl2 : pre.getLast? = some z := by
            rw [hpre, show w ++ (mid ++ (s2' ++ [z])) =
              (w ++ (mid ++ s2')) ++ [z] by simp, List.getLast?_concat]
          rw [hpl] at hpl2
          simpa using hpl2
        refine ⟨w ++ m :: (s2' ++ [z]), suf, ?_, ?_, hsufA, ?_, ?_, hheadS,
          ?_, ?_⟩
        · show w ++ m :: rest = _ ++ suf
          rw [hrest2]
          simp
        · intro b hb
          rcases List.mem_append.mp hb with hbw | hbm
          · exact hpreA b (by rw [hpre]; simp [hbw])
          · rcases List.mem_cons.mp hbm with rfl | hbr
            · rw [hmraddr]
              exact hpreA mh (by rw [hpre]; simp [hmhmem])
            · refine hpreA b ?_
              rw [hpre]
              simp only [List.mem_append, List.mem_cons] at hbr ⊢
              tauto
        · intro Tb' hTb'
          have hTT : Tb = Tb' := by simpa using hTb'
          rw [show w ++ m :: (s2' ++ [z]) = (w ++ m :: s2') ++ [z] by simp,
            List.getLast?_concat, ← hzTb, hTT]
        · intro hnone
          simp at hnone
        · intro hsnil
          exact hnil hsnil
        · intro b hb hbT
          have hbrest : b ∈ rest := by rw [hrest2]; simp [hb]
          have h1 : b.addr + H ∈ S := hSf b hb hbT
          rw [List.mem_erase_of_ne (hkeep b (Or.inr hbrest))]
          exact h1
    · exfalso
      rcases htb : tb with _ | Tb
      · have hp0 := htbN htb
        rw [hp0] at hpre
        exact htne (List.append_eq_nil.mp hpre.symm).2
      · have hTbT := R.tbT Tb htb
        have hpl := htbL Tb htb
        obtain ⟨t', zz, rfl⟩ := (List.eq_nil_or_concat t).resolve_left htne
        simp only [List.concat_eq_append] at hpre hmid2
        have hzzTb : Tb = zz := by
          have hpl2 : pre.getLast? = some zz := by
            rw [hpre, show w ++ (t' ++ [zz]) = (w ++ t') ++ [zz] by simp,
              List.getLast?_concat]
          rw [hpl] at hpl2
          simpa using hpl2
        have hTbmid : Tb ∈ mid := by
          rw [hmid2, hzzTb]
          simp
        exact hqTb Tb htb (hmidq Tb hTbmid hTbT).symm
  · intro q' hq'
    have hq'S : q' ∈ S := List.mem_of_mem_erase hq'
    obtain ⟨c', hc'm, hc'e, hc'T, hc'Tb⟩ := R.ptrs q' hq'S
    rw [hblocks] at hc'm
    rcases List.mem_append.mp hc'm with hc'w | hc'mr
    · exact ⟨c', by simp [hc'w], hc'e, hc'T, hc'Tb⟩
    · rcases List.mem_append.mp hc'mr with hc'mid | hc'rest
      · exfalso
        have h1 : c'.addr + H = q := hmidq c' hc'mid hc'T
        have hq'q : q' = q := by rw [← hc'e, h1]
        rw [hq'q] at hq'
        exact ((List.Nodup.mem_erase_iff R.nodup).mp hq').1 rfl
      · exact ⟨c', by simp [hc'rest], hc'e, hc'T, hc'Tb⟩
  · exact R.nodup.erase q

end MyMalloc

namespace MyMalloc

set_option maxHeartbeats 1000000 in
/-- Rebuild the retraction invariant after a release whose coalesced
block was the tail: the segment `mid` at the end of the list is
unlinked and the break retracts to the coalesced block's header address
`m.addr`.  If this removes the whole upper part, `m.addr` is the anchor
itself. -/
theorem RInv_cut (H anchor : Nat) (tb : Option Block) (h : Heap)
    (S : List Nat) (q : Nat) (w mid : List Block) (m : Block)
    (hH : 0 < H) (R : RInv H anchor tb h S)
    (hblocks : h.blocks = w ++ mid)
    (hmidne : mid ≠ [])
    (haddr : ∀ x, mid.head? = some x → m.addr = x.addr)
    (hmidq : ∀ x ∈ mid, x.is_free = false → x.addr + H = q)
    (hqc : ∃ c ∈ mid, c.addr + H = q)
    (hqTb : ∀ Tb, tb = some Tb → q ≠ Tb.addr + H)
    (hwT : ∀ x, w.getLast? = some x → x.is_free = false)
    (hq : q ∈ S) :
    RInv H anchor tb (⟨m.addr, w⟩ : Heap) (S.erase q) := by
  obtain ⟨mh, hmh⟩ : ∃ x, mid.head? = some x := by
    cases mid with
    | nil => exact absurd rfl hmidne
    | cons a t => exact ⟨a, rfl⟩
  obtain ⟨ml, hml⟩ : ∃ y, mid.getLast? = some y := by
    rcases List.eq_nil_or_concat mid with rfl | ⟨m2, z, rfl⟩
    · exact absurd rfl hmidne
    · exact ⟨z, by simp only [List.concat_eq_append]; rw [List.getLast?_concat]⟩
  have hmraddr : m.addr = mh.addr := haddr mh hmh
  have hmlmem : ml ∈ mid := mem_getLast? mid ml hml
  have hblocks2 : h.blocks = w ++ (mid ++ []) := by rw [hblocks]; simp
  have sALL := hblocks2 ▸ R.sorted
  have nALL := hblocks2 ▸ R.noAdj
  obtain ⟨sw, smid, striv, swx, smr⟩ := chain'_extract_seg w mid [] sALL
  have nw := (chain'_extract_seg w mid [] nALL).1
  have hpw := sorted_pairwise _ sALL
  obtain ⟨hwm, hmr2⟩ := seg_addr_lt w mid [] hpw
  obtain ⟨cq, hcqmem, hcqe⟩ := hqc
  have hkeep : ∀ x : Block, x ∈ w → x.addr + H ≠ q := by
    intro x hx
    rw [← hcqe]
    intro hcon
    have hxa : x.addr = cq.addr := by omega
    exact absurd hxa (by have := hwm x hx cq hcqmem; omega)
  refine ⟨sw, nw, fun b hb => hwT b hb, R.tbT, ?_, ?_, ?_⟩
  · obtain ⟨pre, suf, hps, hpreA, hsufA, htbL, htbN, hheadS, hnil, hSf⟩ :=
      R.part
    have heq : pre ++ suf = w ++ (mid ++ []) := by
      rw [← hps]
      exact hblocks2
    rcases part_cases pre suf w mid [] heq with ⟨t, hwp, hsuf⟩ |
      ⟨s2, hpre, hrest2⟩ | ⟨t, m2, htne, hm2ne, hmid2, hpre, hsuf⟩
    · refine ⟨pre, t, hwp, hpreA, ?_, htbL, htbN, ?_, ?_, ?_⟩
      · intro b hb
        exact hsufA b (by rw [hsuf]; simp [hb])
      · intro b hb
        refine hheadS b ?_
        rcases ht : t with _ | ⟨a, t2⟩
        · subst ht
          simp at hb
        · subst ht
          rw [hsuf]
          simp only [List.cons_append, List.head?_cons] at hb ⊢
          exact hb
      · intro ht0
        subst ht0
        show m.addr = anchor
        rw [hmraddr]
        refine hheadS mh ?_
        rw [hsuf]
        simp only [List.nil_append]
        rw [List.head?_append_of_ne_nil mid hmidne]
        exact hmh
      · intro b hb hbT
        have h1 : b.addr + H ∈ S := hSf b (by rw [hsuf]; simp [hb]) hbT
        rw [List.mem_erase_of_ne (hkeep b (by rw [hwp]; simp [hb]))]
        exact h1
    · exfalso
      have hs2nil : s2 = [] := (List.append_eq_nil.mp hrest2.symm).1
      subst hs2nil
      rcases htb : tb with _ | Tb
      · have hp0 := htbN htb
        rw [hp0] at hpre
        exact hmidne (List.append_eq_nil.mp
          (List.append_eq_nil.mp hpre.symm).2).1
      · have hTbT := R.tbT Tb htb
        have hpl := htbL Tb htb
        have hpl2 : pre.getLast? = some ml := by
          rw [hpre]
          simp only [List.append_nil]
          rw [List.getLast?_append_of_ne_nil w hmidne]
          exact hml
        rw [hpl] at hpl2
        have hTbml : Tb = ml := by simpa using hpl2
        have h1 := hmidq ml hmlmem (by rw [← hTbml]; exact hTbT)
        rw [← hTbml] at h1
        exact hqTb Tb htb h1.symm
    · exfalso
      rcases htb : tb with _ | Tb
      · have hp0 := htbN htb
        rw [hp0] at hpre
        exact htne (List.append_eq_nil.mp hpre.symm).2
      · have hTbT := R.tbT Tb htb
        have hpl := htbL Tb htb
        obtain ⟨t', zz, rfl⟩ := (List.eq_nil_or_concat t).resolve_left htne
        simp only [List.concat_eq_append] at hpre hmid2
        have hzzTb : Tb = zz := by
          have hpl2 : pre.getLast? = some zz := by
            rw [hpre, show w ++ (t' ++ [zz]) = (w ++ t') ++ [zz] by simp,
              List.getLast?_concat]
          rw [hpl] at hpl2
          simpa using hpl2
        have hTbmid : Tb ∈ mid := by
          rw [hmid2, hzzTb]
          simp
        exact hqTb Tb htb (hmidq Tb hTbmid hTbT).symm
  · intro q' hq'
    have hq'S : q' ∈ S := List.mem_of_mem_erase hq'
    obtain ⟨c', hc'm, hc'e, hc'T, hc'Tb⟩ := R.ptrs q' hq'S
    rw [hblocks] at hc'm
    rcases List.mem_append.mp hc'm with hc'w | hc'mid
    · exact ⟨c', hc'w, hc'e, hc'T, hc'Tb⟩
    · exfalso
      have h1 : c'.addr + H = q := hmidq c' hc'mid hc'T
      have hq'q : q' = q := by rw [← hc'e, h1]
      rw [hq'q] at hq'
      exact ((List.Nodup.mem_erase_iff R.nodup).mp hq').1 rfl
  · exact R.nodup.erase q

end MyMalloc

namespace MyMalloc

set_option maxHeartbeats 2000000 in
/-- `my_free` on an outstanding pointer preserves the retraction
invariant and removes the pointer from the outstanding set — with no
bound on any size: a wrapping merge sum only changes a stored
`data_size`, which the invariant never reads. -/
theorem RInv_free (H anchor : Nat) (tb : Option Block) (h : Heap)
    (S : List Nat) (q : Nat) (hH : 0 < H)
    (R : RInv H anchor tb h S) (hq : q ∈ S) :
    RInv H anchor tb (my_free H h q) (S.erase q) := by
  obtain ⟨c, hcmem, hcq, hcT, hcTb⟩ := R.ptrs q hq
  subst hcq
  obtain ⟨u, v, hbs⟩ := List.append_of_mem hcmem
  have sALL : (u ++ c :: v).Chain' (fun x y => x.addr < y.addr) :=
    hbs ▸ R.sorted
  have nALL : (u ++ c :: v).Chain' (fun x y => x.is_free = true → y.is_free = false) :=
    hbs ▸ R.noAdj
  obtain ⟨nU, nV, nXL, nXR⟩ := chain'_extract u v c nALL
  have hne : ∀ x ∈ u, x.addr ≠ c.addr := by
    intro x hx
    have := chain_addr_lt_of_append u v c sALL x hx
    omega
  have hqTb : ∀ Tb, tb = some Tb → c.addr + H ≠ Tb.addr + H := by
    intro Tb hTb
    have := hcTb Tb hTb
    omega
  have hLsplit : (∀ x, u.getLast? = some x → x.is_free = false) ∨
      (∃ u2 L, u = u2 ++ [L] ∧ L.is_free = true) := by
    rcases List.eq_nil_or_concat u with rfl | ⟨u2, L, hu⟩
    · refine Or.inl ?_
      intro x hx
      simp at hx
    · by_cases hLf : L.is_free = true
      · exact Or.inr ⟨u2, L, by rw [hu]; simp, hLf⟩
      · refine Or.inl ?_
        intro x hx
        rw [hu] at hx
        simp only [List.concat_eq_append, List.getLast?_concat] at hx
        obtain rfl : L = x := by simpa using hx
        simpa using hLf
  rcases hLsplit with hL | ⟨u2, L, hu, hLf⟩
  next =>
    rcases hv : v with _ | ⟨R2, v2⟩
    · subst hv
      rw [my_free_nn H hH h u [] c hbs hne hL (by intro x hx; simp at hx),
        if_pos rfl]
      refine RInv_cut H anchor tb h S (c.addr + H) u [c]
        (⟨c.addr, true, c.data_size⟩ : Block) hH R hbs (by simp)
        ?_ ?_ ⟨c, by simp, rfl⟩ hqTb hL hq
      · intro x hx
        obtain rfl : c = x := by simpa using hx
        rfl
      · intro x hx hxT
        obtain rfl : x = c := by simpa using hx
        rfl
    · subst hv
      obtain ⟨nVR, nV2⟩ := List.chain'_cons'.mp nV
      by_cases hRf : R2.is_free = true
      · rcases hv2 : v2 with _ | ⟨y, v3⟩
        · subst hv2
          rw [my_free_nr H hH h u [] c R2 hbs hne hL hRf, if_pos rfl]
          refine RInv_cut H anchor tb h S (c.addr + H) u [c, R2]
            (⟨c.addr, true, (c.data_size + H + R2.data_size) % U32⟩ : Block)
            hH R hbs (by simp) ?_ ?_ ⟨c, by simp, rfl⟩ hqTb hL hq
          · intro x hx
            obtain rfl : c = x := by simpa using hx
            rfl
          · intro x hx hxT
            rcases (by simpa using hx : x = c ∨ x = R2) with rfl | rfl
            · rfl
            · rw [hRf] at hxT
              simp at hxT
        · subst hv2
          rw [my_free_nr H hH h u (y :: v3) c R2 hbs hne hL hRf,
            if_neg (by simp)]
          refine RInv_mid H anchor tb h S (c.addr + H) u [c, R2] (y :: v3)
            (⟨c.addr, true, (c.data_size + H + R2.data_size) % U32⟩ : Block)
            hH R hbs (by simp) (by simp) ?_ rfl ?_ ⟨c, by simp, rfl⟩ hqTb
            hL ?_ hq
          · intro x hx
            obtain rfl : c = x := by simpa using hx
            rfl
          · intro x hx hxT
            rcases (by simpa using hx : x = c ∨ x = R2) with rfl | rfl
            · rfl
            · rw [hRf] at hxT
              simp at hxT
          · intro z hz
            obtain rfl : y = z := by simpa using hz
            exact nVR y (by simp) hRf
      · have hRT : R2.is_free = false := by simpa using hRf
        have hRcond : ∀ x, (R2 :: v2)[0]? = some x → x.is_free = false := by
          intro x hx
          obtain rfl : R2 = x := by simpa using hx
          exact hRT
        have hRcondH : ∀ x, (R2 :: v2).head? = some x → x.is_free = false := by
          intro x hx
          obtain rfl : R2 = x := by simpa using hx
          exact hRT
        rw [my_free_nn H hH h u (R2 :: v2) c hbs hne hL hRcond,
          if_neg (by simp)]
        refine RInv_mid H anchor tb h S (c.addr + H) u [c] (R2 :: v2)
          (⟨c.addr, true, c.data_size⟩ : Block) hH R hbs (by simp) (by simp)
          ?_ rfl ?_ ⟨c, by simp, rfl⟩ hqTb hL hRcondH hq
        · intro x hx
          obtain rfl : c = x := by simpa using hx
          rfl
        · intro x hx hxT
          obtain rfl : x = c := by simpa using hx
          rfl
  next =>
    subst hu
    have hbs2 : h.blocks = u2 ++ L :: c :: v := by rw [hbs]; simp
    obtain ⟨nU2, ntriv, nXL2, nXLR⟩ := chain'_extract u2 [] L nU
    have hu2T : ∀ x, u2.getLast? = some x → x.is_free = false :=
      taken_before_free u2 L nXL2 hLf
    rcases hv : v with _ | ⟨R2, v2⟩
    · subst hv
      rw [my_free_ln H hH h u2 [] L c hbs2 hne hLf (by intro x hx; simp at hx),
        if_pos rfl]
      refine RInv_cut H anchor tb h S (c.addr + H) u2 [L, c]
        (⟨L.addr, true, (L.data_size + H + c.data_size) % U32⟩ : Block)
        hH R (by rw [hbs]; simp) (by simp) ?_ ?_ ⟨c, by simp, rfl⟩ hqTb
        hu2T hq
      · intro x hx
        obtain rfl : L = x := by simpa using hx
        rfl
      · intro x hx hxT
        rcases (by simpa using hx : x = L ∨ x = c) with rfl | rfl
        · rw [hLf] at hxT
          simp at hxT
        · rfl
    · subst hv
      obtain ⟨nVR, nV2⟩ := List.chain'_cons'.mp nV
      by_cases hRf : R2.is_free = true
      · rcases hv2 : v2 with _ | ⟨y, v3⟩
        · subst hv2
          rw [my_free_lr H hH h u2 [] L c R2 hbs2 hne hLf hRf, if_pos rfl]
          refine RInv_cut H anchor tb h S (c.addr + H) u2 [L, c, R2]
            (⟨L.addr, true,
              ((L.data_size + H + c.data_size) % U32 + H + R2.data_size) %
                U32⟩ : Block)
            hH R (by rw [hbs]; simp) (by simp) ?_ ?_ ⟨c, by simp, rfl⟩ hqTb
            hu2T hq
          · intro x hx
            obtain rfl : L = x := by simpa using hx
            rfl
          · intro x hx hxT
            rcases (by simpa using hx : x = L ∨ x = c ∨ x = R2) with
              rfl | rfl | rfl
            · rw [hLf] at hxT
              simp at hxT
            · rfl
            · rw [hRf] at hxT
              simp at hxT
        · subst hv2
          rw [my_free_lr H hH h u2 (y :: v3) L c R2 hbs2 hne hLf hRf,
            if_neg (by simp)]
          refine RInv_mid H anchor tb h S (c.addr + H) u2 [L, c, R2] (y :: v3)
            (⟨L.addr, true,
              ((L.data_size + H + c.data_size) % U32 + H + R2.data_size) %
                U32⟩ : Block)
            hH R hbs2 (by simp) (by simp) ?_ rfl ?_ ⟨c, by simp, rfl⟩ hqTb
            hu2T ?_ hq
          · intro x hx
            obtain rfl : L = x := by simpa using hx
            rfl
          · intro x hx hxT
            rcases (by simpa using hx : x = L ∨ x = c ∨ x = R2) with
              rfl | rfl | rfl
            · rw [hLf] at hxT
              simp at hxT
            · rfl
            · rw [hRf] at hxT
              simp at hxT
          · intro z hz
            obtain rfl : y = z := by simpa using hz
            exact nVR y (by simp) hRf
      · have hRT : R2.is_free = false := by simpa using hRf
        have hRcond : ∀ x, (R2 :: v2)[0]? = some x → x.is_free = false := by
          intro x hx
          obtain rfl : R2 = x := by simpa using hx
          exact hRT
        have hRcondH : ∀ x, (R2 :: v2).head? = some x → x.is_free = false := by
          intro x hx
          obtain rfl : R2 = x := by simpa using hx
          exact hRT
        rw [my_free_ln H hH h u2 (R2 :: v2) L c hbs2 hne hLf hRcond,
          if_neg (by simp)]
        refine RInv_mid H anchor tb h S (c.addr + H) u2 [L, c] (R2 :: v2)
          (⟨L.addr, true, (L.data_size + H + c.data_size) % U32⟩ : Block)
          hH R hbs2 (by simp) (by simp) ?_ rfl ?_ ⟨c, by simp, rfl⟩ hqTb
          hu2T hRcondH hq
        · intro x hx
          obtain rfl : L = x := by simpa using hx
          rfl
        · intro x hx hxT
          rcases (by simpa using hx : x = L ∨ x = c) with rfl | rfl
          · rw [hLf] at hxT
            simp at hxT
          · rfl

end MyMalloc

namespace MyMalloc

/-- Releasing, in any order, all outstanding pointers brings the break
back to the anchor — with no bound on sizes or on the total span. -/
theorem freePhase_anchor (H anchor : Nat) (tb : Option Block) (hH : 0 < H) :
    ∀ (qs : List Nat) (h : Heap) (S : List Nat),
      RInv H anchor tb h S → S.Perm qs →
      (freePhase H h qs).brk = anchor := by
  intro qs
  induction qs with
  | nil =>
    intro h S R hperm
    have hS : S = [] := hperm.eq_nil
    subst hS
    simpa [freePhase] using RInv_term H anchor tb h R
  | cons q rest ih =>
    intro h S R hperm
    have hqS : q ∈ S := hperm.mem_iff.mpr (by simp)
    have R' := RInv_free H anchor tb h S q hH R hqS
    simp only [freePhase]
    refine ih (my_free H h q) (S.erase q) R' ?_
    have h1 := hperm.erase q
    simpa using h1

/-- C2 (amended): for every sequence of allocate calls (each with
size > 0 and each succeeding) followed by release of every returned
pointer, in any order, starting from any state satisfying the §3
invariants whose tail block (if any) is TAKEN, the break pointer after
the last release equals the break pointer before the first allocate.
This holds even when coalesce sums wrap in `uint32_t`: the release path
branches only on FREE flags and list structure and retracts the break
to a header address, never through a stored size. -/
theorem c2_round_trip_amended (H : Nat) (hH : 0 < H) (h8 : 8 ∣ H)
    (h0 : Heap) (I : Spec3Inv H h0)
    (htail : ∀ b, h0.blocks.getLast? = some b → b.is_free = false)
    (sizes qs : List Nat) (hsz : ∀ s ∈ sizes, 0 < s)
    (hperm : ((allocPhase H h0 sizes).2).Perm qs) :
    (freePhase H (allocPhase H h0 sizes).1 qs).brk = h0.brk := by
  have P0 := PhaseInv_of_Spec3 H hH false h0 I htail
  have P1 := allocPhase_inv H h0.brk (!h0.blocks.isEmpty) hH h8 sizes h0 [] P0
  obtain ⟨tb, R⟩ := RInv_of_PhaseInv H h0.brk (!h0.blocks.isEmpty) false
    (allocPhase H h0 sizes).1 ([] ++ (allocPhase H h0 sizes).2) hH P1
  refine freePhase_anchor H h0.brk tb hH qs (allocPhase H h0 sizes).1
    ([] ++ (allocPhase H h0 sizes).2) R ?_
  simpa using hperm

/-- Witness for the amended C2: from a one-block TAKEN-tail heap,
allocate 16 bytes (appended at the break, pointer 64) and release it;
the break returns to 40. -/
theorem c2_round_trip_amended_witness :
    (freePhase 24 (allocPhase 24 (⟨40, [(⟨0, false, 16⟩ : Block)]⟩ : Heap)
      [16]).1 [64]).brk = 40 := by
  refine c2_round_trip_amended 24 (by norm_num) (by norm_num)
    (⟨40, [(⟨0, false, 16⟩ : Block)]⟩ : Heap) ?_ ?_ [16] [64] ?_ ?_
  · refine ⟨by simp, ?_, by simp, ?_, ?_, ?_⟩
    · intro b hb
      obtain rfl : (⟨0, false, 16⟩ : Block) = b := by simpa using hb
      show (40 : Nat) = endAddr 24 (⟨0, false, 16⟩ : Block)
      norm_num [endAddr]
    · intro b hb
      obtain rfl : b = (⟨0, false, 16⟩ : Block) := by simpa using hb
      norm_num
    · intro b hb
      obtain rfl : b = (⟨0, false, 16⟩ : Block) := by simpa using hb
      norm_num
    · intro b hb
      obtain rfl : b = (⟨0, false, 16⟩ : Block) := by simpa using hb
      norm_num [U32]
  · intro b hb
    obtain rfl : (⟨0, false, 16⟩ : Block) = b := by simpa using hb
    rfl
  · intro s hs
    have h1 : s = 16 := by simpa using hs
    omega
  · have e : (allocPhase 24 (⟨40, [(⟨0, false, 16⟩ : Block)]⟩ : Heap) [16]).2 =
        [64] := by rfl
    rw [e]

end MyMalloc
